import Mathlib

/-!
# Verification development for `ann.c`

A shallow embedding of the numeric core of `src/ann.c` (layers, connections,
the forward pass, the two back-propagation entry points and the gradient
operations), followed by theorems about it.

Modelling conventions.

* A C `float` is an element of an arbitrary linearly ordered field `F`
  (for instance `ℚ` or `ℝ`); infinities and NaN are outside the model, and
  `expf` is a parameter of the functions that use it.  The first embedding
  of each function takes the float operations as exact: it is used for the
  properties that say which value is computed and where it is stored.
* The properties that depend on rounding (associativity of `accumulate`,
  undoing an `update`, the range of `sigmoid`, the order of accumulation in
  a batch) are stated on a second embedding of the same C code, in which
  every float operation is followed by a rounding `rnd : F → F`
  (`lconnection_accumulate_rnd`, `lconnection_update_rnd`,
  `lfeedforward_rnd`).  The theorems hold for every `rnd`; the concrete
  evaluations take `round32`, the IEEE binary32 rounding to nearest, ties to
  even, on the rationals.
* A userdata buffer of `n` floats is a `List F` of length `n`.  Reading or
  writing outside the buffer is undefined behaviour in C and is the outcome
  `Outcome.fault` here, as is an overflow in `int` arithmetic.
* `luaL_error` unwinds the C function but leaves memory as it is at that
  point: the outcome `Outcome.raised e s` carries the message `e` and the
  memory `s` at the moment of the error.
* Every entry point receives the userdata objects found on its Lua stack
  as one record and returns the same record after the call; the operands
  are distinct objects.
* `int` counters and sizes of existing objects are natural numbers: buffer
  lengths and shape descriptors are non-negative and stay below `2^31`.
  Where a 64-bit `lua_Integer` argument is narrowed to `int`
  (`llayer_init_n`, `lconnection`) the narrowing is modelled explicitly
  (`int_of_lua_Integer`), and so is the `int` arithmetic of `lconnection`.
-/

namespace Ann

/-! ## Outcomes, errors, memory accesses, loops -/

/-- Messages of the `luaL_error` calls of `ann.c` (and of the `luaL_check*`
argument check that can fail on a well-typed stack). -/
inductive Msg
  /-- Message "Invalid image size %d != %d" -/
  | invalidImageSize
  /-- Message "Invalid n (%d)" -/
  | invalidN
  /-- Message "accumlate size mismatch" -/
  | accumulateSizeMismatch
  /-- Message "update size mismatch" -/
  | updateSizeMismatch
  /-- The error of `luaL_checknumber` on a value that is not a number -/
  | numberExpected
  /-- Message "Invalid size" -/
  | invalidSize
  /-- Message "Invalid bias[%d]" -/
  | invalidBias (i : Nat)
  /-- Message "Invalid weight[%d]" -/
  | invalidWeight (i : Nat)
  /-- Message "Invalid weight_size[%d]" -/
  | invalidWeightSize (i : Nat)
  /-- Message "Invalid weight[%d][%d]" -/
  | invalidWeightElem (i j : Nat)
  /-- Message "Invalid output delta" -/
  | invalidOutputDelta
  /-- Message "input/output mismatch" -/
  | inputOutputMismatch
  /-- The error of `lua_newuserdatauv` on a size above the largest block
  ("memory allocation error: block too big") -/
  | blockTooBig
  deriving DecidableEq, Repr

/-- The two error classes of the specification. -/
inductive ErrKind
  | InvalidArgument
  | ShapeMismatch
  deriving DecidableEq, Repr

/-- Modelled from the spec: the error taxonomy of section 7, which the C
code does not declare (it only has message strings).  Wrong image length,
out-of-range index and malformed import payload are `InvalidArgument`;
dimension mismatches between the operands of accumulate, update and the
back-propagation entry points are `ShapeMismatch`.  The allocation error,
which the taxonomy does not list, is put with the argument errors. -/
def Msg.kind : Msg → ErrKind
  | .invalidImageSize => .InvalidArgument
  | .invalidN => .InvalidArgument
  | .accumulateSizeMismatch => .ShapeMismatch
  | .updateSizeMismatch => .ShapeMismatch
  | .numberExpected => .InvalidArgument
  | .invalidSize => .InvalidArgument
  | .invalidBias _ => .InvalidArgument
  | .invalidWeight _ => .InvalidArgument
  | .invalidWeightSize _ => .InvalidArgument
  | .invalidWeightElem _ _ => .InvalidArgument
  | .invalidOutputDelta => .ShapeMismatch
  | .inputOutputMismatch => .ShapeMismatch
  | .blockTooBig => .InvalidArgument

/-- Outcome of running a piece of C code on memory of type `σ`. -/
inductive Outcome (σ : Type)
  /-- Normal return, with the final memory (or the returned value) -/
  | ok (s : σ)
  /-- A Lua error was raised; `s` is the memory at that moment -/
  | raised (e : Msg) (s : σ)
  /-- Undefined behaviour: an access outside a buffer, or an overflow in
  `int` arithmetic -/
  | fault
  deriving DecidableEq, Repr

/-- Transport of the memory carried by an outcome. -/
def Outcome.map {σ τ : Type} (g : σ → τ) : Outcome σ → Outcome τ
  | .ok s => .ok (g s)
  | .raised e s => .raised e (g s)
  | .fault => .fault

/-- The call raised a Lua error of class `k`. -/
def Outcome.failsWith {σ : Type} (k : ErrKind) (o : Outcome σ) : Prop :=
  ∃ e s, o = .raised e s ∧ e.kind = k

/-- The call raised a Lua error (of any class). -/
def Outcome.fails {σ : Type} (o : Outcome σ) : Prop :=
  ∃ e s, o = .raised e s

/-- The memory left by the call satisfies `P`, whenever the call returns or
raises an error. -/
def Outcome.leaves {σ : Type} (P : σ → Prop) : Outcome σ → Prop
  | .ok s => P s
  | .raised _ s => P s
  | .fault => True

/-- Write `buf[k] = x`. -/
def store {α : Type} (buf : List α) (k : Nat) (x : α) : Outcome (List α) :=
  if k < buf.length then .ok (buf.set k x) else .fault

/-- The loop `for (i = start; i < start + count; i++) body`, stopping at the
first error or fault. -/
def forLoop {σ : Type} (body : Nat → σ → Outcome σ) : Nat → Nat → σ → Outcome σ
  | 0, _, s => .ok s
  | count + 1, i, s =>
    match body i s with
    | .ok s1 => forLoop body count (i + 1) s1
    | .raised e s1 => .raised e s1
    | .fault => .fault

/-! ## Data model -/

/-- The C `struct layer`: `data` is the userdata buffer and `n` its length
in floats (`checklayer` computes it from `lua_rawlen`). -/
structure layer (F : Type) where
  data : List F
  deriving DecidableEq, Repr

/-- The field `n` of `struct layer`. -/
def layer.n {F : Type} (l : layer F) : Nat := l.data.length

/-- The C `struct connection`: the shape descriptor. -/
structure connection where
  input_n : Nat
  output_n : Nat
  deriving DecidableEq, Repr

/-- An `ANN_CONNECTION` userdata: the float buffer `f` together with its
user value, the shape descriptor `c`. -/
structure ConnectionObj (F : Type) where
  c : connection
  f : List F
  deriving DecidableEq, Repr

/-- The shape invariant of section 3 of the specification: the buffer holds
`input_n * output_n + output_n` floats. -/
def ConnectionObj.wf {F : Type} (k : ConnectionObj F) : Prop :=
  k.f.length = k.c.input_n * k.c.output_n + k.c.output_n

instance {F : Type} (k : ConnectionObj F) : Decidable k.wf := by
  unfold ConnectionObj.wf; infer_instance

/-- The connection `k2` has the shape descriptor and the buffer length of
`k1`. -/
def ConnectionObj.sameShape {F : Type} (k1 k2 : ConnectionObj F) : Prop :=
  k2.c = k1.c ∧ k2.f.length = k1.f.length

/-- A value read from a Lua table where a number is expected. -/
inductive LuaNum (F : Type)
  /-- The case where `lua_rawgeti` answered `LUA_TNUMBER` -/
  | number (x : F)
  /-- Any other Lua value -/
  | other
  deriving DecidableEq, Repr

/-- A value read from a Lua table where a table of numbers is expected.
A table is its sequence part: `lua_rawlen` is the length of the list and
`lua_rawgeti` beyond it yields nil. -/
inductive LuaRow (F : Type)
  /-- The case where `lua_rawgeti` answered `LUA_TTABLE` -/
  | table (xs : List (LuaNum F))
  /-- Any other Lua value -/
  | other
  deriving DecidableEq, Repr

/-- Stack of `accumulate` and `update`: the two connections. -/
structure AccMem (F : Type) where
  base : ConnectionObj F
  delta : ConnectionObj F
  deriving DecidableEq, Repr

/-- Stack of `feedforward`. -/
structure FeedforwardMem (F : Type) where
  input : layer F
  output : layer F
  conn : ConnectionObj F
  deriving DecidableEq, Repr

/-- Stack of `backprop_last`. -/
structure BackpropLastMem (F : Type) where
  input : layer F
  result : layer F
  expect : layer F
  delta : ConnectionObj F
  deriving DecidableEq, Repr

/-- Stack of `backprop`. -/
structure BackpropMem (F : Type) where
  input : layer F
  z : layer F
  delta : ConnectionObj F
  delta_last : ConnectionObj F
  conn_output : ConnectionObj F
  deriving DecidableEq, Repr

/-- Conversion of a `lua_Integer` (64 bits) to a C `int` (32 bits, two's
complement), as in `int n = luaL_checkinteger(L, 2)`. -/
def int_of_lua_Integer (x : Int) : Int :=
  (x + 2 ^ 31) % 2 ^ 32 - 2 ^ 31

section Code

variable {F : Type} [LinearOrderedField F]

/-! ## Layer operations -/

/-- The function `llayer_init(self, image)`: the image is a Lua string, a sequence of
bytes. -/
def llayer_init (self : layer F) (image : List (Fin 256)) : Outcome (layer F) :=
  if image.length ≠ self.n then .raised .invalidImageSize self
  else
    Outcome.map layer.mk
      (forLoop (fun i data =>
          match image[i]? with
          | some px => store data i ((px.val : F) / 255)
          | none => .fault)
        self.n 0 self.data)

/-- The function `llayer_init_n(self, index)`. -/
def llayer_init_n (self : layer F) (index : Int) : Outcome (layer F) :=
  let n := int_of_lua_Integer index
  if n < 0 ∨ n ≥ (self.n : Int) then .raised .invalidN self
  else Outcome.map layer.mk (store (List.replicate self.n (0 : F)) n.toNat 1)

/-- Local variables of the scan of `llayer_max`. -/
structure MaxState (F : Type) where
  m : F
  s : F
  idx : Nat
  deriving DecidableEq, Repr

/-- One iteration of the scan of `llayer_max`. -/
def llayer_max_body (self : layer F) (i : Nat) (st : MaxState F) : Outcome (MaxState F) :=
  match self.data[i]? with
  | some x =>
    let st1 : MaxState F := if x > st.m then { st with m := x, idx := i } else st
    .ok { st1 with s := st1.s + x }
  | none => .fault

/-- The function `llayer_max(self)`: the pair pushed on the Lua stack, the index and the
proportion `m / s`. -/
def llayer_max (self : layer F) : Outcome (Nat × F) :=
  match self.data[0]? with
  | none => .fault
  | some d0 =>
    match forLoop (llayer_max_body self) (self.n - 1) 1 { m := d0, s := d0, idx := 0 } with
    | .ok st => .ok (st.idx, st.m / st.s)
    | _ => .fault

/-! ## Connection operations -/

/-- One iteration of `lconnection_accumulate`: `base[i] += delta[i]`. -/
def lconnection_accumulate_body (delta : List F) (i : Nat) (base : List F) : Outcome (List F) :=
  match base[i]?, delta[i]? with
  | some x, some y => store base i (x + y)
  | _, _ => .fault

/-- The function `lconnection_accumulate(base, delta)`. -/
def lconnection_accumulate (a : AccMem F) : Outcome (AccMem F) :=
  let base_n := a.base.f.length
  let delta_n := a.delta.f.length
  if base_n ≠ delta_n then .raised .accumulateSizeMismatch a
  else
    Outcome.map (fun b => { a with base := { a.base with f := b } })
      (forLoop (lconnection_accumulate_body a.delta.f) base_n 0 a.base.f)

/-- One iteration of `lconnection_update`:
`base[i] = base[i] - eta * delta[i]`. -/
def lconnection_update_body (eta : F) (delta : List F) (i : Nat) (base : List F) :
    Outcome (List F) :=
  match base[i]?, delta[i]? with
  | some x, some y => store base i (x - eta * y)
  | _, _ => .fault

/-- The function `lconnection_update(base, delta, eta)`; `eta` is the third Lua argument,
checked by `luaL_checknumber` after the size test. -/
def lconnection_update (a : AccMem F) (eta : LuaNum F) : Outcome (AccMem F) :=
  let base_n := a.base.f.length
  let delta_n := a.delta.f.length
  if base_n ≠ delta_n then .raised .updateSizeMismatch a
  else
    match eta with
    | .other => .raised .numberExpected a
    | .number eta =>
      Outcome.map (fun b => { a with base := { a.base with f := b } })
        (forLoop (lconnection_update_body eta a.delta.f) base_n 0 a.base.f)

/-- The function `weight(base, c, output_idx)`: the offset of the row of `output_idx`
from `base`. -/
def weight (c : connection) (output_idx : Nat) : Nat :=
  c.input_n * output_idx + c.output_n

/-- The function `bias(base, c)`: the offset of the bias segment from `base`. -/
def bias (_c : connection) : Nat := 0

/-- First loop of `lconnection_import`: the bias segment. -/
def lconnection_import_bias (c : connection) (biasT : List (LuaNum F)) (i : Nat)
    (f : List F) : Outcome (List F) :=
  match biasT[i]? with
  | some (.number x) => store f (bias c + i) x
  | _ => .raised (.invalidBias (i + 1)) f

/-- Innermost loop of `lconnection_import`: one weight. -/
def lconnection_import_elem (w : Nat) (i : Nat) (row : List (LuaNum F)) (j : Nat)
    (f : List F) : Outcome (List F) :=
  match row[j]? with
  | some (.number x) => store f (w + j) x
  | _ => .raised (.invalidWeightElem (i + 1) (j + 1)) f

/-- Second loop of `lconnection_import`: one row of weights. -/
def lconnection_import_row (c : connection) (weightT : List (LuaRow F)) (i : Nat)
    (f : List F) : Outcome (List F) :=
  match weightT[i]? with
  | some (.table row) =>
    let n := row.length
    if n ≠ c.input_n then .raised (.invalidWeightSize (i + 1)) f
    else forLoop (lconnection_import_elem (weight c i) i row) n 0 f
  | _ => .raised (.invalidWeight (i + 1)) f

/-- The function `lconnection_import(self, bias, weight)`; both payloads are Lua tables
(`luaL_checktype` has passed). -/
def lconnection_import (self : ConnectionObj F) (biasT : List (LuaNum F))
    (weightT : List (LuaRow F)) : Outcome (ConnectionObj F) :=
  let c := self.c
  let size_bias := biasT.length
  let size_weight := weightT.length
  if size_bias ≠ size_weight ∧ size_bias ≠ c.output_n then .raised .invalidSize self
  else
    Outcome.map (fun b => { self with f := b })
      (match forLoop (lconnection_import_bias c biasT) c.output_n 0 self.f with
       | .ok f1 => forLoop (lconnection_import_row c weightT) c.output_n 0 f1
       | r => r)

/-! ## Forward and backward passes -/

/-- The function `sigmoid(z) = 1 / (1 + expf(-z))`. -/
def sigmoid (expf : F → F) (z : F) : F := 1 / (1 + expf (-z))

/-- The function `sigmoid_prime(s) = s * (1 - s)`. -/
def sigmoid_prime (s : F) : F := s * (1 - s)

/-- Inner loop of `lfeedforward`: `s += input.data[j] * w[j]`. -/
def lfeedforward_sum (input : layer F) (f : List F) (w : Nat) (j : Nat) (s : F) : Outcome F :=
  match input.data[j]?, f[w + j]? with
  | some x, some y => .ok (s + x * y)
  | _, _ => .fault

/-- Outer loop body of `lfeedforward`. -/
def lfeedforward_body (expf : F → F) (input : layer F) (conn : ConnectionObj F) (i : Nat)
    (output : List F) : Outcome (List F) :=
  let w := weight conn.c i
  let b := bias conn.c
  match forLoop (lfeedforward_sum input conn.f w) input.n 0 0 with
  | .ok s =>
    match conn.f[b + i]? with
    | some bi => store output i (sigmoid expf (s + bi))
    | none => .fault
  | _ => .fault

/-- The function `lfeedforward(input, output, connections)`. -/
def lfeedforward (expf : F → F) (a : FeedforwardMem F) : Outcome (FeedforwardMem F) :=
  Outcome.map (fun o => { a with output := layer.mk o })
    (forLoop (lfeedforward_body expf a.input a.conn) a.output.n 0 a.output.data)

/-- Innermost loop of both back-propagation entry points:
`nabla_w[j] = d * input.data[j]`. -/
def nabla_w_body (input : layer F) (nabla_w : Nat) (d : F) (j : Nat) (delta : List F) :
    Outcome (List F) :=
  match input.data[j]? with
  | some x => store delta (nabla_w + j) (d * x)
  | none => .fault

/-- End of the outer loop body of both back-propagation entry points, once
`d` is known: `nabla_b[i] = d`, then the loop over `nabla_w`. -/
def nabla_store (input : layer F) (nabla_b nabla_w : Nat) (i : Nat) (d : F)
    (delta : List F) : Outcome (List F) :=
  match store delta (nabla_b + i) d with
  | .ok delta1 => forLoop (nabla_w_body input nabla_w d) input.n 0 delta1
  | o => o

/-- Outer loop body of `lbackprop_last`. -/
def lbackprop_last_body (a : BackpropLastMem F) (i : Nat) (delta : List F) :
    Outcome (List F) :=
  let c := a.delta.c
  let nabla_b := bias c
  let nabla_w := weight c i
  match a.result.data[i]?, a.expect.data[i]? with
  | some r, some e =>
    let d := (r - e) * sigmoid_prime r
    nabla_store a.input nabla_b nabla_w i d delta
  | _, _ => .fault

/-- The function `lbackprop_last(input, result, expect, delta)`. -/
def lbackprop_last (a : BackpropLastMem F) : Outcome (BackpropLastMem F) :=
  let c := a.delta.c
  if c.input_n ≠ a.input.n ∨ c.output_n ≠ a.result.n then .raised .invalidOutputDelta a
  else
    Outcome.map (fun d => { a with delta := { a.delta with f := d } })
      (forLoop (lbackprop_last_body a) c.output_n 0 a.delta.f)

/-- Inner loop of `lbackprop`:
`d += delta_last_b[j] * weight(conn_output, output_c, j)[i]`. -/
def lbackprop_sum (a : BackpropMem F) (i : Nat) (j : Nat) (d : F) : Outcome F :=
  let output_c := a.delta_last.c
  let delta_last_b := bias output_c
  match a.delta_last.f[delta_last_b + j]?, a.conn_output.f[weight output_c j + i]? with
  | some x, some y => .ok (d + x * y)
  | _, _ => .fault

/-- Outer loop body of `lbackprop`. -/
def lbackprop_body (a : BackpropMem F) (i : Nat) (delta : List F) : Outcome (List F) :=
  let input_c := a.delta.c
  let output_c := a.delta_last.c
  let nabla_b := bias input_c
  let nabla_w := weight input_c i
  match forLoop (lbackprop_sum a i) output_c.output_n 0 0 with
  | .ok d0 =>
    match a.z.data[i]? with
    | some zi =>
      let d := d0 * sigmoid_prime zi
      nabla_store a.input nabla_b nabla_w i d delta
    | none => .fault
  | _ => .fault

/-- The function `lbackprop(input, z, delta, delta_last, conn_output)`. -/
def lbackprop (a : BackpropMem F) : Outcome (BackpropMem F) :=
  let input_c := a.delta.c
  let output_c := a.delta_last.c
  if input_c.output_n ≠ output_c.input_n ∨ input_c.output_n ≠ a.z.n ∨
      input_c.input_n ≠ a.input.n then
    .raised .inputOutputMismatch a
  else
    Outcome.map (fun d => { a with delta := { a.delta with f := d } })
      (forLoop (lbackprop_body a) a.z.n 0 a.delta.f)

/-! ## Creation, randomisation and dump of a connection -/

/-- The values a C `int` can hold. -/
def in_int_range (x : Int) : Prop := -2 ^ 31 ≤ x ∧ x < 2 ^ 31

instance (x : Int) : Decidable (in_int_range x) := by
  unfold in_int_range; infer_instance

/-- The pair of userdata made by `lconnection`: the fields of the
`struct connection` (C `int`s, possibly negative) and the float buffer. -/
structure NewConnection (F : Type) where
  input_n : Int
  output_n : Int
  data : List F
  deriving DecidableEq, Repr

/-- The function `lconnection(x, y)`.  Both arguments are Lua integers,
narrowed to `int` when stored in the descriptor.  The count
`c->input_n * c->output_n + c->output_n` is computed in `int`: leaving the
range of `int` is undefined behaviour.  A negative count becomes a `size_t`
above the largest block Lua allocates, and `lua_newuserdatauv` raises its
error; otherwise the buffer is allocated (memory is assumed to suffice) and
cleared by `memset`. -/
def lconnection (x y : Int) : Outcome (NewConnection F) :=
  let input_n := int_of_lua_Integer x
  let output_n := int_of_lua_Integer y
  let product := input_n * output_n
  if ¬ in_int_range product then .fault
  else
    let count := product + output_n
    if ¬ in_int_range count then .fault
    else if count < 0 then
      .raised .blockTooBig { input_n := input_n, output_n := output_n, data := [] }
    else
      .ok { input_n := input_n, output_n := output_n,
            data := List.replicate count.toNat (0 : F) }

/-- The function `randf()`, on the value `r` that `rand()` returned (a
non-negative `int`, so that `r & 0x7fff` is `r % 0x8000`). -/
def randf (r : Nat) : F := ((r % 32768 + 1 : Nat) : F) / 32768

/-- The constant `PI = 3.1415927f` of `randnorm`. -/
def PI : F := 31415927 / 10000000

/-- The C library functions used by `randnorm`. -/
structure Libm (F : Type) where
  sqrtf : F → F
  logf : F → F
  cosf : F → F

/-- The function `randnorm(r1, r2)`. -/
def randnorm (m : Libm F) (r1 r2 : F) : F :=
  m.sqrtf (-2 * m.logf r1) * m.cosf (2 * PI * r2)

/-- Local state of the loop of `lconnection_randn`: the buffer, the running
sample `s` and the number of calls of `rand()` made so far in the process. -/
structure RandnState (F : Type) where
  f : List F
  s : F
  calls : Nat
  deriving DecidableEq, Repr

/-- One iteration of `lconnection_randn`; `rand k` is the value returned by
the call number `k` of `rand()`. -/
def lconnection_randn_body (m : Libm F) (rand : Nat → Nat) (i : Nat) (st : RandnState F) :
    Outcome (RandnState F) :=
  let r : F := randf (rand st.calls)
  match store st.f i (randnorm m st.s r) with
  | .ok f1 => .ok { f := f1, s := r, calls := st.calls + 1 }
  | .raised e f1 => .raised e { st with f := f1 }
  | .fault => .fault

/-- The function `lconnection_randn(self)`, started when `calls` calls of
`rand()` have been made; it returns the connection and the new number of
calls. -/
def lconnection_randn (m : Libm F) (rand : Nat → Nat) (calls : Nat) (self : ConnectionObj F) :
    Outcome (ConnectionObj F × Nat) :=
  let n := self.f.length
  let s : F := randf (rand calls)
  Outcome.map (fun st => ({ self with f := st.f }, st.calls))
    (forLoop (lconnection_randn_body m rand) n 0 { f := self.f, s := s, calls := calls + 1 })

/-- Rounding of a rational to the nearest integer, ties to the even one. -/
def round_half_even (y : ℚ) : ℤ :=
  if y - ⌊y⌋ < 1 / 2 then ⌊y⌋
  else if 1 / 2 < y - ⌊y⌋ then ⌊y⌋ + 1
  else if ⌊y⌋ % 2 = 0 then ⌊y⌋ else ⌊y⌋ + 1

/-- Exponent of the binade of `x` in binary32: `floor (log2 |x|)`, and
`-126` in the subnormal range. -/
def f32_exponent (x : ℚ) : ℤ := max (Int.log 2 |x|) (-126)

/-- Spacing of the binary32 values around `x` (24 significant bits). -/
def f32_ulp (x : ℚ) : ℚ := (2 : ℚ) ^ (f32_exponent x - 23)

/-- Rounding to binary32: to the nearest multiple of the spacing, ties to
the even significand.  Overflow to infinity is not modelled. -/
def round32 (x : ℚ) : ℚ := (round_half_even (x / f32_ulp x) : ℚ) * f32_ulp x

/-- The rounding `rnd` has relative error at most `u` at `x`:
`|rnd x - x| ≤ u * |x|`.  The binary32 rounding has it with `u = 2^-24` at 0
and at every `x` of the normal range. -/
def rounds_within (rnd : F → F) (u x : F) : Prop := |rnd x - x| ≤ u * |x|

/-- Rounding to binary64, the format of the Lua numbers of the host: 53
significant bits, exponents from -1022.  Overflow to infinity is not
modelled. -/
def round64 (x : ℚ) : ℚ :=
  (round_half_even (x / (2 : ℚ) ^ (max (Int.log 2 |x|) (-1022) - 52)) : ℚ) *
    (2 : ℚ) ^ (max (Int.log 2 |x|) (-1022) - 52)

/-- One iteration of `lconnection_accumulate` in rounded arithmetic:
`base[i] += delta[i]`. -/
def lconnection_accumulate_body_rnd (rnd : F → F) (delta : List F) (i : Nat)
    (base : List F) : Outcome (List F) :=
  match base[i]?, delta[i]? with
  | some x, some y => store base i (rnd (x + y))
  | _, _ => .fault

/-- The function `lconnection_accumulate(base, delta)` in rounded
arithmetic. -/
def lconnection_accumulate_rnd (rnd : F → F) (a : AccMem F) : Outcome (AccMem F) :=
  let base_n := a.base.f.length
  let delta_n := a.delta.f.length
  if base_n ≠ delta_n then .raised .accumulateSizeMismatch a
  else
    Outcome.map (fun b => { a with base := { a.base with f := b } })
      (forLoop (lconnection_accumulate_body_rnd rnd a.delta.f) base_n 0 a.base.f)

/-- One iteration of `lconnection_update` in rounded arithmetic:
`base[i] = base[i] - eta * delta[i]`, the product and the difference each
rounded. -/
def lconnection_update_body_rnd (rnd : F → F) (eta : F) (delta : List F) (i : Nat)
    (base : List F) : Outcome (List F) :=
  match base[i]?, delta[i]? with
  | some x, some y => store base i (rnd (x - rnd (eta * y)))
  | _, _ => .fault

/-- The function `lconnection_update(base, delta, eta)` in rounded
arithmetic; the Lua number `eta` is narrowed by `float eta =
luaL_checknumber(L, 3)`. -/
def lconnection_update_rnd (rnd : F → F) (a : AccMem F) (eta : LuaNum F) :
    Outcome (AccMem F) :=
  let base_n := a.base.f.length
  let delta_n := a.delta.f.length
  if base_n ≠ delta_n then .raised .updateSizeMismatch a
  else
    match eta with
    | .other => .raised .numberExpected a
    | .number eta =>
      Outcome.map (fun b => { a with base := { a.base with f := b } })
        (forLoop (lconnection_update_body_rnd rnd (rnd eta) a.delta.f) base_n 0 a.base.f)

/-- The function `sigmoid(z) = 1.0f / (1.0f + expf(-z))` in rounded
arithmetic; `expf` returns a float and the negation is exact. -/
def sigmoid_rnd (rnd : F → F) (expf : F → F) (z : F) : F :=
  rnd (1 / rnd (1 + expf (-z)))

/-- Inner loop of `lfeedforward` in rounded arithmetic:
`s += input.data[j] * w[j]`. -/
def lfeedforward_sum_rnd (rnd : F → F) (input : layer F) (f : List F) (w : Nat) (j : Nat)
    (s : F) : Outcome F :=
  match input.data[j]?, f[w + j]? with
  | some x, some y => .ok (rnd (s + rnd (x * y)))
  | _, _ => .fault

/-- Outer loop body of `lfeedforward` in rounded arithmetic. -/
def lfeedforward_body_rnd (rnd : F → F) (expf : F → F) (input : layer F)
    (conn : ConnectionObj F) (i : Nat) (output : List F) : Outcome (List F) :=
  let w := weight conn.c i
  let b := bias conn.c
  match forLoop (lfeedforward_sum_rnd rnd input conn.f w) input.n 0 0 with
  | .ok s =>
    match conn.f[b + i]? with
    | some bi => store output i (sigmoid_rnd rnd expf (rnd (s + bi)))
    | none => .fault
  | _ => .fault

/-- The function `lfeedforward(input, output, connections)` in rounded
arithmetic. -/
def lfeedforward_rnd (rnd : F → F) (expf : F → F) (a : FeedforwardMem F) :
    Outcome (FeedforwardMem F) :=
  Outcome.map (fun o => { a with output := layer.mk o })
    (forLoop (lfeedforward_body_rnd rnd expf a.input a.conn) a.output.n 0 a.output.data)

/-- Modelled from the spec: the accumulation loop of the batch-training
contract of section 4.5, which is host code outside `ann.c`: the deltas are
accumulated one after the other, in the order of the list, into `acc`. -/
def accumulate_all (rnd : F → F) (acc : ConnectionObj F) :
    List (ConnectionObj F) → Outcome (ConnectionObj F)
  | [] => .ok acc
  | d :: ds =>
    match lconnection_accumulate_rnd rnd { base := acc, delta := d } with
    | .ok r => accumulate_all rnd r.base ds
    | .raised e r => .raised e r.base
    | .fault => .fault

/-- Modelled from the spec: the batch step of section 4.5, host code outside
`ann.c`: accumulate the deltas into `acc`, then call
`update(W, acc, eta / m)` where `m` is the number of deltas; the result is
the live-weight connection.  The quotient is computed by the host on Lua
numbers, which are doubles: `rnd64` is the rounding of that division, and
`update` then narrows the quotient to `float`. -/
def batch_step (rnd rnd64 : F → F) (W acc : ConnectionObj F) (ds : List (ConnectionObj F))
    (eta : F) : Outcome (ConnectionObj F) :=
  match accumulate_all rnd acc ds with
  | .ok g =>
    Outcome.map (fun r => r.base)
      (lconnection_update_rnd rnd { base := W, delta := g }
        (.number (rnd64 (eta / (ds.length : F)))))
  | .raised e _ => .raised e W
  | .fault => .fault

/-- The value that the accumulation of the slot values `xs`, in this order,
leaves in a slot that held `s`: each addition is rounded. -/
def rounded_sum (rnd : F → F) (s : F) (xs : List F) : F :=
  xs.foldl (fun t x => rnd (t + x)) s

/-- The value of `s` after `n` iterations of the inner loop of
`lfeedforward` on the inputs `x j` and the weights `w j`: each product and
each addition is rounded. -/
def rounded_dot (rnd : F → F) (x w : Nat → F) : Nat → F
  | 0 => 0
  | n + 1 => rnd (rounded_dot rnd x w n + rnd (x n * w n))

/-- The packed addressing of a connection buffer: the offset of bias `i`
(through `bias`) and of weight `(i, j)` (through `weight`). -/
def slot (c : connection) : Fin c.output_n ⊕ (Fin c.output_n × Fin c.input_n) → Nat
  | .inl i => bias c + i.val
  | .inr (i, j) => weight c i.val + j.val

end Code

/-! ## Concrete inputs -/

/-- A layer of size 4 with arbitrary previous contents. -/
def exampleLayer4 : layer ℚ := ⟨[9, 9, 9, 9]⟩

/-- A layer of size 5 with arbitrary previous contents. -/
def exampleLayer5 : layer ℚ := ⟨[9, 9, 9, 9, 9]⟩

/-- The image bytes `[0, 128, 255, 64]`. -/
def exampleImage : List (Fin 256) := [0, 128, 255, 64]

/-- The layer `[0.1, 0.7, 0.2]`. -/
def exampleLayer3 : layer ℚ := ⟨[1 / 10, 7 / 10, 2 / 10]⟩

/-- A rational stand-in for `expf` on concrete inputs (the first terms of
the exponential series); the theorems hold for every function. -/
def exampleExpf (x : ℚ) : ℚ := 1 + x + x ^ 2 / 2

/-- A forward pass of shape `(1, 1)`: input `[1.0]`, bias 0.5, weight 0.2. -/
def exampleForward : FeedforwardMem ℚ :=
  { input := ⟨[1]⟩, output := ⟨[0]⟩, conn := ⟨⟨1, 1⟩, [1 / 2, 1 / 5]⟩ }

/-- An output-layer back-propagation with a single output: `result = 0.8`
and `expect = 1.0`, one input of value 1. -/
def exampleLast : BackpropLastMem ℚ :=
  { input := ⟨[1]⟩, result := ⟨[4 / 5]⟩, expect := ⟨[1]⟩, delta := ⟨⟨1, 1⟩, [7, 7]⟩ }

/-- The same call with an empty `expect` layer. -/
def exampleLastShort : BackpropLastMem ℚ :=
  { input := ⟨[1]⟩, result := ⟨[4 / 5]⟩, expect := ⟨[]⟩, delta := ⟨⟨1, 1⟩, [7, 7]⟩ }

/-- A hidden-layer back-propagation: one input `[1]`, two hidden neurons
`z = [1/2, 1/2]`, two downstream neurons with bias gradients `3, 5` and live
weights `weight(0,0) = 7`, `weight(0,1) = 11`, `weight(1,0) = 13`,
`weight(1,1) = 17`. -/
def exampleHidden : BackpropMem ℚ :=
  { input := ⟨[1]⟩, z := ⟨[1 / 2, 1 / 2]⟩, delta := ⟨⟨1, 2⟩, [0, 0, 0, 0]⟩,
    delta_last := ⟨⟨2, 2⟩, [3, 5, 0, 0, 0, 0]⟩,
    conn_output := ⟨⟨2, 2⟩, [0, 0, 7, 11, 13, 17]⟩ }

/-- The call of `exampleHidden` with a `conn_output` of shape `(1, 1)`,
smaller than the shape `(2, 2)` of `delta_last`. -/
def exampleHiddenShort : BackpropMem ℚ :=
  { input := ⟨[1]⟩, z := ⟨[1 / 2, 1 / 2]⟩, delta := ⟨⟨1, 2⟩, [0, 0, 0, 0]⟩,
    delta_last := ⟨⟨2, 2⟩, [3, 5, 0, 0, 0, 0]⟩,
    conn_output := ⟨⟨1, 1⟩, [7, 11]⟩ }

/-- Two delta connections of shape `(1, 1)`. -/
def exampleDeltas : List (ConnectionObj ℚ) := [⟨⟨1, 1⟩, [1, 2]⟩, ⟨⟨1, 1⟩, [3, 4]⟩]

/-- A zero connection of shape `(1, 1)`. -/
def exampleConn : ConnectionObj ℚ := ⟨⟨1, 1⟩, [0, 0]⟩

/-- Two connections with buffers of different lengths. -/
def exampleAccBad : AccMem ℚ :=
  { base := ⟨⟨1, 1⟩, [1, 2]⟩, delta := ⟨⟨2, 1⟩, [10, 20, 30]⟩ }

/-- An output-layer back-propagation whose `delta` has the wrong shape. -/
def exampleLastBad : BackpropLastMem ℚ :=
  { input := ⟨[1]⟩, result := ⟨[4 / 5]⟩, expect := ⟨[1]⟩, delta := ⟨⟨2, 1⟩, [7, 7, 7]⟩ }

/-- A hidden-layer back-propagation whose `delta` has the wrong shape. -/
def exampleHiddenBad : BackpropMem ℚ :=
  { input := ⟨[1]⟩, z := ⟨[1 / 2, 1 / 2]⟩, delta := ⟨⟨1, 1⟩, [7, 7]⟩,
    delta_last := ⟨⟨2, 2⟩, [3, 5, 0, 0, 0, 0]⟩,
    conn_output := ⟨⟨2, 2⟩, [0, 0, 7, 11, 13, 17]⟩ }

/-- Two connections of shape `(1, 1)` with buffers `[1, 2]` and `[10, 20]`. -/
def exampleAcc : AccMem ℚ :=
  { base := ⟨⟨1, 1⟩, [1, 2]⟩, delta := ⟨⟨1, 1⟩, [10, 20]⟩ }

/-- A connection of shape `(1, 1)` whose bias slot holds `2^24`, a value
that binary32 represents and whose successor `2^24 + 1` it does not. -/
def exampleBig : ConnectionObj ℚ := ⟨⟨1, 1⟩, [16777216, 0]⟩

/-- A connection of shape `(1, 1)` whose bias slot holds 1. -/
def exampleUnit : ConnectionObj ℚ := ⟨⟨1, 1⟩, [1, 0]⟩

/-- Two connections of shape `(1, 1)`: the base holds `[0.5, 2]` and the
delta `[1, 20]`. -/
def exampleHalf : AccMem ℚ :=
  { base := ⟨⟨1, 1⟩, [1 / 2, 2]⟩, delta := ⟨⟨1, 1⟩, [1, 20]⟩ }

/-- A forward pass of shape `(1, 1)` with bias 100 and weight 0 on the input
`[1.0]`: the argument of `sigmoid` is 100. -/
def exampleSaturated : FeedforwardMem ℚ :=
  { input := ⟨[1]⟩, output := ⟨[0]⟩, conn := ⟨⟨1, 1⟩, [100, 0]⟩ }

/-- Three delta connections of shape `(1, 1)` whose bias slots hold `2^24`,
1 and 1. -/
def exampleBatch : List (ConnectionObj ℚ) := [exampleBig, exampleUnit, exampleUnit]

/-- The deltas of `exampleBatch` in another order: 1, 1 and `2^24`. -/
def exampleBatchReordered : List (ConnectionObj ℚ) := [exampleUnit, exampleUnit, exampleBig]

/-- A forward pass of shape `(1, 1)` on binary32 values: input `[1.0]`, bias
0.5, weight 0.25. -/
def exampleForward32 : FeedforwardMem ℚ :=
  { input := ⟨[1]⟩, output := ⟨[0]⟩, conn := ⟨⟨1, 1⟩, [1 / 2, 1 / 4]⟩ }

/-- A stand-in for `expf` with binary32 values: `exampleExpf` rounded. -/
def exampleExpf32 (x : ℚ) : ℚ := round32 (exampleExpf x)

/-- Live weights of shape `(1, 1)` with buffer `[0, 1]`. -/
def exampleWeights : ConnectionObj ℚ := ⟨⟨1, 1⟩, [0, 1]⟩

/-! ## Theorems -/

section Proofs
variable {F : Type} [LinearOrderedField F]

theorem forLoop_inv {σ : Type} (body : Nat → σ → Outcome σ) (Inv : Nat → σ → Prop) :
    ∀ (count start : Nat) (s : σ), Inv start s →
      (∀ i t, start ≤ i → i < start + count → Inv i t →
        ∃ t1, body i t = .ok t1 ∧ Inv (i + 1) t1) →
      ∃ s1, forLoop body count start s = .ok s1 ∧ Inv (start + count) s1 := by
  intro count
  induction count with
  | zero => intro start s h _; exact ⟨s, rfl, by simpa using h⟩
  | succ n ih =>
    intro start s h hb
    obtain ⟨t1, ht1, hinv⟩ := hb start s (Nat.le_refl _) (by omega) h
    obtain ⟨s1, hs1, hfin⟩ := ih (start + 1) t1 hinv
      (fun i t hi hlt hI => hb i t (by omega) (by omega) hI)
    refine ⟨s1, ?_, ?_⟩
    · simp only [forLoop, ht1]; exact hs1
    · have : start + (n + 1) = start + 1 + n := by omega
      rw [this]; exact hfin

theorem store_ok {α : Type} (buf : List α) (k : Nat) (x : α) (h : k < buf.length) :
    store buf k x = .ok (buf.set k x) := by
  simp [store, h]

/-- A loop that rewrites slot `i` at iteration `i` with a value `val i` fixed
in advance -/
theorem forLoop_pointwise {α : Type} (body : Nat → List α → Outcome (List α))
    (val : Nat → α) (base : List α)
    (hb : ∀ i cur, i < base.length → cur.length = base.length → cur[i]? = base[i]? →
      body i cur = .ok (cur.set i (val i))) :
    ∃ r, forLoop body base.length 0 base = .ok r ∧ r.length = base.length ∧
      ∀ k, k < base.length → r[k]? = some (val k) := by
  obtain ⟨r, hr, hlen, hlt, _⟩ := forLoop_inv body
    (fun i cur => cur.length = base.length ∧
      (∀ k, k < base.length → k < i → cur[k]? = some (val k)) ∧
      (∀ k, i ≤ k → cur[k]? = base[k]?))
    base.length 0 base ⟨rfl, by intro k _ hk; omega, by intro k _; rfl⟩
    (by
      intro i cur _ hi ⟨hlen, hlt, hge⟩
      have hi1 : i < base.length := by omega
      refine ⟨cur.set i (val i), hb i cur hi1 hlen (hge i (Nat.le_refl _)), ?_, ?_, ?_⟩
      · simp [hlen]
      · intro k hk hki
        by_cases hki : k = i
        · subst hki; simp [List.getElem?_set, hlen, hk]
        · rw [List.getElem?_set_ne (Ne.symm hki)]; exact hlt k hk (by omega)
      · intro k hk
        rw [List.getElem?_set_ne (by omega)]; exact hge k (by omega))
  exact ⟨r, hr, hlen, fun k hk => hlt k hk (by omega)⟩

theorem list_eq_of_index {α : Type} (r s : List α) (val : Nat → α)
    (hlen : r.length = s.length)
    (hr : ∀ k, k < r.length → r[k]? = some (val k))
    (hs : ∀ k, k < s.length → s[k]? = some (val k)) : r = s := by
  apply List.ext_getElem? 
  intro k
  by_cases hk : k < r.length
  · rw [hr k hk, hs k (by omega)]
  · rw [List.getElem?_eq_none (by omega), List.getElem?_eq_none (by omega)]

theorem lconnection_accumulate_loop (base delta : List F) (h : base.length = delta.length) :
    ∃ r, forLoop (lconnection_accumulate_body delta) base.length 0 base = .ok r ∧
      r.length = base.length ∧
      ∀ k, k < base.length → r[k]? = some (base.getD k 0 + delta.getD k 0) := by
  apply forLoop_pointwise
  intro i cur hi hlen hci
  have hi2 : i < delta.length := by omega
  rw [List.getElem?_eq_getElem hi] at hci
  simp only [lconnection_accumulate_body, hci, List.getElem?_eq_getElem hi2]
  rw [store_ok _ _ _ (by omega)]
  simp [List.getD_eq_getElem, hi, hi2]

/-- C6: `accumulate(self, other)` raises a ShapeMismatch error exactly when
the two buffers differ in length (and raises no other error); otherwise it
returns normally with `self[k] = self_old[k] + other[k]` for every `k`,
the shape descriptor and length of `self` kept and `other` unchanged. -/
theorem lconnection_accumulate_spec (a : AccMem F) :
    ((lconnection_accumulate a).failsWith .ShapeMismatch ↔
        a.base.f.length ≠ a.delta.f.length) ∧
    ((lconnection_accumulate a).fails ↔ a.base.f.length ≠ a.delta.f.length) ∧
    (a.base.f.length = a.delta.f.length →
      ∃ r, lconnection_accumulate a = .ok r ∧ r.delta = a.delta ∧ r.base.c = a.base.c ∧
        r.base.f.length = a.base.f.length ∧
        ∀ k (hb : k < a.base.f.length) (hd : k < a.delta.f.length),
          r.base.f[k]? = some (a.base.f[k] + a.delta.f[k])) := by
  by_cases h : a.base.f.length = a.delta.f.length
  · obtain ⟨r, hr, hlen, hval⟩ := lconnection_accumulate_loop a.base.f a.delta.f h
    have hcall : lconnection_accumulate a = .ok { a with base := { a.base with f := r } } := by
      have hr2 := hr
      rw [h] at hr2
      simp [lconnection_accumulate, h, hr2, Outcome.map]
    refine ⟨?_, ?_, ?_⟩
    · simp [Outcome.failsWith, hcall, h]
    · simp [Outcome.fails, hcall, h]
    · intro _
      refine ⟨_, hcall, rfl, rfl, hlen, ?_⟩
      intro k hb hd
      simpa [List.getD_eq_getElem, hb, hd] using hval k hb
  · have hcall : lconnection_accumulate a = .raised .accumulateSizeMismatch a := by
      simp [lconnection_accumulate, h]
    refine ⟨?_, ?_, ?_⟩
    · simp only [Outcome.failsWith, hcall, ne_eq, h, not_false_eq_true, iff_true]
      exact ⟨_, _, rfl, rfl⟩
    · simp only [Outcome.fails, hcall, ne_eq, h, not_false_eq_true, iff_true]
      exact ⟨_, _, rfl⟩
    · intro h2; exact absurd h2 h

/-- Witness for C6 on the buffers `[1, 2]` and `[10, 20]`. -/
theorem lconnection_accumulate_spec_witness :
    ∃ r, lconnection_accumulate (F := ℚ)
        { base := ⟨⟨1, 1⟩, [1, 2]⟩, delta := ⟨⟨1, 1⟩, [10, 20]⟩ } = .ok r ∧
      r.delta = ⟨⟨1, 1⟩, [10, 20]⟩ ∧ r.base.c = ⟨1, 1⟩ ∧ r.base.f.length = 2 ∧
      ∀ k (hb : k < 2) (hd : k < 2), r.base.f[k]? = some (([1, 2] : List ℚ)[k] + ([10, 20] : List ℚ)[k]) :=
  (lconnection_accumulate_spec (F := ℚ)
    { base := ⟨⟨1, 1⟩, [1, 2]⟩, delta := ⟨⟨1, 1⟩, [10, 20]⟩ }).2.2 rfl

theorem llayer_init_loop (data : List F) (image : List (Fin 256))
    (h : image.length = data.length) :
    ∃ r, forLoop (fun i cur =>
          match image[i]? with
          | some px => store cur i ((px.val : F) / 255)
          | none => Outcome.fault) data.length 0 data = .ok r ∧
      r.length = data.length ∧
      ∀ k, k < data.length → r[k]? = some (((image.getD k 0).val : F) / 255) := by
  apply forLoop_pointwise
  intro i cur hi hlen _
  have hi2 : i < image.length := by omega
  simp only [List.getElem?_eq_getElem hi2]
  rw [store_ok _ _ _ (by omega)]
  simp [List.getD_eq_getElem, hi2]

/-- C10: `init(bytes)` on a layer of size `n` raises an InvalidArgument
error exactly when the byte string does not have length `n` (and raises no
other error); otherwise it returns with a layer of the same size whose slot
`i` holds `bytes[i] / 255`, a value between 0 and 1 that is 0 for the byte
0 and 1 for the byte 255. -/
theorem llayer_init_spec (self : layer F) (image : List (Fin 256)) :
    ((llayer_init self image).failsWith .InvalidArgument ↔ image.length ≠ self.n) ∧
    ((llayer_init self image).fails ↔ image.length ≠ self.n) ∧
    (image.length = self.n →
      ∃ r, llayer_init self image = .ok r ∧ r.n = self.n ∧
        ∀ i (hi : i < image.length),
          r.data[i]? = some ((image[i].val : F) / 255) ∧
          (0 : F) ≤ (image[i].val : F) / 255 ∧ (image[i].val : F) / 255 ≤ 1 ∧
          (image[i].val = 0 → r.data[i]? = some 0) ∧
          (image[i].val = 255 → r.data[i]? = some 1)) := by
  by_cases h : image.length = self.n
  · obtain ⟨r, hr, hlen, hval⟩ := llayer_init_loop self.data image h
    have hcall : llayer_init self image = .ok (layer.mk r) := by
      have hr2 := hr
      simp only [llayer_init, h, ne_eq, not_true_eq_false, if_false]
      unfold layer.n
      rw [hr2]; rfl
    refine ⟨?_, ?_, ?_⟩
    · simp [Outcome.failsWith, hcall, h]
    · simp [Outcome.fails, hcall, h]
    · intro _
      refine ⟨_, hcall, hlen, ?_⟩
      intro i hi
      have hv : r[i]? = some ((image[i].val : F) / 255) := by
        simpa [List.getD_eq_getElem, hi] using hval i (by unfold layer.n at h; omega)
      have hle : ((image[i].val : F)) ≤ 255 := by
        have : image[i].val ≤ 255 := by omega
        exact_mod_cast this
      have hnn : (0 : F) ≤ (image[i].val : F) := Nat.cast_nonneg _
      refine ⟨hv, by positivity, ?_, ?_, ?_⟩
      · rw [div_le_one (by norm_num)]; exact hle
      · intro h0; simp only [hv, h0]; simp
      · intro h255; simp only [hv, h255]; simp
  · have hcall : llayer_init self image = .raised .invalidImageSize self := by
      simp [llayer_init, h]
    refine ⟨?_, ?_, ?_⟩
    · simp only [Outcome.failsWith, hcall, ne_eq, h, not_false_eq_true, iff_true]
      exact ⟨_, _, rfl, rfl⟩
    · simp only [Outcome.fails, hcall, ne_eq, h, not_false_eq_true, iff_true]
      exact ⟨_, _, rfl⟩
    · intro h2; exact absurd h2 h

/-- Witness for C10: the bytes `[0, 128, 255, 64]` on a layer of size 4 give
`[0, 128/255, 1, 64/255]`. -/
theorem llayer_init_spec_witness :
    (∃ r, llayer_init exampleLayer4 exampleImage = .ok r ∧ r.n = exampleLayer4.n ∧
        ∀ i (hi : i < exampleImage.length),
          r.data[i]? = some ((exampleImage[i].val : ℚ) / 255) ∧
          (0 : ℚ) ≤ (exampleImage[i].val : ℚ) / 255 ∧ (exampleImage[i].val : ℚ) / 255 ≤ 1 ∧
          (exampleImage[i].val = 0 → r.data[i]? = some 0) ∧
          (exampleImage[i].val = 255 → r.data[i]? = some 1)) ∧
    llayer_init exampleLayer4 exampleImage = .ok ⟨[0, 128 / 255, 1, 64 / 255]⟩ :=
  ⟨(llayer_init_spec exampleLayer4 exampleImage).2.2 rfl, by
    have e1 : ((128 : Fin 256).val : ℚ) = 128 := by norm_cast
    have e2 : ((255 : Fin 256).val : ℚ) = 255 := by norm_cast
    have e3 : ((64 : Fin 256).val : ℚ) = 64 := by norm_cast
    simp [llayer_init, exampleLayer4, exampleImage, layer.n, forLoop, store, Outcome.map,
      e1, e2, e3]⟩

theorem getElem_opt_lt {α : Type} (l : List α) (k : Nat) (x : α) (h : l[k]? = some x) :
    k < l.length := by
  by_contra hc
  rw [List.getElem?_eq_none (by omega)] at h
  cases h

theorem llayer_max_loop (data : List F) (d0 : F) (h0 : data[0]? = some d0) :
    ∃ st, forLoop (llayer_max_body ⟨data⟩) (data.length - 1) 1 { m := d0, s := d0, idx := 0 }
        = .ok st ∧
      data[st.idx]? = some st.m ∧
      (∀ (k : Nat) (x : F), data[k]? = some x → x ≤ st.m) ∧
      (∀ (k : Nat) (x : F), data[k]? = some x → x = st.m → st.idx ≤ k) ∧
      st.s = data.sum := by
  have hpos : 0 < data.length := getElem_opt_lt _ _ _ h0
  have hd0 : data[0] = d0 := by
    rw [List.getElem?_eq_getElem hpos] at h0
    exact Option.some.inj h0
  obtain ⟨st, hst, _, hidx, hmax, hfirst, hsum⟩ := forLoop_inv (llayer_max_body ⟨data⟩)
    (fun i st => st.idx < i ∧ data[st.idx]? = some st.m ∧
      (∀ (k : Nat) (x : F), k < i → data[k]? = some x → x ≤ st.m) ∧
      (∀ (k : Nat) (x : F), k < i → data[k]? = some x → x = st.m → st.idx ≤ k) ∧
      st.s = (data.take i).sum)
    (data.length - 1) 1 { m := d0, s := d0, idx := 0 }
    (by
      refine ⟨Nat.zero_lt_one, h0, ?_, ?_, ?_⟩
      · intro k x hk hx
        have : k = 0 := by omega
        subst this
        rw [h0] at hx
        exact le_of_eq (Option.some.inj hx).symm
      · intro k x _ _ _; exact Nat.zero_le _
      · rw [List.sum_take_succ data 0 hpos]; simp [hd0])
    (by
      intro i st hi1 hi2 ⟨hlt, hidx, hmax, hfirst, hsum⟩
      have hi : i < data.length := by omega
      have hgi : data[i]? = some data[i] := List.getElem?_eq_getElem hi
      by_cases hgt : data[i] > st.m
      · refine ⟨{ m := data[i], s := st.s + data[i], idx := i }, ?_, Nat.lt_succ_self i, hgi,
          ?_, ?_, ?_⟩
        · simp [llayer_max_body, hgi, hgt]
        · intro k x hk hx
          by_cases hki : k = i
          · subst hki; rw [hgi] at hx; exact le_of_eq (Option.some.inj hx).symm
          · exact le_trans (hmax k x (by omega) hx) (le_of_lt hgt)
        · intro k x hk hx hxm
          by_cases hki : k = i
          · show i ≤ k
            omega
          · have := hmax k x (by omega) hx
            simp only at hxm
            rw [hxm] at this
            exact absurd hgt (not_lt.mpr this)
        · rw [List.sum_take_succ data i hi, hsum]
      · refine ⟨{ m := st.m, s := st.s + data[i], idx := st.idx }, ?_, by simp only; omega,
          hidx, ?_, ?_, ?_⟩
        · simp [llayer_max_body, hgi, hgt]
        · intro k x hk hx
          by_cases hki : k = i
          · subst hki; rw [hgi] at hx
            rw [← Option.some.inj hx]; exact not_lt.mp hgt
          · exact hmax k x (by omega) hx
        · intro k x hk hx hxm
          by_cases hki : k = i
          · simp only; omega
          · exact hfirst k x (by omega) hx hxm
        · rw [List.sum_take_succ data i hi, hsum])
  refine ⟨st, hst, hidx, ?_, ?_, ?_⟩
  · intro k x hx
    have hk : k < data.length := getElem_opt_lt _ _ _ hx
    exact hmax k x (by omega) hx
  · intro k x hx hxm
    have hk : k < data.length := getElem_opt_lt _ _ _ hx
    exact hfirst k x (by omega) hx hxm
  · have : 1 + (data.length - 1) = data.length := by omega
    rw [hsum, this, List.take_length]

/-- C9: `max()` on a non-empty layer returns the pair `(idx, m / s)` where
`m` is the value at `idx`, no value of the layer exceeds `m`, `idx` is the
smallest index holding `m`, and `s` is the sum of all values. -/
theorem llayer_max_spec (self : layer F) (h : 0 < self.n) :
    ∃ (idx : Nat) (m : F), llayer_max self = .ok (idx, m / self.data.sum) ∧
      self.data[idx]? = some m ∧
      (∀ (k : Nat) (x : F), self.data[k]? = some x → x ≤ m) ∧
      (∀ (k : Nat) (x : F), self.data[k]? = some x → x = m → idx ≤ k) := by
  have h0 : self.data[0]? = some self.data[0] := List.getElem?_eq_getElem h
  obtain ⟨st, hst, hidx, hmax, hfirst, hsum⟩ := llayer_max_loop self.data _ h0
  refine ⟨st.idx, st.m, ?_, hidx, hmax, hfirst⟩
  unfold llayer_max
  rw [h0]
  simp only [layer.n]
  rw [hst]
  simp only [hsum]

/-- Witness for C9: on `[0.1, 0.7, 0.2]` the result is `(1, 0.7)`. -/
theorem llayer_max_spec_witness :
    (∃ (idx : Nat) (m : ℚ), llayer_max exampleLayer3 = .ok (idx, m / exampleLayer3.data.sum) ∧
      exampleLayer3.data[idx]? = some m ∧
      (∀ (k : Nat) (x : ℚ), exampleLayer3.data[k]? = some x → x ≤ m) ∧
      (∀ (k : Nat) (x : ℚ), exampleLayer3.data[k]? = some x → x = m → idx ≤ k)) ∧
    llayer_max exampleLayer3 = .ok (1, 7 / 10) :=
  ⟨llayer_max_spec exampleLayer3 (by decide), by
    simp [llayer_max, exampleLayer3, layer.n, forLoop, llayer_max_body]
    norm_num⟩

theorem forLoop_sum (body : Nat → F → Outcome F) (term : Nat → F) (n : Nat)
    (hb : ∀ j s, j < n → body j s = .ok (s + term j)) :
    forLoop body n 0 0 = .ok (∑ j in Finset.range n, term j) := by
  obtain ⟨s, hs, hinv⟩ := forLoop_inv body (fun j s => s = ∑ t in Finset.range j, term t)
    n 0 0 (by simp)
    (by
      intro j s _ hj hinv
      refine ⟨s + term j, hb j s (by omega), ?_⟩
      show s + term j = _
      rw [Finset.sum_range_succ, hinv])
  rw [hs, hinv]; simp

theorem weight_eq (c : connection) (i j : Nat) :
    weight c i + j = c.output_n + i * c.input_n + j := by
  unfold weight; rw [Nat.mul_comm]; omega

theorem weight_lt (c : connection) (i j : Nat) (hi : i < c.output_n) (hj : j < c.input_n) :
    c.output_n + i * c.input_n + j < c.input_n * c.output_n + c.output_n := by
  have h := Nat.mul_le_mul_left c.input_n (Nat.succ_le_of_lt hi)
  rw [Nat.mul_succ, Nat.mul_comm] at h
  omega

theorem lfeedforward_sum_loop (input : layer F) (conn : ConnectionObj F) (i : Nat)
    (hin : input.n = conn.c.input_n) (hwf : conn.wf) (hi : i < conn.c.output_n) :
    forLoop (lfeedforward_sum input conn.f (weight conn.c i)) input.n 0 0 =
      .ok (∑ j in Finset.range conn.c.input_n,
        input.data.getD j 0 * conn.f.getD (conn.c.output_n + i * conn.c.input_n + j) 0) := by
  rw [hin]
  apply forLoop_sum
  intro j s hj
  have hj1 : j < input.data.length := by unfold layer.n at hin; omega
  have hj2 : conn.c.output_n + i * conn.c.input_n + j < conn.f.length := by
    rw [hwf]; exact weight_lt _ _ _ hi hj
  simp only [lfeedforward_sum, weight_eq, List.getElem?_eq_getElem hj1,
    List.getElem?_eq_getElem hj2, List.getD_eq_getElem _ _ hj1, List.getD_eq_getElem _ _ hj2]

/-- C1: when `input.n = conn.input_n`, `output.n = conn.output_n` and the
connection buffer has the length of its shape, `feedforward` returns
normally, leaves the input layer and the connection as they were, keeps the
size of the output layer, and writes
`output[i] = 1 / (1 + expf (-(bias[i] + sum over j < input_n of
input[j] * conn[output_n + i * input_n + j])))` for every `i < output_n`
(all the slots read lie inside their buffers). -/
theorem lfeedforward_spec (expf : F → F) (a : FeedforwardMem F)
    (hin : a.input.n = a.conn.c.input_n) (hout : a.output.n = a.conn.c.output_n)
    (hwf : a.conn.wf) :
    ∃ r, lfeedforward expf a = .ok r ∧ r.input = a.input ∧ r.conn = a.conn ∧
      r.output.n = a.output.n ∧
      ∀ i, i < a.conn.c.output_n →
        r.output.data[i]? = some (1 / (1 + expf (-(a.conn.f.getD i 0 +
          ∑ j in Finset.range a.conn.c.input_n,
            a.input.data.getD j 0 *
              a.conn.f.getD (a.conn.c.output_n + i * a.conn.c.input_n + j) 0)))) := by
  obtain ⟨r, hr, hlen, hval⟩ := forLoop_pointwise (lfeedforward_body expf a.input a.conn)
    (fun i => 1 / (1 + expf (-(a.conn.f.getD i 0 +
          ∑ j in Finset.range a.conn.c.input_n,
            a.input.data.getD j 0 *
              a.conn.f.getD (a.conn.c.output_n + i * a.conn.c.input_n + j) 0))))
    a.output.data
    (by
      intro i cur hi hlen _
      have hi1 : i < a.conn.c.output_n := by rw [← hout]; exact hi
      have hi2 : i < a.conn.f.length := by rw [hwf]; omega
      simp only [lfeedforward_body, lfeedforward_sum_loop a.input a.conn i hin hwf hi1, bias,
        Nat.zero_add, List.getElem?_eq_getElem hi2, List.getD_eq_getElem _ _ hi2]
      rw [store_ok _ _ _ (by omega)]
      simp only [sigmoid, add_comm])
  refine ⟨{ a with output := layer.mk r }, ?_, rfl, rfl, hlen, ?_⟩
  · unfold lfeedforward
    unfold layer.n
    rw [hr]; rfl
  · intro i hi
    exact hval i (by rw [← hout] at hi; exact hi)

/-- Witness for C1: shape `(1, 1)`, bias 0.5, weight 0.2 and input `[1.0]`
give `output[0] = sigmoid(0.7)`, with `exampleExpf` in the place of `expf`. -/
theorem lfeedforward_spec_witness :
    (∃ r, lfeedforward exampleExpf exampleForward = .ok r ∧ r.input = exampleForward.input ∧
      r.conn = exampleForward.conn ∧ r.output.n = exampleForward.output.n ∧
      ∀ i, i < exampleForward.conn.c.output_n →
        r.output.data[i]? = some (1 / (1 + exampleExpf (-(exampleForward.conn.f.getD i 0 +
          ∑ j in Finset.range exampleForward.conn.c.input_n,
            exampleForward.input.data.getD j 0 *
              exampleForward.conn.f.getD
                (exampleForward.conn.c.output_n + i * exampleForward.conn.c.input_n + j) 0))))) ∧
    lfeedforward exampleExpf exampleForward =
      .ok { exampleForward with output := ⟨[sigmoid exampleExpf (7 / 10)]⟩ } :=
  ⟨lfeedforward_spec exampleExpf exampleForward rfl rfl rfl, by
    simp [lfeedforward, exampleForward, layer.n, forLoop, store, Outcome.map, lfeedforward_body,
      lfeedforward_sum, weight, bias]
    norm_num⟩

theorem nabla_w_loop (input : layer F) (w : Nat) (d : F) (delta : List F)
    (hw : w + input.n ≤ delta.length) :
    ∃ r, forLoop (nabla_w_body input w d) input.n 0 delta = .ok r ∧
      r.length = delta.length ∧
      (∀ j, j < input.n → r[w + j]? = some (d * input.data.getD j 0)) ∧
      (∀ k, (k < w ∨ w + input.n ≤ k) → r[k]? = delta[k]?) := by
  obtain ⟨r, hr, hlen, hin, hout⟩ := forLoop_inv (nabla_w_body input w d)
    (fun j cur => cur.length = delta.length ∧
      (∀ t, t < j → cur[w + t]? = some (d * input.data.getD t 0)) ∧
      (∀ k, (k < w ∨ w + j ≤ k) → cur[k]? = delta[k]?))
    input.n 0 delta ⟨rfl, by intro t ht; omega, by intro k _; rfl⟩
    (by
      intro j cur _ hj ⟨hlen, hin, hout⟩
      have hj1 : j < input.data.length := by unfold layer.n at hj; omega
      refine ⟨cur.set (w + j) (d * input.data.getD j 0), ?_, ?_, ?_, ?_⟩
      · simp only [nabla_w_body, List.getElem?_eq_getElem hj1, List.getD_eq_getElem _ _ hj1]
        exact store_ok _ _ _ (by omega)
      · simp [hlen]
      · intro t ht
        by_cases htj : t = j
        · subst htj
          rw [List.getElem?_set_self (by omega)]
        · rw [List.getElem?_set_ne (by omega)]; exact hin t (by omega)
      · intro k hk
        rw [List.getElem?_set_ne (by omega)]; exact hout k (by omega))
  exact ⟨r, hr, hlen, fun j hj => hin j (by omega), fun k hk => hout k (by omega)⟩

theorem nabla_store_ok (input : layer F) (c : connection) (i : Nat) (d : F) (delta : List F)
    (hlen : delta.length = c.input_n * c.output_n + c.output_n)
    (hin : input.n = c.input_n) (hi : i < c.output_n) :
    ∃ r, nabla_store input (bias c) (weight c i) i d delta = .ok r ∧
      r.length = delta.length ∧ r[i]? = some d ∧
      (∀ j, j < c.input_n →
        r[c.output_n + i * c.input_n + j]? = some (d * input.data.getD j 0)) ∧
      (∀ k, k ≠ i → (k < c.output_n + i * c.input_n ∨ c.output_n + (i + 1) * c.input_n ≤ k) →
        r[k]? = delta[k]?) := by
  have hbound := weight_lt c i
  have hw : weight c i = c.output_n + i * c.input_n := by
    have := weight_eq c i 0; omega
  have hrow : c.output_n + (i + 1) * c.input_n ≤ c.input_n * c.output_n + c.output_n := by
    have h := Nat.mul_le_mul_left c.input_n (Nat.succ_le_of_lt hi)
    rw [Nat.mul_comm] at h
    rw [Nat.succ_eq_add_one] at h
    omega
  have hrow2 : (i + 1) * c.input_n = i * c.input_n + c.input_n := by
    rw [Nat.add_mul, Nat.one_mul]
  obtain ⟨r, hr, hrlen, hrin, hrout⟩ := nabla_w_loop input (weight c i) d (delta.set i d)
    (by rw [hw, hin, List.length_set, hlen]; omega)
  refine ⟨r, ?_, ?_, ?_, ?_, ?_⟩
  · simp only [nabla_store, bias, Nat.zero_add]
    rw [store_ok _ _ _ (by omega)]
    exact hr
  · rw [hrlen, List.length_set]
  · rw [hrout i (by omega), List.getElem?_set_self (by omega)]
  · intro j hj
    have := hrin j (by omega)
    rw [hw] at this
    exact this
  · intro k hki hk
    rw [hrout k (by rw [hw, hin]; omega), List.getElem?_set_ne (Ne.symm hki)]

/-- An outer loop that stores row `i` with the factor `dval i` at iteration
`i` leaves every bias slot and every weight slot with its expected value. -/
theorem nabla_rows_loop (body : Nat → List F → Outcome (List F)) (input : layer F)
    (c : connection) (dval : Nat → F) (delta : List F)
    (hlen : delta.length = c.input_n * c.output_n + c.output_n)
    (hin : input.n = c.input_n)
    (hb : ∀ i cur, i < c.output_n → cur.length = delta.length →
      body i cur = nabla_store input (bias c) (weight c i) i (dval i) cur) :
    ∃ r, forLoop body c.output_n 0 delta = .ok r ∧ r.length = delta.length ∧
      ∀ i, i < c.output_n → r[i]? = some (dval i) ∧
        ∀ j, j < c.input_n →
          r[c.output_n + i * c.input_n + j]? = some (dval i * input.data.getD j 0) := by
  obtain ⟨r, hr, hrlen, hrows⟩ := forLoop_inv body
    (fun i cur => cur.length = delta.length ∧
      ∀ t, t < i → cur[t]? = some (dval t) ∧
        ∀ j, j < c.input_n →
          cur[c.output_n + t * c.input_n + j]? = some (dval t * input.data.getD j 0))
    c.output_n 0 delta ⟨rfl, by intro t ht; omega⟩
    (by
      intro i cur _ hi ⟨hcl, hrows⟩
      have hi1 : i < c.output_n := by omega
      obtain ⟨r, hr, hrlen, hbias, hwts, hrest⟩ := nabla_store_ok input c i (dval i) cur
        (by rw [hcl, hlen]) hin hi1
      refine ⟨r, by rw [hb i cur hi1 hcl]; exact hr, by rw [hrlen, hcl], ?_⟩
      intro t ht
      by_cases hti : t = i
      · subst hti; exact ⟨hbias, hwts⟩
      · have hlt : t < i := by omega
        have hmul : (t + 1) * c.input_n ≤ i * c.input_n :=
          Nat.mul_le_mul_right _ (Nat.succ_le_of_lt hlt)
        rw [Nat.add_mul, Nat.one_mul] at hmul
        refine ⟨?_, ?_⟩
        · rw [hrest t hti (by omega)]; exact (hrows t hlt).1
        · intro j hj
          rw [hrest _ (by omega) (by omega)]
          exact (hrows t hlt).2 j hj)
  exact ⟨r, hr, hrlen, fun i hi => hrows i (by omega)⟩

theorem store_not_raised {α : Type} (buf : List α) (k : Nat) (x : α) (e : Msg) (t : List α) :
    store buf k x ≠ .raised e t := by
  unfold store; split <;> simp

theorem forLoop_not_raised {σ : Type} (body : Nat → σ → Outcome σ)
    (hb : ∀ i t e t1, body i t ≠ .raised e t1) :
    ∀ (count start : Nat) (s : σ) (e : Msg) (s1 : σ),
      forLoop body count start s ≠ .raised e s1 := by
  intro count
  induction count with
  | zero => intro start s e s1 h; simp [forLoop] at h
  | succ n ih =>
    intro start s e s1 h
    simp only [forLoop] at h
    cases hbs : body start s with
    | ok t => rw [hbs] at h; exact ih _ _ _ _ h
    | raised e2 t => exact hb _ _ _ _ hbs
    | fault => rw [hbs] at h; cases h

theorem nabla_store_not_raised (input : layer F) (b w i : Nat) (d : F) (delta : List F)
    (e : Msg) (t : List F) : nabla_store input b w i d delta ≠ .raised e t := by
  unfold nabla_store
  cases hs : store delta (b + i) d with
  | ok delta1 =>
    simp only
    apply forLoop_not_raised
    intro j cur e1 t1
    unfold nabla_w_body
    split
    · exact store_not_raised _ _ _ _ _
    · simp
  | raised e2 t2 => exact absurd hs (store_not_raised _ _ _ _ _)
  | fault => simp

theorem lbackprop_last_body_not_raised (a : BackpropLastMem F) (i : Nat) (delta : List F)
    (e : Msg) (t : List F) : lbackprop_last_body a i delta ≠ .raised e t := by
  unfold lbackprop_last_body
  split
  · exact nabla_store_not_raised _ _ _ _ _ _ _ _
  · simp

/-- C2, amended: `backprop_last` raises a ShapeMismatch error exactly when
`delta.input_n != input.n` or `delta.output_n != result.n` (and raises no
other error); otherwise, when `delta` has the buffer length of its shape and
`expect` has at least `result.n` entries, it returns normally, leaves the
three layers and the shape of `delta` as they were, and for every output
neuron `i`, with `d = (result[i] - expect[i]) * result[i] * (1 - result[i])`,
leaves `delta.bias[i] = d` and `delta.weight(i, j) = d * input[j]` for every
`j < input_n`. -/
theorem lbackprop_last_spec (a : BackpropLastMem F) :
    ((lbackprop_last a).failsWith .ShapeMismatch ↔
      (a.delta.c.input_n ≠ a.input.n ∨ a.delta.c.output_n ≠ a.result.n)) ∧
    ((lbackprop_last a).fails ↔
      (a.delta.c.input_n ≠ a.input.n ∨ a.delta.c.output_n ≠ a.result.n)) ∧
    (a.delta.c.input_n = a.input.n → a.delta.c.output_n = a.result.n → a.delta.wf →
      a.result.n ≤ a.expect.n →
      ∃ r, lbackprop_last a = .ok r ∧ r.input = a.input ∧ r.result = a.result ∧
        r.expect = a.expect ∧ r.delta.c = a.delta.c ∧
        r.delta.f.length = a.delta.f.length ∧
        ∀ i, i < a.delta.c.output_n →
          r.delta.f[i]? = some ((a.result.data.getD i 0 - a.expect.data.getD i 0) *
            a.result.data.getD i 0 * (1 - a.result.data.getD i 0)) ∧
          ∀ j, j < a.delta.c.input_n →
            r.delta.f[a.delta.c.output_n + i * a.delta.c.input_n + j]? =
              some ((a.result.data.getD i 0 - a.expect.data.getD i 0) *
                a.result.data.getD i 0 * (1 - a.result.data.getD i 0) *
                a.input.data.getD j 0)) := by
  by_cases h : a.delta.c.input_n ≠ a.input.n ∨ a.delta.c.output_n ≠ a.result.n
  · have hcall : lbackprop_last a = .raised .invalidOutputDelta a := by
      simp only [lbackprop_last, h, if_true]
    refine ⟨?_, ?_, ?_⟩
    · simp only [Outcome.failsWith, hcall, h, iff_true]
      exact ⟨_, _, rfl, rfl⟩
    · simp only [Outcome.fails, hcall, h, iff_true]
      exact ⟨_, _, rfl⟩
    · intro h1 h2; exfalso; rcases h with h | h
      · exact h h1
      · exact h h2
  · have hcall : lbackprop_last a = Outcome.map
        (fun d => { a with delta := { a.delta with f := d } })
        (forLoop (lbackprop_last_body a) a.delta.c.output_n 0 a.delta.f) := by
      simp only [lbackprop_last, h, if_false]
    have hnr : ∀ (e : Msg) (s : BackpropLastMem F), lbackprop_last a ≠ .raised e s := by
      intro e s hc
      rw [hcall] at hc
      cases hl : forLoop (lbackprop_last_body a) a.delta.c.output_n 0 a.delta.f with
      | ok t => rw [hl] at hc; simp [Outcome.map] at hc
      | raised e2 t =>
        exact forLoop_not_raised _ (lbackprop_last_body_not_raised a) _ _ _ _ _ hl
      | fault => rw [hl] at hc; simp [Outcome.map] at hc
    refine ⟨?_, ?_, ?_⟩
    · simp only [h, iff_false]
      rintro ⟨e, s, hc, _⟩; exact hnr e s hc
    · simp only [h, iff_false]
      rintro ⟨e, s, hc⟩; exact hnr e s hc
    · intro h1 h2 hwf hexp
      obtain ⟨r, hr, hrlen, hrows⟩ := nabla_rows_loop (lbackprop_last_body a) a.input
        a.delta.c
        (fun i => (a.result.data.getD i 0 - a.expect.data.getD i 0) *
            a.result.data.getD i 0 * (1 - a.result.data.getD i 0))
        a.delta.f hwf h1.symm
        (by
          intro i cur hi _
          have hi1 : i < a.result.data.length := by unfold layer.n at h2; omega
          have hi2 : i < a.expect.data.length := by unfold layer.n at hexp h2; omega
          simp only [lbackprop_last_body, List.getElem?_eq_getElem hi1,
            List.getElem?_eq_getElem hi2, List.getD_eq_getElem _ _ hi1,
            List.getD_eq_getElem _ _ hi2, sigmoid_prime, mul_assoc])
      refine ⟨{ a with delta := { a.delta with f := r } }, by rw [hcall, hr]; rfl, rfl, rfl, rfl,
        rfl, hrlen, hrows⟩

/-- Witness for C2: a single output with `result = 0.8` and `expect = 1.0`
gives `delta.bias[0] = -0.032`. -/
theorem lbackprop_last_spec_witness :
    (∃ r, lbackprop_last exampleLast = .ok r ∧ r.input = exampleLast.input ∧
        r.result = exampleLast.result ∧
        r.expect = exampleLast.expect ∧ r.delta.c = exampleLast.delta.c ∧
        r.delta.f.length = exampleLast.delta.f.length ∧
        ∀ i, i < exampleLast.delta.c.output_n →
          r.delta.f[i]? = some ((exampleLast.result.data.getD i 0 -
              exampleLast.expect.data.getD i 0) *
            exampleLast.result.data.getD i 0 * (1 - exampleLast.result.data.getD i 0)) ∧
          ∀ j, j < exampleLast.delta.c.input_n →
            r.delta.f[exampleLast.delta.c.output_n + i * exampleLast.delta.c.input_n + j]? =
              some ((exampleLast.result.data.getD i 0 - exampleLast.expect.data.getD i 0) *
                exampleLast.result.data.getD i 0 * (1 - exampleLast.result.data.getD i 0) *
                exampleLast.input.data.getD j 0)) ∧
    lbackprop_last exampleLast =
      .ok { exampleLast with delta := ⟨⟨1, 1⟩, [-32 / 1000, -32 / 1000]⟩ } :=
  ⟨(lbackprop_last_spec exampleLast).2.2 rfl rfl rfl (Nat.le_refl _), by
    simp [lbackprop_last, exampleLast, layer.n, forLoop, store, Outcome.map,
      lbackprop_last_body, nabla_store, nabla_w_body, weight, bias, sigmoid_prime]
    norm_num⟩

/-- Counterexample to C2 as stated: with `input = [1]`, `result = [0.8]`, an
empty `expect` and a `delta` of shape `(1, 1)`, the shape test passes (no
error is raised) but the call reads `expect[0]` outside its buffer, so it
does not return with the promised `delta`. -/
theorem lbackprop_last_expect_short :
    exampleLastShort.delta.c.input_n = exampleLastShort.input.n ∧
    exampleLastShort.delta.c.output_n = exampleLastShort.result.n ∧
    exampleLastShort.delta.wf ∧
    ¬ (lbackprop_last exampleLastShort).fails ∧
    lbackprop_last exampleLastShort = .fault ∧
    ¬ ∃ r, lbackprop_last exampleLastShort = .ok r := by
  have h : lbackprop_last exampleLastShort = .fault := by
    simp [lbackprop_last, exampleLastShort, layer.n, forLoop, Outcome.map,
      lbackprop_last_body]
  refine ⟨rfl, rfl, rfl, ?_, h, ?_⟩
  · rintro ⟨e, s, hc⟩; rw [h] at hc; cases hc
  · rintro ⟨r, hc⟩; rw [h] at hc; cases hc

theorem lbackprop_sum_loop (a : BackpropMem F) (i : Nat)
    (h1 : a.delta.c.output_n = a.delta_last.c.input_n)
    (h4 : a.conn_output.c = a.delta_last.c)
    (hwl : a.delta_last.wf) (hwc : a.conn_output.wf) (hi : i < a.delta.c.output_n) :
    forLoop (lbackprop_sum a i) a.delta_last.c.output_n 0 0 =
      .ok (∑ k in Finset.range a.delta_last.c.output_n,
        a.delta_last.f.getD k 0 *
          a.conn_output.f.getD
            (a.conn_output.c.output_n + k * a.conn_output.c.input_n + i) 0) := by
  apply forLoop_sum
  intro k s hk
  have hk1 : k < a.delta_last.f.length := by rw [hwl]; omega
  have hk2 : a.delta_last.c.output_n + k * a.delta_last.c.input_n + i <
      a.conn_output.f.length := by
    rw [hwc, h4]; exact weight_lt _ _ _ hk (by omega)
  simp only [lbackprop_sum, bias, Nat.zero_add, weight_eq, h4, List.getElem?_eq_getElem hk1,
    List.getElem?_eq_getElem hk2, List.getD_eq_getElem _ _ hk1, List.getD_eq_getElem _ _ hk2]

/-- C3: when `delta.output_n = delta_last.input_n = z.n`,
`delta.input_n = input.n`, `conn_output` has the shape of `delta_last` and
the three connection buffers have the length of their shape, `backprop`
returns normally, leaves the two layers, `delta_last`, `conn_output` and the
shape of `delta` as they were, and for every hidden neuron `i < z.n`, with
`d = (sum over k < delta_last.output_n of delta_last.bias[k] *
conn_output.weight(k, i)) * z[i] * (1 - z[i])`, leaves `delta.bias[i] = d`
and `delta.weight(i, j) = d * input[j]` for every `j < input.n`; the weight
read is row `k`, column `i` of `conn_output`, at offset
`output_n + k * input_n + i`. -/
theorem lbackprop_spec (a : BackpropMem F)
    (h1 : a.delta.c.output_n = a.delta_last.c.input_n)
    (h2 : a.delta.c.output_n = a.z.n)
    (h3 : a.delta.c.input_n = a.input.n)
    (h4 : a.conn_output.c = a.delta_last.c)
    (hwd : a.delta.wf) (hwl : a.delta_last.wf) (hwc : a.conn_output.wf) :
    ∃ r, lbackprop a = .ok r ∧ r.input = a.input ∧ r.z = a.z ∧
      r.delta_last = a.delta_last ∧ r.conn_output = a.conn_output ∧
      r.delta.c = a.delta.c ∧ r.delta.f.length = a.delta.f.length ∧
      ∀ i, i < a.z.n →
        r.delta.f[i]? = some ((∑ k in Finset.range a.delta_last.c.output_n,
            a.delta_last.f.getD k 0 *
              a.conn_output.f.getD
                (a.conn_output.c.output_n + k * a.conn_output.c.input_n + i) 0) *
          a.z.data.getD i 0 * (1 - a.z.data.getD i 0)) ∧
        ∀ j, j < a.input.n →
          r.delta.f[a.delta.c.output_n + i * a.delta.c.input_n + j]? =
            some ((∑ k in Finset.range a.delta_last.c.output_n,
                a.delta_last.f.getD k 0 *
                  a.conn_output.f.getD
                    (a.conn_output.c.output_n + k * a.conn_output.c.input_n + i) 0) *
              a.z.data.getD i 0 * (1 - a.z.data.getD i 0) * a.input.data.getD j 0) := by
  have hcall : lbackprop a = Outcome.map
      (fun d => { a with delta := { a.delta with f := d } })
      (forLoop (lbackprop_body a) a.delta.c.output_n 0 a.delta.f) := by
    simp only [lbackprop, h1, ← h2, h3, ne_eq, not_true_eq_false, or_self, if_false]
  obtain ⟨r, hr, hrlen, hrows⟩ := nabla_rows_loop (lbackprop_body a) a.input a.delta.c
    (fun i => (∑ k in Finset.range a.delta_last.c.output_n,
            a.delta_last.f.getD k 0 *
              a.conn_output.f.getD
                (a.conn_output.c.output_n + k * a.conn_output.c.input_n + i) 0) *
          a.z.data.getD i 0 * (1 - a.z.data.getD i 0))
    a.delta.f hwd h3.symm
    (by
      intro i cur hi _
      have hi1 : i < a.z.data.length := by unfold layer.n at h2; omega
      simp only [lbackprop_body, lbackprop_sum_loop a i h1 h4 hwl hwc hi,
        List.getElem?_eq_getElem hi1, List.getD_eq_getElem _ _ hi1, sigmoid_prime, mul_assoc])
  refine ⟨{ a with delta := { a.delta with f := r } }, by rw [hcall, hr]; rfl, rfl, rfl, rfl,
    rfl, rfl, hrlen, ?_⟩
  intro i hi
  obtain ⟨hb, hw⟩ := hrows i (by omega)
  exact ⟨hb, fun j hj => hw j (by omega)⟩

/-- Witness for C3: on `exampleHidden` the factors are
`(3 * 7 + 5 * 13) / 4 = 43/2` and `(3 * 11 + 5 * 17) / 4 = 59/2`. -/
theorem lbackprop_spec_witness :
    (∃ r, lbackprop exampleHidden = .ok r ∧ r.input = exampleHidden.input ∧
      r.z = exampleHidden.z ∧
      r.delta_last = exampleHidden.delta_last ∧ r.conn_output = exampleHidden.conn_output ∧
      r.delta.c = exampleHidden.delta.c ∧
      r.delta.f.length = exampleHidden.delta.f.length ∧
      ∀ i, i < exampleHidden.z.n →
        r.delta.f[i]? = some ((∑ k in Finset.range exampleHidden.delta_last.c.output_n,
            exampleHidden.delta_last.f.getD k 0 *
              exampleHidden.conn_output.f.getD
                (exampleHidden.conn_output.c.output_n +
                  k * exampleHidden.conn_output.c.input_n + i) 0) *
          exampleHidden.z.data.getD i 0 * (1 - exampleHidden.z.data.getD i 0)) ∧
        ∀ j, j < exampleHidden.input.n →
          r.delta.f[exampleHidden.delta.c.output_n +
              i * exampleHidden.delta.c.input_n + j]? =
            some ((∑ k in Finset.range exampleHidden.delta_last.c.output_n,
                exampleHidden.delta_last.f.getD k 0 *
                  exampleHidden.conn_output.f.getD
                    (exampleHidden.conn_output.c.output_n +
                      k * exampleHidden.conn_output.c.input_n + i) 0) *
              exampleHidden.z.data.getD i 0 * (1 - exampleHidden.z.data.getD i 0) *
              exampleHidden.input.data.getD j 0)) ∧
    lbackprop exampleHidden =
      .ok { exampleHidden with delta := ⟨⟨1, 2⟩, [43 / 2, 59 / 2, 43 / 2, 59 / 2]⟩ } :=
  ⟨lbackprop_spec exampleHidden rfl rfl rfl rfl rfl rfl rfl, by
    simp [lbackprop, exampleHidden, layer.n, forLoop, store, Outcome.map,
      lbackprop_body, lbackprop_sum, nabla_store, nabla_w_body, weight, bias, sigmoid_prime]
    norm_num⟩

theorem map_not_raised {σ τ : Type} (g : σ → τ) (o : Outcome σ)
    (ho : ∀ e s, o ≠ .raised e s) : ∀ e t, Outcome.map g o ≠ .raised e t := by
  intro e t h
  cases o with
  | ok s => simp [Outcome.map] at h
  | raised e2 s => exact ho e2 s rfl
  | fault => simp [Outcome.map] at h

theorem lbackprop_body_not_raised (a : BackpropMem F) (i : Nat) (delta : List F)
    (e : Msg) (t : List F) : lbackprop_body a i delta ≠ .raised e t := by
  unfold lbackprop_body
  simp only
  cases forLoop (lbackprop_sum a i) a.delta_last.c.output_n 0 0 with
  | ok d0 =>
    cases a.z.data[i]? with
    | some zi => exact nabla_store_not_raised _ _ _ _ _ _ _ _
    | none => simp
  | raised e2 t2 => simp
  | fault => simp

theorem llayer_init_atomic (self : layer F) (image : List (Fin 256)) (e : Msg) (s : layer F)
    (h : llayer_init self image = .raised e s) : s = self := by
  unfold llayer_init at h
  split at h
  · cases h; rfl
  · exfalso
    refine map_not_raised _ _ ?_ _ _ h
    apply forLoop_not_raised
    intro i cur e1 t1
    split
    · exact store_not_raised _ _ _ _ _
    · simp

theorem llayer_init_n_atomic (self : layer F) (index : Int) (e : Msg) (s : layer F)
    (h : llayer_init_n self index = .raised e s) : s = self := by
  unfold llayer_init_n at h
  simp only at h
  split at h
  · cases h; rfl
  · exfalso
    exact map_not_raised _ _ (fun e1 t1 => store_not_raised _ _ _ _ _) _ _ h

theorem lconnection_accumulate_atomic (a : AccMem F) (e : Msg) (s : AccMem F)
    (h : lconnection_accumulate a = .raised e s) : s = a := by
  unfold lconnection_accumulate at h
  simp only at h
  split at h
  · cases h; rfl
  · exfalso
    refine map_not_raised _ _ ?_ _ _ h
    apply forLoop_not_raised
    intro i cur e1 t1
    unfold lconnection_accumulate_body
    split
    · exact store_not_raised _ _ _ _ _
    · simp

theorem lconnection_update_atomic (a : AccMem F) (eta : LuaNum F) (e : Msg) (s : AccMem F)
    (h : lconnection_update a eta = .raised e s) : s = a := by
  unfold lconnection_update at h
  simp only at h
  split at h
  · cases h; rfl
  · cases eta with
    | other => cases h; rfl
    | number x =>
      exfalso
      refine map_not_raised _ _ ?_ _ _ h
      apply forLoop_not_raised
      intro i cur e1 t1
      unfold lconnection_update_body
      split
      · exact store_not_raised _ _ _ _ _
      · simp

theorem lbackprop_last_atomic (a : BackpropLastMem F) (e : Msg) (s : BackpropLastMem F)
    (h : lbackprop_last a = .raised e s) : s = a := by
  unfold lbackprop_last at h
  simp only at h
  split at h
  · cases h; rfl
  · exfalso
    refine map_not_raised _ _ ?_ _ _ h
    exact forLoop_not_raised _ (lbackprop_last_body_not_raised a) _ _ _

theorem lbackprop_atomic (a : BackpropMem F) (e : Msg) (s : BackpropMem F)
    (h : lbackprop a = .raised e s) : s = a := by
  unfold lbackprop at h
  simp only at h
  split at h
  · cases h; rfl
  · exfalso
    refine map_not_raised _ _ ?_ _ _ h
    exact forLoop_not_raised _ (lbackprop_body_not_raised a) _ _ _

theorem forLoop_raised {σ : Type} (body : Nat → σ → Outcome σ) :
    ∀ (count start : Nat) (s : σ) (e : Msg) (s1 : σ),
      forLoop body count start s = .raised e s1 → ∃ i t, body i t = .raised e s1 := by
  intro count
  induction count with
  | zero => intro start s e s1 h; simp [forLoop] at h
  | succ n ih =>
    intro start s e s1 h
    simp only [forLoop] at h
    cases hbs : body start s with
    | ok t => rw [hbs] at h; exact ih _ _ _ _ h
    | raised e2 t =>
      rw [hbs] at h
      exact ⟨start, s, by rw [hbs]; exact h⟩
    | fault => rw [hbs] at h; cases h

theorem lconnection_import_bias_msg {G : Type} (c : connection) (biasT : List (LuaNum G))
    (i : Nat) (f t : List G) : lconnection_import_bias c biasT i f ≠ .raised .invalidSize t := by
  unfold lconnection_import_bias
  split
  · exact store_not_raised _ _ _ _ _
  · simp

theorem lconnection_import_row_msg {G : Type} (c : connection) (weightT : List (LuaRow G))
    (i : Nat) (f t : List G) : lconnection_import_row c weightT i f ≠ .raised .invalidSize t := by
  unfold lconnection_import_row
  split
  · simp only
    split
    · simp
    · intro h
      obtain ⟨j, u, hj⟩ := forLoop_raised _ _ _ _ _ _ h
      unfold lconnection_import_elem at hj
      split at hj
      · exact store_not_raised _ _ _ _ _ hj
      · simp at hj
  · simp

theorem lconnection_import_atomic {G : Type} (self : ConnectionObj G)
    (biasT : List (LuaNum G)) (weightT : List (LuaRow G)) (s : ConnectionObj G)
    (h : lconnection_import self biasT weightT = .raised .invalidSize s) : s = self := by
  unfold lconnection_import at h
  simp only at h
  split at h
  · cases h; rfl
  · exfalso
    cases hb : forLoop (lconnection_import_bias self.c biasT) self.c.output_n 0 self.f with
    | ok f1 =>
      rw [hb] at h
      simp only at h
      cases hw : forLoop (lconnection_import_row self.c weightT) self.c.output_n 0 f1 with
      | ok f2 => rw [hw] at h; simp [Outcome.map] at h
      | raised e2 t2 =>
        rw [hw] at h
        simp only [Outcome.map, Outcome.raised.injEq] at h
        obtain ⟨i, u, hi⟩ := forLoop_raised _ _ _ _ _ _ hw
        rw [h.1] at hi
        exact lconnection_import_row_msg _ _ _ _ _ hi
      | fault => rw [hw] at h; simp [Outcome.map] at h
    | raised e2 t2 =>
      rw [hb] at h
      simp only [Outcome.map, Outcome.raised.injEq] at h
      obtain ⟨i, u, hi⟩ := forLoop_raised _ _ _ _ _ _ hb
      rw [h.1] at hi
      exact lconnection_import_bias_msg _ _ _ _ _ hi
    | fault => rw [hb] at h; simp [Outcome.map] at h

/-- C5, amended: a failing call of `Layer.init`, `Layer.init_n`,
`Connection.accumulate`, `Connection.update`, `backprop_last` or `backprop`
leaves every layer and connection on its stack as before the call, and so
does a `Connection.import` that fails its initial size test ("Invalid
size"). -/
theorem fail_fast_atomicity :
    (∀ (self : layer F) (image : List (Fin 256)) (e : Msg) (s : layer F),
      llayer_init self image = .raised e s → s = self) ∧
    (∀ (self : layer F) (index : Int) (e : Msg) (s : layer F),
      llayer_init_n self index = .raised e s → s = self) ∧
    (∀ (a : AccMem F) (e : Msg) (s : AccMem F),
      lconnection_accumulate a = .raised e s → s = a) ∧
    (∀ (a : AccMem F) (eta : LuaNum F) (e : Msg) (s : AccMem F),
      lconnection_update a eta = .raised e s → s = a) ∧
    (∀ (a : BackpropLastMem F) (e : Msg) (s : BackpropLastMem F),
      lbackprop_last a = .raised e s → s = a) ∧
    (∀ (a : BackpropMem F) (e : Msg) (s : BackpropMem F),
      lbackprop a = .raised e s → s = a) ∧
    (∀ (self : ConnectionObj F) (biasT : List (LuaNum F)) (weightT : List (LuaRow F))
        (s : ConnectionObj F),
      lconnection_import self biasT weightT = .raised .invalidSize s → s = self) :=
  ⟨llayer_init_atomic, llayer_init_n_atomic, lconnection_accumulate_atomic,
    lconnection_update_atomic, lbackprop_last_atomic, lbackprop_atomic,
    lconnection_import_atomic⟩

/-- Witness for C5: each of the seven operations fails on a concrete stack,
and the memory it leaves is the one it received. -/
theorem fail_fast_atomicity_witness :
    (∃ e s, llayer_init exampleLayer4 [] = .raised e s ∧ s = exampleLayer4) ∧
    (∃ e s, llayer_init_n exampleLayer4 4 = .raised e s ∧ s = exampleLayer4) ∧
    (∃ e s, lconnection_accumulate exampleAccBad = .raised e s ∧ s = exampleAccBad) ∧
    (∃ e s, lconnection_update exampleAcc .other = .raised e s ∧ s = exampleAcc) ∧
    (∃ e s, lbackprop_last exampleLastBad = .raised e s ∧ s = exampleLastBad) ∧
    (∃ e s, lbackprop exampleHiddenBad = .raised e s ∧ s = exampleHiddenBad) ∧
    (∃ s, lconnection_import exampleConn [] [.other] = .raised .invalidSize s ∧
      s = exampleConn) := by
  have h1 : llayer_init exampleLayer4 [] = .raised .invalidImageSize exampleLayer4 := by
    simp [llayer_init, exampleLayer4, layer.n]
  have h2 : llayer_init_n exampleLayer4 4 = .raised .invalidN exampleLayer4 := by
    simp [llayer_init_n, exampleLayer4, layer.n, int_of_lua_Integer]
  have h3 : lconnection_accumulate exampleAccBad =
      .raised .accumulateSizeMismatch exampleAccBad := by
    simp [lconnection_accumulate, exampleAccBad]
  have h4 : lconnection_update exampleAcc .other = .raised .numberExpected exampleAcc := by
    simp [lconnection_update, exampleAcc]
  have h5 : lbackprop_last exampleLastBad = .raised .invalidOutputDelta exampleLastBad := by
    simp [lbackprop_last, exampleLastBad, layer.n]
  have h6 : lbackprop exampleHiddenBad = .raised .inputOutputMismatch exampleHiddenBad := by
    simp [lbackprop, exampleHiddenBad, layer.n]
  have h7 : lconnection_import exampleConn [] [.other] =
      .raised .invalidSize exampleConn := by
    simp [lconnection_import, exampleConn]
  exact ⟨⟨_, _, h1, fail_fast_atomicity.1 _ _ _ _ h1⟩,
    ⟨_, _, h2, fail_fast_atomicity.2.1 _ _ _ _ h2⟩,
    ⟨_, _, h3, fail_fast_atomicity.2.2.1 _ _ _ h3⟩,
    ⟨_, _, h4, fail_fast_atomicity.2.2.2.1 _ _ _ _ h4⟩,
    ⟨_, _, h5, fail_fast_atomicity.2.2.2.2.1 _ _ _ h5⟩,
    ⟨_, _, h6, fail_fast_atomicity.2.2.2.2.2.1 _ _ _ h6⟩,
    ⟨_, h7, fail_fast_atomicity.2.2.2.2.2.2 _ _ _ _ h7⟩⟩

/-- Counterexample to C5 as stated: on a connection of shape `(1, 1)` with
buffer `[0, 0]`, an import with the valid bias sequence `(1)` and the weight
row `(3, 4)` of the wrong length fails with "Invalid weight_size[1]" after
the bias slot has been overwritten: the buffer left is `[1, 0]`. -/
theorem lconnection_import_not_atomic :
    lconnection_import exampleConn [.number 1] [.table [.number 3, .number 4]] =
      .raised (.invalidWeightSize 1) ⟨⟨1, 1⟩, [1, 0]⟩ ∧
    (⟨⟨1, 1⟩, [1, 0]⟩ : ConnectionObj ℚ) ≠ exampleConn := by
  constructor
  · simp [lconnection_import, exampleConn, forLoop, lconnection_import_bias,
      lconnection_import_row, store, bias, Outcome.map]
  · simp [exampleConn]

/-- C4 at its failing input: on a connection of shape `(1, 1)`, an import
whose bias sequence `(1, 2)` and weight sequence `((3), (4))` both have
length 2 passes the size test and returns normally, having stored the bias 1
and the weight 3; so does an import whose bias sequence has length 1 and
whose weight sequence has length 2, the second row being of the wrong
length. -/
theorem lconnection_import_accepts_long :
    exampleConn.c.output_n = 1 ∧
    lconnection_import exampleConn [.number 1, .number 2]
        [.table [.number 3], .table [.number 4]] = .ok ⟨⟨1, 1⟩, [1, 3]⟩ ∧
    lconnection_import exampleConn [.number 1]
        [.table [.number 3], .table [.number 4, .number 5]] = .ok ⟨⟨1, 1⟩, [1, 3]⟩ := by
  refine ⟨rfl, ?_, ?_⟩ <;>
  simp [lconnection_import, exampleConn, forLoop, lconnection_import_bias,
      lconnection_import_row, lconnection_import_elem, store, bias, weight, Outcome.map]

theorem int_of_lua_Integer_id (x : Int) (h : in_int_range x) : int_of_lua_Integer x = x := by
  unfold in_int_range at h
  unfold int_of_lua_Integer
  omega

/-- For an index that fits a C `int`, `init_n` raises "Invalid n" exactly
when `index < 0` or `index >= n`, and otherwise leaves the one-hot vector of
`index`. -/
theorem llayer_init_n_in_range (self : layer F) (index : Int) (h : in_int_range index) :
    ((llayer_init_n self index).failsWith .InvalidArgument ↔
      (index < 0 ∨ index ≥ (self.n : Int))) ∧
    (¬ (index < 0 ∨ index ≥ (self.n : Int)) →
      ∃ r, llayer_init_n self index = .ok r ∧ r.n = self.n ∧
        ∀ i, i < self.n → r.data[i]? = some (if i = index.toNat then 1 else 0)) := by
  have hid := int_of_lua_Integer_id index h
  by_cases hc : index < 0 ∨ index ≥ (self.n : Int)
  · have hcall : llayer_init_n self index = .raised .invalidN self := by
      simp only [llayer_init_n, hid, hc, if_true]
    refine ⟨?_, fun h2 => absurd hc h2⟩
    simp only [hc, iff_true]
    exact ⟨_, _, hcall, rfl⟩
  · have hk : index.toNat < (List.replicate self.n (0 : F)).length := by
      rw [List.length_replicate]; omega
    have hcall : llayer_init_n self index =
        .ok (layer.mk ((List.replicate self.n (0 : F)).set index.toNat 1)) := by
      simp only [llayer_init_n, hid, hc, if_false, store_ok _ _ _ hk, Outcome.map]
    refine ⟨?_, fun _ => ⟨_, hcall, ?_, ?_⟩⟩
    · simp only [hc, iff_false]
      rintro ⟨e, s, he, _⟩
      rw [hcall] at he; cases he
    · simp [layer.n]
    · intro i hi
      by_cases hik : i = index.toNat
      · subst hik
        rw [List.getElem?_set_self hk]; simp
      · rw [List.getElem?_set_ne (Ne.symm hik)]
        simp [hik, hi]

/-- C11 at its failing input: on a layer of size 5 the index `2^32 + 2`,
which is not below 5, is narrowed to the `int` 2 before the range test;
`init_n` raises no error and returns the one-hot vector of index 2. -/
theorem llayer_init_n_accepts_wrapped :
    exampleLayer5.n = 5 ∧ (2 ^ 32 + 2 : Int) ≥ 5 ∧
    int_of_lua_Integer (2 ^ 32 + 2) = 2 ∧
    llayer_init_n exampleLayer5 (2 ^ 32 + 2) = .ok ⟨[0, 0, 1, 0, 0]⟩ ∧
    ¬ (llayer_init_n exampleLayer5 (2 ^ 32 + 2)).fails := by
  have h2 : int_of_lua_Integer (2 ^ 32 + 2) = 2 := by
    unfold int_of_lua_Integer; norm_num
  have h3 : int_of_lua_Integer 4294967298 = 2 := by
    unfold int_of_lua_Integer; norm_num
  have hcall : llayer_init_n exampleLayer5 (2 ^ 32 + 2) = .ok ⟨[0, 0, 1, 0, 0]⟩ := by
    simp [llayer_init_n, h3, exampleLayer5, layer.n, store, Outcome.map]
  refine ⟨rfl, by norm_num, h2, hcall, ?_⟩
  rintro ⟨e, s, he⟩
  rw [hcall] at he; cases he

theorem lfeedforward_body_ok (expf : F → F) (a : FeedforwardMem F)
    (hin : a.input.n = a.conn.c.input_n) (hout : a.output.n = a.conn.c.output_n)
    (hwf : a.conn.wf) (i : Nat) (cur : List F) (hi : i < a.output.data.length)
    (hlen : cur.length = a.output.data.length) :
    ∃ z, lfeedforward_body expf a.input a.conn i cur = .ok (cur.set i (sigmoid expf z)) := by
  have hi1 : i < a.conn.c.output_n := by rw [← hout]; exact hi
  have hi2 : i < a.conn.f.length := by rw [hwf]; omega
  refine ⟨(∑ j in Finset.range a.conn.c.input_n,
    a.input.data.getD j 0 *
      a.conn.f.getD (a.conn.c.output_n + i * a.conn.c.input_n + j) 0) + a.conn.f[i], ?_⟩
  simp only [lfeedforward_body, lfeedforward_sum_loop a.input a.conn i hin hwf hi1, bias,
    Nat.zero_add, List.getElem?_eq_getElem hi2]
  rw [store_ok _ _ _ (by omega)]

/-- C17: when `input.n = conn.input_n`, `output.n = conn.output_n` and the
connection buffer has `input_n * output_n + output_n` floats, every slot
that `feedforward` reads or writes lies inside its buffer (`input[j]`,
`bias[i]`, `weight(i, j)` and `output[i]` for `i < output_n`, `j < input_n`)
and the call returns normally: it neither raises an error nor leaves the
buffers. -/
theorem lfeedforward_safe (expf : F → F) (a : FeedforwardMem F)
    (hin : a.input.n = a.conn.c.input_n) (hout : a.output.n = a.conn.c.output_n)
    (hwf : a.conn.wf) :
    (∀ i j, i < a.conn.c.output_n → j < a.conn.c.input_n →
      j < a.input.data.length ∧ bias a.conn.c + i < a.conn.f.length ∧
      weight a.conn.c i + j < a.conn.f.length ∧ i < a.output.data.length) ∧
    (∃ r, lfeedforward expf a = .ok r) ∧
    lfeedforward expf a ≠ .fault ∧ ¬ (lfeedforward expf a).fails := by
  have hok : ∃ r, lfeedforward expf a = .ok r := by
    obtain ⟨r, hr, _⟩ := forLoop_inv (lfeedforward_body expf a.input a.conn)
      (fun _ cur => cur.length = a.output.data.length)
      a.output.n 0 a.output.data rfl
      (by
        intro i cur _ hi hlen
        have hi1 : i < a.output.data.length := by unfold layer.n at hi; omega
        obtain ⟨z, hz⟩ := lfeedforward_body_ok expf a hin hout hwf i cur hi1 hlen
        exact ⟨_, hz, by simp [hlen]⟩)
    exact ⟨{ a with output := layer.mk r }, by unfold lfeedforward; rw [hr]; rfl⟩
  obtain ⟨r, hr⟩ := hok
  refine ⟨?_, ⟨r, hr⟩, by rw [hr]; simp, ?_⟩
  · intro i j hi hj
    unfold layer.n at hin hout
    refine ⟨by omega, by simp only [bias]; rw [hwf]; omega, ?_, by omega⟩
    rw [weight_eq, hwf]
    exact weight_lt _ _ _ hi hj
  · rintro ⟨e, s, he⟩
    rw [hr] at he; cases he

/-- Witness for C17 on `exampleForward`. -/
theorem lfeedforward_safe_witness :
    (∀ i j, i < exampleForward.conn.c.output_n → j < exampleForward.conn.c.input_n →
      j < exampleForward.input.data.length ∧
      bias exampleForward.conn.c + i < exampleForward.conn.f.length ∧
      weight exampleForward.conn.c i + j < exampleForward.conn.f.length ∧
      i < exampleForward.output.data.length) ∧
    (∃ r, lfeedforward exampleExpf exampleForward = .ok r) ∧
    lfeedforward exampleExpf exampleForward ≠ .fault ∧
    ¬ (lfeedforward exampleExpf exampleForward).fails :=
  lfeedforward_safe exampleExpf exampleForward rfl rfl rfl

theorem row_disjoint (n i i2 j j2 : Nat) (hj : j < n) (hlt : i < i2) :
    i * n + j < i2 * n + j2 := by
  have hmul : (i + 1) * n ≤ i2 * n := Nat.mul_le_mul_right _ (Nat.succ_le_of_lt hlt)
  rw [Nat.add_mul, Nat.one_mul] at hmul
  omega

theorem row_injective (n i i2 j j2 : Nat) (hj : j < n) (hj2 : j2 < n)
    (h : i * n + j = i2 * n + j2) : i = i2 ∧ j = j2 := by
  rcases Nat.lt_trichotomy i i2 with hlt | heq | hgt
  · have := row_disjoint n i i2 j j2 hj hlt; omega
  · subst heq; exact ⟨rfl, by omega⟩
  · have := row_disjoint n i2 i j2 j hj2 hgt; omega

/-- Every offset below `input_n * output_n + output_n` is a bias slot or the
slot of exactly one weight. -/
theorem slot_cases (c : connection) (k : Nat) (hk : k < c.input_n * c.output_n + c.output_n) :
    k < c.output_n ∨
      ∃ i j, i < c.output_n ∧ j < c.input_n ∧ k = c.output_n + i * c.input_n + j := by
  by_cases hko : k < c.output_n
  · exact Or.inl hko
  · right
    have hpos : 0 < c.input_n := by
      rcases Nat.eq_zero_or_pos c.input_n with h0 | h0
      · rw [h0, Nat.zero_mul] at hk; omega
      · exact h0
    refine ⟨(k - c.output_n) / c.input_n, (k - c.output_n) % c.input_n, ?_, Nat.mod_lt _ hpos, ?_⟩
    · rw [Nat.div_lt_iff_lt_mul hpos, Nat.mul_comm]; omega
    · have := Nat.div_add_mod (k - c.output_n) c.input_n
      rw [Nat.mul_comm] at this
      omega

/-- C19: in the packed layout `bias i` is offset `i` and `weight (i, j)` is
offset `output_n + i * input_n + j`; this addressing of the bias indices
`i < output_n` and the weight indices `(i, j)`, `i < output_n`,
`j < input_n`, is injective and its image is exactly the set of offsets
below `input_n * output_n + output_n`. -/
theorem layout_partition (c : connection) :
    (∀ i : Fin c.output_n, slot c (.inl i) = i.val) ∧
    (∀ (i : Fin c.output_n) (j : Fin c.input_n),
      slot c (.inr (i, j)) = c.output_n + i.val * c.input_n + j.val) ∧
    Function.Injective (slot c) ∧
    Set.range (slot c) = {k | k < c.input_n * c.output_n + c.output_n} := by
  have hb : ∀ i : Fin c.output_n, slot c (.inl i) = i.val := by
    intro i; simp [slot, bias]
  have hw : ∀ (i : Fin c.output_n) (j : Fin c.input_n),
      slot c (.inr (i, j)) = c.output_n + i.val * c.input_n + j.val := by
    intro i j; simp only [slot]; exact weight_eq c i.val j.val
  refine ⟨hb, hw, ?_, ?_⟩
  · intro x y hxy
    rcases x with i | ⟨i, j⟩ <;> rcases y with i2 | ⟨i2, j2⟩
    · rw [hb, hb] at hxy
      exact congrArg Sum.inl (Fin.ext hxy)
    · rw [hb, hw] at hxy
      have := i.isLt; omega
    · rw [hb, hw] at hxy
      have := i2.isLt; omega
    · rw [hw, hw] at hxy
      obtain ⟨h1, h2⟩ := row_injective c.input_n i.val i2.val j.val j2.val j.isLt j2.isLt
        (by omega)
      have e1 : i = i2 := Fin.ext h1
      have e2 : j = j2 := Fin.ext h2
      rw [e1, e2]
  · ext k
    simp only [Set.mem_range, Set.mem_setOf_eq]
    constructor
    · rintro ⟨x, rfl⟩
      rcases x with i | ⟨i, j⟩
      · rw [hb]; have := i.isLt; omega
      · rw [hw]; exact weight_lt c i.val j.val i.isLt j.isLt
    · intro hk
      rcases slot_cases c k hk with h | ⟨i, j, hi, hj, rfl⟩
      · exact ⟨.inl ⟨k, h⟩, hb _⟩
      · exact ⟨.inr (⟨i, hi⟩, ⟨j, hj⟩), hw _ _⟩

/-- C16 at its failing inputs: `backprop_last` with `result` of size 1 and an
empty `expect`, and `backprop` with a `conn_output` of shape `(1, 1)` under a
`delta_last` of shape `(2, 2)`; every connection has the buffer length of
its shape and both calls pass their shape test (no error is raised), yet
the first reads `expect[0]` and the second reads offset 2 of the two floats
of `conn_output`: both leave their buffers. -/
theorem backprop_reads_out_of_bounds :
    (exampleLastShort.delta.wf ∧ ¬ (lbackprop_last exampleLastShort).fails ∧
      exampleLastShort.expect.data[0]? = none ∧
      lbackprop_last exampleLastShort = .fault) ∧
    (exampleHiddenShort.delta.wf ∧ exampleHiddenShort.delta_last.wf ∧
      exampleHiddenShort.conn_output.wf ∧ ¬ (lbackprop exampleHiddenShort).fails ∧
      exampleHiddenShort.conn_output.f[weight exampleHiddenShort.delta_last.c 0 + 0]? = none ∧
      lbackprop exampleHiddenShort = .fault) := by
  have h1 : lbackprop_last exampleLastShort = .fault := by
    simp [lbackprop_last, exampleLastShort, layer.n, forLoop, Outcome.map,
      lbackprop_last_body]
  have h2 : lbackprop exampleHiddenShort = .fault := by
    simp [lbackprop, exampleHiddenShort, layer.n, forLoop, Outcome.map,
      lbackprop_body, lbackprop_sum, weight, bias]
  refine ⟨⟨rfl, ?_, rfl, h1⟩, ⟨rfl, rfl, rfl, ?_, rfl, h2⟩⟩
  · rintro ⟨e, s, hc⟩; rw [h1] at hc; cases hc
  · rintro ⟨e, s, hc⟩; rw [h2] at hc; cases hc

theorem forLoop_leaves {σ : Type} (body : Nat → σ → Outcome σ) (P : σ → Prop)
    (hb : ∀ i s, P s → (body i s).leaves P) :
    ∀ (count start : Nat) (s : σ), P s → (forLoop body count start s).leaves P := by
  intro count
  induction count with
  | zero => intro start s h; exact h
  | succ n ih =>
    intro start s h
    have hs := hb start s h
    simp only [forLoop]
    cases hbs : body start s with
    | ok t => rw [hbs] at hs; exact ih _ _ hs
    | raised e t => rw [hbs] at hs; exact hs
    | fault => trivial

theorem store_leaves {α : Type} (buf : List α) (k : Nat) (x : α) :
    (store buf k x).leaves (fun r => r.length = buf.length) := by
  unfold store
  split
  · simp [Outcome.leaves]
  · trivial

theorem leaves_mono {σ : Type} (P Q : σ → Prop) (o : Outcome σ) (h : ∀ s, P s → Q s)
    (ho : o.leaves P) : o.leaves Q := by
  cases o with
  | ok s => exact h s ho
  | raised e s => exact h s ho
  | fault => trivial

theorem map_leaves {σ τ : Type} (g : σ → τ) (P : τ → Prop) (o : Outcome σ)
    (ho : o.leaves (fun s => P (g s))) : (Outcome.map g o).leaves P := by
  cases o with
  | ok s => exact ho
  | raised e s => exact ho
  | fault => trivial

theorem store_leaves_len {α : Type} (buf : List α) (k n : Nat) (x : α) (h : buf.length = n) :
    (store buf k x).leaves (fun r => r.length = n) :=
  leaves_mono _ _ _ (fun s hs => by rw [hs, h]) (store_leaves buf k x)

theorem lconnection_accumulate_body_len (delta : List F) (n i : Nat) (base : List F)
    (h : base.length = n) :
    (lconnection_accumulate_body delta i base).leaves (fun r => r.length = n) := by
  unfold lconnection_accumulate_body
  split
  · exact store_leaves_len _ _ _ _ h
  · trivial

theorem lconnection_update_body_len (eta : F) (delta : List F) (n i : Nat) (base : List F)
    (h : base.length = n) :
    (lconnection_update_body eta delta i base).leaves (fun r => r.length = n) := by
  unfold lconnection_update_body
  split
  · exact store_leaves_len _ _ _ _ h
  · trivial

theorem lconnection_import_bias_len {G : Type} (c : connection) (biasT : List (LuaNum G))
    (n i : Nat) (f : List G) (h : f.length = n) :
    (lconnection_import_bias c biasT i f).leaves (fun r => r.length = n) := by
  unfold lconnection_import_bias
  split
  · exact store_leaves_len _ _ _ _ h
  · exact h

theorem lconnection_import_elem_len {G : Type} (w i : Nat) (row : List (LuaNum G))
    (n j : Nat) (f : List G) (h : f.length = n) :
    (lconnection_import_elem w i row j f).leaves (fun r => r.length = n) := by
  unfold lconnection_import_elem
  split
  · exact store_leaves_len _ _ _ _ h
  · exact h

theorem lconnection_import_row_len {G : Type} (c : connection) (weightT : List (LuaRow G))
    (n i : Nat) (f : List G) (h : f.length = n) :
    (lconnection_import_row c weightT i f).leaves (fun r => r.length = n) := by
  unfold lconnection_import_row
  split
  · simp only
    split
    · exact h
    · exact forLoop_leaves _ _ (fun j s hs => lconnection_import_elem_len _ _ _ _ _ _ hs) _ _ _ h
  · exact h

theorem nabla_w_body_len (input : layer F) (w : Nat) (d : F) (n j : Nat) (delta : List F)
    (h : delta.length = n) :
    (nabla_w_body input w d j delta).leaves (fun r => r.length = n) := by
  unfold nabla_w_body
  split
  · exact store_leaves_len _ _ _ _ h
  · trivial

theorem nabla_store_len (input : layer F) (b w i : Nat) (d : F) (n : Nat) (delta : List F)
    (h : delta.length = n) :
    (nabla_store input b w i d delta).leaves (fun r => r.length = n) := by
  unfold nabla_store
  have hs := store_leaves_len delta (b + i) n d h
  cases hst : store delta (b + i) d with
  | ok delta1 =>
    rw [hst] at hs
    exact forLoop_leaves _ _ (fun j s hs2 => nabla_w_body_len _ _ _ _ _ _ hs2) _ _ _ hs
  | raised e t => rw [hst] at hs; exact hs
  | fault => trivial

theorem lbackprop_last_body_len (a : BackpropLastMem F) (n i : Nat) (delta : List F)
    (h : delta.length = n) :
    (lbackprop_last_body a i delta).leaves (fun r => r.length = n) := by
  unfold lbackprop_last_body
  split
  · exact nabla_store_len _ _ _ _ _ _ _ h
  · trivial

theorem lbackprop_body_len (a : BackpropMem F) (n i : Nat) (delta : List F)
    (h : delta.length = n) :
    (lbackprop_body a i delta).leaves (fun r => r.length = n) := by
  unfold lbackprop_body
  simp only
  cases forLoop (lbackprop_sum a i) a.delta_last.c.output_n 0 0 with
  | ok d0 =>
    cases a.z.data[i]? with
    | some zi => exact nabla_store_len _ _ _ _ _ _ _ h
    | none => trivial
  | raised e2 t2 => trivial
  | fault => trivial

theorem lconnection_randn_body_len (m : Libm F) (rand : Nat → Nat) (n i : Nat)
    (st : RandnState F) (h : st.f.length = n) :
    (lconnection_randn_body m rand i st).leaves (fun r => r.f.length = n) := by
  unfold lconnection_randn_body
  have hs := store_leaves_len st.f i n (randnorm m st.s (randf (rand st.calls))) h
  simp only
  cases hst : store st.f i (randnorm m st.s (randf (rand st.calls))) with
  | ok f1 => rw [hst] at hs; exact hs
  | raised e t => rw [hst] at hs; exact hs
  | fault => trivial

theorem lconnection_create (input_n output_n : Nat) (hi : input_n < 2147483648)
    (hc : input_n * output_n + output_n < 2147483648) :
    lconnection (F := F) (input_n : Int) (output_n : Int) =
      .ok { input_n := input_n, output_n := output_n,
            data := List.replicate (input_n * output_n + output_n) 0 } := by
  have ho : output_n < 2147483648 := by omega
  have hp : input_n * output_n < 2147483648 := by omega
  have hpi : (0 : Int) ≤ (input_n : Int) * (output_n : Int) := by positivity
  have hpc : ((input_n : Int) * (output_n : Int)) = ((input_n * output_n : Nat) : Int) := by
    push_cast; rfl
  have e1 : int_of_lua_Integer (input_n : Int) = input_n := by
    unfold int_of_lua_Integer; omega
  have e2 : int_of_lua_Integer (output_n : Int) = output_n := by
    unfold int_of_lua_Integer; omega
  have hprod : in_int_range ((input_n : Int) * (output_n : Int)) := by
    unfold in_int_range
    rw [hpc]
    constructor
    · have : (0 : Int) ≤ ((input_n * output_n : Nat) : Int) := Int.natCast_nonneg _
      linarith
    · norm_num; exact_mod_cast hp
  have hcount : in_int_range ((input_n : Int) * (output_n : Int) + (output_n : Int)) := by
    unfold in_int_range
    rw [hpc]
    constructor
    · have : (0 : Int) ≤ ((input_n * output_n : Nat) : Int) := Int.natCast_nonneg _
      have : (0 : Int) ≤ (output_n : Int) := Int.natCast_nonneg _
      linarith
    · norm_num; exact_mod_cast hc
  have hnn : ¬ ((input_n : Int) * (output_n : Int) + (output_n : Int) < 0) := by
    have : (0 : Int) ≤ (output_n : Int) := Int.natCast_nonneg _
    linarith
  have hnat : ((input_n : Int) * (output_n : Int) + (output_n : Int)).toNat =
      input_n * output_n + output_n := by
    have : ((input_n : Int) * (output_n : Int) + (output_n : Int)) =
        ((input_n * output_n + output_n : Nat) : Int) := by push_cast; rfl
    rw [this, Int.toNat_natCast]
  simp only [lconnection, e1, e2, hprod, hcount, hnn, not_true_eq_false, if_false, hnat]

theorem lconnection_accumulate_shape (a : AccMem F) :
    (lconnection_accumulate a).leaves
      (fun r => a.base.sameShape r.base ∧ r.delta = a.delta) := by
  unfold lconnection_accumulate
  simp only
  split
  · exact ⟨⟨rfl, rfl⟩, rfl⟩
  · apply map_leaves
    refine leaves_mono _ _ _ (fun s hs => ⟨⟨rfl, hs⟩, rfl⟩)
      (forLoop_leaves _ (fun (r : List F) => r.length = a.base.f.length)
        (fun i s hs => lconnection_accumulate_body_len _ _ _ _ hs) _ _ _ rfl)

theorem lconnection_update_shape (a : AccMem F) (eta : LuaNum F) :
    (lconnection_update a eta).leaves
      (fun r => a.base.sameShape r.base ∧ r.delta = a.delta) := by
  unfold lconnection_update
  simp only
  split
  · exact ⟨⟨rfl, rfl⟩, rfl⟩
  · cases eta with
    | other => exact ⟨⟨rfl, rfl⟩, rfl⟩
    | number x =>
      apply map_leaves
      refine leaves_mono _ _ _ (fun s hs => ⟨⟨rfl, hs⟩, rfl⟩)
        (forLoop_leaves _ (fun (r : List F) => r.length = a.base.f.length)
          (fun i s hs => lconnection_update_body_len _ _ _ _ _ hs) _ _ _ rfl)

theorem lconnection_import_shape {G : Type} (self : ConnectionObj G)
    (biasT : List (LuaNum G)) (weightT : List (LuaRow G)) :
    (lconnection_import self biasT weightT).leaves (fun r => self.sameShape r) := by
  unfold lconnection_import
  simp only
  split
  · exact ⟨rfl, rfl⟩
  · apply map_leaves
    have hb := forLoop_leaves (lconnection_import_bias self.c biasT)
      (fun (r : List G) => r.length = self.f.length)
      (fun i s hs => lconnection_import_bias_len _ _ _ _ _ hs) self.c.output_n 0 self.f rfl
    cases hl : forLoop (lconnection_import_bias self.c biasT) self.c.output_n 0 self.f with
    | ok f1 =>
      rw [hl] at hb
      simp only
      exact leaves_mono _ _ _ (fun s hs => ⟨rfl, hs⟩)
        (forLoop_leaves _ (fun (r : List G) => r.length = self.f.length)
          (fun i s hs => lconnection_import_row_len _ _ _ _ _ hs) _ _ _ hb)
    | raised e t => rw [hl] at hb; exact ⟨rfl, hb⟩
    | fault => trivial

theorem lconnection_randn_shape (m : Libm F) (rand : Nat → Nat) (calls : Nat)
    (self : ConnectionObj F) :
    (lconnection_randn m rand calls self).leaves (fun r => self.sameShape r.1) := by
  unfold lconnection_randn
  simp only
  apply map_leaves
  exact leaves_mono _ _ _ (fun s hs => ⟨rfl, hs⟩)
    (forLoop_leaves _ (fun (r : RandnState F) => r.f.length = self.f.length)
      (fun i s hs => lconnection_randn_body_len _ _ _ _ _ hs) _ _ _ rfl)

theorem lbackprop_last_shape (a : BackpropLastMem F) :
    (lbackprop_last a).leaves (fun r => a.delta.sameShape r.delta) := by
  unfold lbackprop_last
  simp only
  split
  · exact ⟨rfl, rfl⟩
  · apply map_leaves
    exact leaves_mono _ _ _ (fun s hs => ⟨rfl, hs⟩)
      (forLoop_leaves _ (fun (r : List F) => r.length = a.delta.f.length)
        (fun i s hs => lbackprop_last_body_len _ _ _ _ hs) _ _ _ rfl)

theorem lbackprop_shape (a : BackpropMem F) :
    (lbackprop a).leaves (fun r => a.delta.sameShape r.delta ∧
      r.delta_last = a.delta_last ∧ r.conn_output = a.conn_output) := by
  unfold lbackprop
  simp only
  split
  · exact ⟨⟨rfl, rfl⟩, rfl, rfl⟩
  · apply map_leaves
    exact leaves_mono _ _ _ (fun s hs => ⟨⟨rfl, hs⟩, rfl, rfl⟩)
      (forLoop_leaves _ (fun (r : List F) => r.length = a.delta.f.length)
        (fun i s hs => lbackprop_body_len _ _ _ _ hs) _ _ _ rfl)

/-- C13, amended: for `input_n` and `output_n` that fit a C `int` with
`input_n * output_n + output_n` below `2^31`, `create(input_n, output_n)`
returns a buffer of exactly `input_n * output_n + output_n` floats, all
zero, with the shape descriptor `(input_n, output_n)`; and whenever
`randomize`, `accumulate`, `update`, `import`, `backprop_last` or `backprop`
returns or raises an error, every connection on its stack has the shape
descriptor and the buffer length it had before, so that the equality
buffer length `= input_n * output_n + output_n` is kept. -/
theorem connection_shape_invariant :
    (∀ input_n output_n : Nat, input_n < 2 ^ 31 →
      input_n * output_n + output_n < 2 ^ 31 →
      lconnection (F := F) (input_n : Int) (output_n : Int) =
        .ok { input_n := input_n, output_n := output_n,
              data := List.replicate (input_n * output_n + output_n) 0 }) ∧
    (∀ (m : Libm F) (rand : Nat → Nat) (calls : Nat) (self : ConnectionObj F),
      (lconnection_randn m rand calls self).leaves (fun r => self.sameShape r.1)) ∧
    (∀ a : AccMem F, (lconnection_accumulate a).leaves
      (fun r => a.base.sameShape r.base ∧ r.delta = a.delta)) ∧
    (∀ (a : AccMem F) (eta : LuaNum F), (lconnection_update a eta).leaves
      (fun r => a.base.sameShape r.base ∧ r.delta = a.delta)) ∧
    (∀ (self : ConnectionObj F) (biasT : List (LuaNum F)) (weightT : List (LuaRow F)),
      (lconnection_import self biasT weightT).leaves (fun r => self.sameShape r)) ∧
    (∀ a : BackpropLastMem F, (lbackprop_last a).leaves
      (fun r => a.delta.sameShape r.delta)) ∧
    (∀ a : BackpropMem F, (lbackprop a).leaves
      (fun r => a.delta.sameShape r.delta ∧ r.delta_last = a.delta_last ∧
        r.conn_output = a.conn_output)) ∧
    (∀ k1 k2 : ConnectionObj F, k1.sameShape k2 → k1.wf → k2.wf) :=
  ⟨fun a b h1 h2 => lconnection_create a b (by norm_num at h1; exact h1)
      (by norm_num at h2; exact h2), lconnection_randn_shape, lconnection_accumulate_shape,
    lconnection_update_shape, lconnection_import_shape, lbackprop_last_shape,
    lbackprop_shape, fun k1 k2 h hw => by
      unfold ConnectionObj.wf at hw ⊢
      rw [h.1, h.2]; exact hw⟩

/-- Witness for C13: `create(2, 3)` yields nine zeros with descriptor
`(2, 3)`, and `accumulate` on `exampleAcc` leaves a connection of the shape
of its first operand. -/
theorem connection_shape_invariant_witness :
    lconnection (F := ℚ) ((2 : Nat) : Int) ((3 : Nat) : Int) =
      .ok { input_n := ((2 : Nat) : Int), output_n := ((3 : Nat) : Int),
            data := List.replicate (2 * 3 + 3) 0 } ∧
    (lconnection_accumulate exampleAcc).leaves
      (fun r => exampleAcc.base.sameShape r.base ∧ r.delta = exampleAcc.delta) :=
  ⟨(connection_shape_invariant (F := ℚ)).1 2 3 (by norm_num) (by norm_num),
    (connection_shape_invariant (F := ℚ)).2.2.1 exampleAcc⟩

/-- Counterexample to C13 as stated: `create(2^32, 1)` stores the descriptor
`(0, 1)` and allocates one float, not `2^32 + 1` floats with descriptor
`(2^32, 1)`; and for `create(65536, 65536)` the count
`input_n * output_n + output_n` leaves the range of `int`. -/
theorem lconnection_narrows :
    (0 : Int) ≤ 2 ^ 32 ∧
    lconnection (F := ℚ) (2 ^ 32) 1 = .ok { input_n := 0, output_n := 1, data := [0] } ∧
    ¬ in_int_range ((65536 : Int) * 65536 + 65536) ∧
    lconnection (F := ℚ) 65536 65536 = .fault := by
  have h1 : int_of_lua_Integer 4294967296 = 0 := by unfold int_of_lua_Integer; norm_num
  have h2 : int_of_lua_Integer 1 = 1 := by unfold int_of_lua_Integer; norm_num
  have h3 : int_of_lua_Integer 65536 = 65536 := by unfold int_of_lua_Integer; norm_num
  refine ⟨by norm_num, ?_, ?_, ?_⟩
  · simp [lconnection, h1, h2, in_int_range]
  · unfold in_int_range; norm_num
  · simp [lconnection, h3, in_int_range]

/-- Two buffers of the length of the shape `c` that agree on every bias slot
and on every weight slot are equal. -/
theorem buffers_eq_of_slots {G : Type} (c : connection) (s1 s2 : List G)
    (h1 : s1.length = c.input_n * c.output_n + c.output_n)
    (h2 : s2.length = c.input_n * c.output_n + c.output_n)
    (hb : ∀ t, t < c.output_n → s1[t]? = s2[t]?)
    (hw : ∀ t j, t < c.output_n → j < c.input_n →
      s1[c.output_n + t * c.input_n + j]? = s2[c.output_n + t * c.input_n + j]?) :
    s1 = s2 := by
  apply List.ext_getElem?
  intro k
  by_cases hk : k < c.input_n * c.output_n + c.output_n
  · rcases slot_cases c k hk with h | ⟨i, j, hi, hj, rfl⟩
    · exact hb k h
    · exact hw i j hi hj
  · rw [List.getElem?_eq_none (by omega), List.getElem?_eq_none (by omega)]

/-! ### Binary32 rounding -/

theorem round_half_even_bounds (y : ℚ) :
    ⌊y⌋ ≤ round_half_even y ∧ round_half_even y ≤ ⌊y⌋ + 1 := by
  unfold round_half_even
  split_ifs <;> constructor <;> omega

theorem round_half_even_int (n : ℤ) : round_half_even (n : ℚ) = n := by
  unfold round_half_even
  simp

theorem round_half_even_mono {y1 y2 : ℚ} (h : y1 ≤ y2) :
    round_half_even y1 ≤ round_half_even y2 := by
  have hf : ⌊y1⌋ ≤ ⌊y2⌋ := Int.floor_mono h
  rcases lt_or_eq_of_le hf with hlt | heq
  · have h1 := (round_half_even_bounds y1).2
    have h2 := (round_half_even_bounds y2).1
    omega
  · unfold round_half_even
    rw [heq]
    have hd : y1 - ⌊y2⌋ ≤ y2 - ⌊y2⌋ := by linarith
    split_ifs <;> first | omega | (exfalso; linarith)

theorem round_half_even_near (y : ℚ) (n : ℤ) (h1 : (n : ℚ) - 1 / 2 < y)
    (h2 : y < (n : ℚ) + 1 / 2) : round_half_even y = n := by
  unfold round_half_even
  by_cases hc : (n : ℚ) ≤ y
  · have hfl : ⌊y⌋ = n := by
      rw [Int.floor_eq_iff]; constructor <;> linarith
    rw [hfl]
    have : y - n < 1 / 2 := by linarith
    simp only [this, if_true]
  · have hfl : ⌊y⌋ = n - 1 := by
      rw [Int.floor_eq_iff]; push_cast; constructor <;> linarith
    rw [hfl]
    push_cast
    have h3 : ¬ (y - ((n : ℚ) - 1) < 1 / 2) := by linarith
    have h4 : 1 / 2 < y - ((n : ℚ) - 1) := by linarith
    simp only [h3, h4, if_false, if_true]
    ring

theorem round_half_even_tie (n : ℤ) (hn : n % 2 = 0) :
    round_half_even ((n : ℚ) + 1 / 2) = n := by
  unfold round_half_even
  have hfl : ⌊(n : ℚ) + 1 / 2⌋ = n := by
    rw [Int.floor_eq_iff]; constructor <;> linarith
  rw [hfl]
  have h3 : ¬ ((n : ℚ) + 1 / 2 - n < 1 / 2) := by linarith
  have h4 : ¬ (1 / 2 < (n : ℚ) + 1 / 2 - n) := by linarith
  simp only [h3, h4, hn, if_false, if_true]

theorem round_half_even_tie_odd (n : ℤ) (hn : n % 2 = 1) :
    round_half_even ((n : ℚ) + 1 / 2) = n + 1 := by
  unfold round_half_even
  have hfl : ⌊(n : ℚ) + 1 / 2⌋ = n := by
    rw [Int.floor_eq_iff]; constructor <;> linarith
  rw [hfl]
  have h3 : ¬ ((n : ℚ) + 1 / 2 - n < 1 / 2) := by linarith
  have h4 : ¬ (1 / 2 < (n : ℚ) + 1 / 2 - n) := by linarith
  have h5 : ¬ (n % 2 = 0) := by omega
  simp only [h3, h4, h5, if_false]

/-- Rounding to the nearest integer, ties to even, is symmetric about 0. -/
theorem round_half_even_neg (y : ℚ) : round_half_even (-y) = -round_half_even y := by
  have hfl := Int.floor_le y
  have hlt := Int.lt_floor_add_one y
  rcases lt_trichotomy (y - ⌊y⌋) (1 / 2) with h | h | h
  · rw [round_half_even_near y ⌊y⌋ (by linarith) (by linarith)]
    apply round_half_even_near
    · push_cast; linarith
    · push_cast; linarith
  · obtain ⟨n, hn⟩ : ∃ n : ℤ, y = (n : ℚ) + 1 / 2 := ⟨⌊y⌋, by linarith⟩
    subst hn
    have hneg : -((n : ℚ) + 1 / 2) = ((-n - 1 : ℤ) : ℚ) + 1 / 2 := by push_cast; ring
    rw [hneg]
    rcases Int.emod_two_eq_zero_or_one n with hm | hm
    · rw [round_half_even_tie n hm, round_half_even_tie_odd (-n - 1) (by omega)]
      ring
    · rw [round_half_even_tie_odd n hm, round_half_even_tie (-n - 1) (by omega)]
      ring
  · rw [round_half_even_near y (⌊y⌋ + 1) (by push_cast; linarith) (by push_cast; linarith)]
    apply round_half_even_near
    · push_cast; linarith
    · push_cast; linarith

theorem round_half_even_abs_sub_le (y : ℚ) : |(round_half_even y : ℚ) - y| ≤ 1 / 2 := by
  have hfl := Int.floor_le y
  have hlt := Int.lt_floor_add_one y
  unfold round_half_even
  split_ifs <;> rw [abs_le] <;> constructor <;> push_cast <;> linarith

theorem f32_ulp_pos (x : ℚ) : 0 < f32_ulp x := by
  unfold f32_ulp
  exact zpow_pos (by norm_num) _

theorem two_zpow_split (e : ℤ) (k : ℕ) :
    (2 : ℚ) ^ (e - 23 + k) = ((2 ^ k : ℤ) : ℚ) * (2 : ℚ) ^ (e - 23) := by
  rw [zpow_add₀ (by norm_num : (2 : ℚ) ≠ 0), zpow_natCast]
  push_cast
  ring

theorem f32_exponent_ge (x : ℚ) : Int.log 2 |x| ≤ f32_exponent x := le_max_left _ _

theorem abs_lt_zpow_exponent (x : ℚ) : |x| < (2 : ℚ) ^ (f32_exponent x + 1) := by
  have h1 := Int.lt_zpow_succ_log_self (b := 2) (by norm_num) |x|
  have h2 : ((2 : ℕ) : ℚ) ^ (Int.log 2 |x| + 1) ≤ (2 : ℚ) ^ (f32_exponent x + 1) := by
    push_cast
    exact zpow_le_zpow_right₀ (by norm_num) (by have := f32_exponent_ge x; omega)
  exact lt_of_lt_of_le h1 h2

theorem zpow_exponent_le_abs (x : ℚ) (hx : x ≠ 0) (he : -126 < f32_exponent x) :
    (2 : ℚ) ^ f32_exponent x ≤ |x| := by
  have hlog : f32_exponent x = Int.log 2 |x| := by
    unfold f32_exponent at he ⊢
    rcases max_cases (Int.log 2 |x|) (-126) with ⟨h, _⟩ | ⟨h, _⟩
    · exact h
    · rw [h] at he; omega
  rw [hlog]
  have := Int.zpow_log_le_self (b := 2) (r := |x|) (by norm_num) (abs_pos.mpr hx)
  exact_mod_cast this

/-- The rounded value stays within the binade bounds. -/
theorem round32_abs_le (x : ℚ) :
    -(2 : ℚ) ^ (f32_exponent x + 1) ≤ round32 x ∧ round32 x ≤ (2 : ℚ) ^ (f32_exponent x + 1) := by
  have hu := f32_ulp_pos x
  have hlt := abs_lt_zpow_exponent x
  have hsplit : (2 : ℚ) ^ (f32_exponent x + 1) = ((2 ^ 24 : ℤ) : ℚ) * f32_ulp x := by
    unfold f32_ulp
    rw [← two_zpow_split (f32_exponent x) 24]
    congr 1
    push_cast
    ring
  have hx1 : x / f32_ulp x ≤ ((2 ^ 24 : ℤ) : ℚ) := by
    rw [div_le_iff₀ hu, ← hsplit]
    exact le_of_lt (lt_of_le_of_lt (le_abs_self x) hlt)
  have hx2 : ((-(2 ^ 24) : ℤ) : ℚ) ≤ x / f32_ulp x := by
    rw [le_div_iff₀ hu]
    have : -(2 : ℚ) ^ (f32_exponent x + 1) ≤ x := by
      have := neg_abs_le x
      linarith
    rw [hsplit] at this
    push_cast at this ⊢
    linarith
  have h1 := round_half_even_mono hx1
  have h2 := round_half_even_mono hx2
  rw [round_half_even_int] at h1 h2
  unfold round32
  rw [hsplit]
  constructor
  · have : ((-(2 ^ 24) : ℤ) : ℚ) ≤ (round_half_even (x / f32_ulp x) : ℚ) := by exact_mod_cast h2
    have h3 := mul_le_mul_of_nonneg_right this (le_of_lt hu)
    push_cast at h3 ⊢
    linarith
  · have : (round_half_even (x / f32_ulp x) : ℚ) ≤ ((2 ^ 24 : ℤ) : ℚ) := by exact_mod_cast h1
    exact mul_le_mul_of_nonneg_right this (le_of_lt hu)

theorem zpow_exponent_split (x : ℚ) :
    (2 : ℚ) ^ f32_exponent x = ((2 ^ 23 : ℤ) : ℚ) * f32_ulp x := by
  unfold f32_ulp
  rw [← two_zpow_split (f32_exponent x) 23]
  congr 1
  push_cast
  ring

theorem round32_ge_of_pos (x : ℚ) (hx : 0 < x) (he : -126 < f32_exponent x) :
    (2 : ℚ) ^ f32_exponent x ≤ round32 x := by
  have hu := f32_ulp_pos x
  have hle := zpow_exponent_le_abs x (ne_of_gt hx) he
  rw [abs_of_pos hx] at hle
  have hx1 : ((2 ^ 23 : ℤ) : ℚ) ≤ x / f32_ulp x := by
    rw [le_div_iff₀ hu, ← zpow_exponent_split]; exact hle
  have h1 := round_half_even_mono hx1
  rw [round_half_even_int] at h1
  unfold round32
  rw [zpow_exponent_split]
  have : ((2 ^ 23 : ℤ) : ℚ) ≤ (round_half_even (x / f32_ulp x) : ℚ) := by exact_mod_cast h1
  exact mul_le_mul_of_nonneg_right this (le_of_lt hu)

theorem round32_le_of_neg (x : ℚ) (hx : x < 0) (he : -126 < f32_exponent x) :
    round32 x ≤ -(2 : ℚ) ^ f32_exponent x := by
  have hu := f32_ulp_pos x
  have hle := zpow_exponent_le_abs x (ne_of_lt hx) he
  rw [abs_of_neg hx] at hle
  have hx1 : x / f32_ulp x ≤ ((-(2 ^ 23) : ℤ) : ℚ) := by
    rw [div_le_iff₀ hu]
    rw [zpow_exponent_split] at hle
    push_cast at hle ⊢
    linarith
  have h1 := round_half_even_mono hx1
  rw [round_half_even_int] at h1
  unfold round32
  rw [zpow_exponent_split]
  have : (round_half_even (x / f32_ulp x) : ℚ) ≤ ((-(2 ^ 23) : ℤ) : ℚ) := by exact_mod_cast h1
  have h3 := mul_le_mul_of_nonneg_right this (le_of_lt hu)
  push_cast at h3 ⊢
  linarith

theorem round32_zero : round32 0 = 0 := by
  unfold round32
  simp [round_half_even_int 0, round_half_even]

theorem round32_nonneg (x : ℚ) (hx : 0 ≤ x) : 0 ≤ round32 x := by
  have hu := f32_ulp_pos x
  have h0 : (0 : ℚ) ≤ x / f32_ulp x := div_nonneg hx (le_of_lt hu)
  have h1 := @round_half_even_mono ((0 : ℤ) : ℚ) (x / f32_ulp x) (by exact_mod_cast h0)
  rw [round_half_even_int] at h1
  unfold round32
  exact mul_nonneg (by exact_mod_cast h1) (le_of_lt hu)

theorem round32_nonpos (x : ℚ) (hx : x ≤ 0) : round32 x ≤ 0 := by
  have hu := f32_ulp_pos x
  have h0 : x / f32_ulp x ≤ (0 : ℚ) := div_nonpos_of_nonpos_of_nonneg hx (le_of_lt hu)
  have h1 := @round_half_even_mono (x / f32_ulp x) ((0 : ℤ) : ℚ) (by exact_mod_cast h0)
  rw [round_half_even_int] at h1
  unfold round32
  exact mul_nonpos_of_nonpos_of_nonneg (by exact_mod_cast h1) (le_of_lt hu)

theorem round32_mono_same (x y : ℚ) (h : x ≤ y) (he : f32_exponent x = f32_exponent y) :
    round32 x ≤ round32 y := by
  have hu : f32_ulp x = f32_ulp y := by unfold f32_ulp; rw [he]
  have hy := f32_ulp_pos y
  unfold round32
  rw [hu]
  have h1 : x / f32_ulp y ≤ y / f32_ulp y := div_le_div_of_nonneg_right h (le_of_lt hy)
  have h2 := round_half_even_mono h1
  exact mul_le_mul_of_nonneg_right (by exact_mod_cast h2) (le_of_lt hy)

theorem f32_exponent_mono (x y : ℚ) (hx : x ≠ 0) (h : |x| ≤ |y|) :
    f32_exponent x ≤ f32_exponent y := by
  unfold f32_exponent
  exact max_le_max (Int.log_mono_right (abs_pos.mpr hx) h) (le_refl _)

/-- Binary32 rounding is monotone. -/
theorem round32_mono : Monotone round32 := by
  intro x y h
  rcases le_or_lt x 0 with hx0 | hx0
  · rcases le_or_lt 0 y with hy0 | hy0
    · exact le_trans (round32_nonpos x hx0) (round32_nonneg y hy0)
    · -- x ≤ y < 0
      have habs : |y| ≤ |x| := by
        rw [abs_of_neg hy0, abs_of_nonpos hx0]; linarith
      have he := f32_exponent_mono y x (ne_of_lt hy0) habs
      rcases lt_or_eq_of_le he with hlt | heq
      · have h1 := round32_le_of_neg x (lt_of_le_of_lt h hy0) (by
          have : -126 ≤ f32_exponent y := le_max_right _ _
          omega)
        have h2 := (round32_abs_le y).1
        have h3 : (2 : ℚ) ^ (f32_exponent y + 1) ≤ (2 : ℚ) ^ f32_exponent x :=
          zpow_le_zpow_right₀ (by norm_num) (by omega)
        linarith
      · exact round32_mono_same x y h heq.symm
  · -- 0 < x ≤ y
    have hy0 : 0 < y := lt_of_lt_of_le hx0 h
    have habs : |x| ≤ |y| := by
      rw [abs_of_pos hx0, abs_of_pos hy0]; exact h
    have he := f32_exponent_mono x y (ne_of_gt hx0) habs
    rcases lt_or_eq_of_le he with hlt | heq
    · have h1 := round32_ge_of_pos y hy0 (by
        have : -126 ≤ f32_exponent x := le_max_right _ _
        omega)
      have h2 := (round32_abs_le x).2
      have h3 : (2 : ℚ) ^ (f32_exponent x + 1) ≤ (2 : ℚ) ^ f32_exponent y :=
        zpow_le_zpow_right₀ (by norm_num) (by omega)
      linarith
    · exact round32_mono_same x y h heq

theorem f32_exponent_eq (x : ℚ) (e : ℤ) (he : -126 ≤ e) (h1 : (2 : ℚ) ^ e ≤ |x|)
    (h2 : |x| < (2 : ℚ) ^ (e + 1)) : f32_exponent x = e := by
  have hpos : 0 < |x| := lt_of_lt_of_le (zpow_pos (by norm_num) e) h1
  have hlog : Int.log 2 |x| = e := by
    apply le_antisymm
    · have := (Int.lt_zpow_iff_log_lt (b := 2) (by norm_num) (x := e + 1) hpos).mp (by
        push_cast; exact h2)
      omega
    · exact (Int.zpow_le_iff_le_log (b := 2) (by norm_num) hpos).mp (by push_cast; exact h1)
  unfold f32_exponent
  rw [hlog]
  exact max_eq_left he

/-- Evaluation of `round32` once the binade of `x` is known. -/
theorem round32_eval (x : ℚ) (e : ℤ) (he : -126 ≤ e) (h1 : (2 : ℚ) ^ e ≤ |x|)
    (h2 : |x| < (2 : ℚ) ^ (e + 1)) :
    round32 x = (round_half_even (x / (2 : ℚ) ^ (e - 23)) : ℚ) * (2 : ℚ) ^ (e - 23) := by
  unfold round32 f32_ulp
  rw [f32_exponent_eq x e he h1 h2]

/-- The binary32 values `m * 2^k` with `|m| < 2^24` and `k ≥ -149` are fixed
by the rounding. -/
theorem round32_repr (m k : ℤ) (hm : |m| < 2 ^ 24) (hk : -149 ≤ k) :
    round32 ((m : ℚ) * (2 : ℚ) ^ k) = (m : ℚ) * (2 : ℚ) ^ k := by
  by_cases hm0 : m = 0
  · subst hm0; simp [round32_zero]
  · have h2pos : (0 : ℚ) < (2 : ℚ) ^ k := zpow_pos (by norm_num) k
    have hx0 : (m : ℚ) * (2 : ℚ) ^ k ≠ 0 :=
      mul_ne_zero (by exact_mod_cast hm0) (ne_of_gt h2pos)
    have habs : |(m : ℚ) * (2 : ℚ) ^ k| < (2 : ℚ) ^ (k + 24) := by
      rw [abs_mul, abs_of_pos h2pos, zpow_add₀ (by norm_num : (2 : ℚ) ≠ 0), mul_comm]
      apply mul_lt_mul_of_pos_left _ h2pos
      have : ((|m| : ℤ) : ℚ) < ((2 ^ 24 : ℤ) : ℚ) := by exact_mod_cast hm
      push_cast at this
      norm_num
      exact this
    have hlog : Int.log 2 |(m : ℚ) * (2 : ℚ) ^ k| < k + 24 :=
      (Int.lt_zpow_iff_log_lt (b := 2) (by norm_num) (abs_pos.mpr hx0)).mp (by
        push_cast; exact habs)
    have hE : f32_exponent ((m : ℚ) * (2 : ℚ) ^ k) - 23 ≤ k := by
      unfold f32_exponent
      rcases max_cases (Int.log 2 |(m : ℚ) * (2 : ℚ) ^ k|) (-126) with ⟨h, _⟩ | ⟨h, _⟩ <;>
        rw [h] <;> omega
    obtain ⟨j, hj⟩ : ∃ j : ℕ, k = f32_exponent ((m : ℚ) * (2 : ℚ) ^ k) - 23 + j :=
      ⟨(k - (f32_exponent ((m : ℚ) * (2 : ℚ) ^ k) - 23)).toNat, by omega⟩
    have hu := f32_ulp_pos ((m : ℚ) * (2 : ℚ) ^ k)
    have hsplit : (2 : ℚ) ^ k = ((2 ^ j : ℤ) : ℚ) * f32_ulp ((m : ℚ) * (2 : ℚ) ^ k) := by
      unfold f32_ulp
      rw [← two_zpow_split]
      congr 1
    have hdiv : (m : ℚ) * (2 : ℚ) ^ k / f32_ulp ((m : ℚ) * (2 : ℚ) ^ k) =
        ((m * 2 ^ j : ℤ) : ℚ) := by
      rw [div_eq_iff (ne_of_gt hu)]
      conv_lhs => rw [hsplit]
      push_cast
      ring
    unfold round32
    rw [hdiv, round_half_even_int]
    conv_rhs => rw [hsplit]
    push_cast
    ring

theorem round32_one : round32 1 = 1 := by
  have := round32_repr 1 0 (by norm_num) (by norm_num)
  simpa using this

/-- Integers below `2^24` in absolute value are binary32 values. -/
theorem round32_int (n : ℤ) (hn : |n| < 2 ^ 24) : round32 (n : ℚ) = n := by
  have := round32_repr n 0 hn (by norm_num)
  simpa using this

/-- Rounding to binary32 is symmetric about 0. -/
theorem round32_neg (x : ℚ) : round32 (-x) = -round32 x := by
  unfold round32 f32_ulp f32_exponent
  rw [abs_neg, neg_div, round_half_even_neg]
  push_cast
  ring

/-- At 0 and in the normal range the binary32 rounding has relative error at
most `2^-24`. -/
theorem round32_rounds_within (x : ℚ) (hx : x = 0 ∨ (2 : ℚ) ^ (-126 : ℤ) ≤ |x|) :
    rounds_within round32 (1 / 2 ^ 24) x := by
  unfold rounds_within
  rcases hx with rfl | hx
  · simp [round32_zero]
  · have hu := f32_ulp_pos x
    have hx0 : x ≠ 0 := by
      intro h
      rw [h, abs_zero] at hx
      have := zpow_pos (show (0 : ℚ) < 2 by norm_num) (-126)
      linarith
    have hle : (2 : ℚ) ^ f32_exponent x ≤ |x| := by
      by_cases he : -126 < f32_exponent x
      · exact zpow_exponent_le_abs x hx0 he
      · have h126 : f32_exponent x = -126 := le_antisymm (not_lt.mp he) (le_max_right _ _)
        rw [h126]; exact hx
    have herr := round_half_even_abs_sub_le (x / f32_ulp x)
    have hd : round32 x - x =
        ((round_half_even (x / f32_ulp x) : ℚ) - x / f32_ulp x) * f32_ulp x := by
      unfold round32
      field_simp
    rw [hd, abs_mul, abs_of_pos hu]
    have hsplit := zpow_exponent_split x
    calc |(round_half_even (x / f32_ulp x) : ℚ) - x / f32_ulp x| * f32_ulp x
        ≤ 1 / 2 * f32_ulp x := mul_le_mul_of_nonneg_right herr (le_of_lt hu)
      _ = 1 / 2 ^ 24 * (2 : ℚ) ^ f32_exponent x := by rw [hsplit]; push_cast; ring
      _ ≤ 1 / 2 ^ 24 * |x| := mul_le_mul_of_nonneg_left hle (by positivity)

theorem round32_rounds_within_of_one_le (x : ℚ) (hx : 1 ≤ |x|) :
    rounds_within round32 (1 / 2 ^ 24) x := by
  apply round32_rounds_within
  right
  have h : (2 : ℚ) ^ (-126 : ℤ) ≤ 1 := by
    rw [zpow_neg]
    exact inv_le_one_of_one_le₀ (one_le_zpow₀ (by norm_num) (by norm_num))
  linarith

theorem round32_two : round32 2 = 2 := by
  have h := round32_int 2 (by norm_num)
  norm_num at h
  exact h

theorem round32_half : round32 (1 / 2) = 1 / 2 := by
  have h := round32_repr 1 (-1) (by norm_num) (by norm_num)
  norm_num at h ⊢
  exact h

theorem round32_16777217 : round32 16777217 = 16777216 := by
  rw [round32_eval 16777217 24 (by norm_num) (by norm_num) (by norm_num)]
  have h : (16777217 : ℚ) / (2 : ℚ) ^ ((24 : ℤ) - 23) = ((8388608 : ℤ) : ℚ) + 1 / 2 := by
    norm_num
  rw [h, round_half_even_tie 8388608 (by norm_num)]
  norm_num

theorem round32_16777218 : round32 16777218 = 16777218 := by
  have h := round32_repr 8388609 1 (by norm_num) (by norm_num)
  norm_num at h
  exact h

theorem round32_33554432 : round32 33554432 = 33554432 := by
  have h := round32_repr 1 25 (by norm_num) (by norm_num)
  norm_num at h
  exact h

theorem round32_671088640 : round32 671088640 = 671088640 := by
  have h := round32_repr 5 27 (by norm_num) (by norm_num)
  norm_num at h
  exact h

theorem round32_half_minus : round32 (1 / 2 - 33554432) = -33554432 := by
  rw [round32_eval (1 / 2 - 33554432) 24 (by norm_num) (by norm_num [abs_of_neg])
    (by norm_num [abs_of_neg])]
  rw [round_half_even_near _ (-16777216) (by norm_num) (by norm_num)]
  norm_num

theorem round32_two_minus : round32 (2 - 671088640) = -671088640 := by
  rw [round32_eval (2 - 671088640) 29 (by norm_num) (by norm_num [abs_of_neg])
    (by norm_num [abs_of_neg])]
  rw [round_half_even_near _ (-10485760) (by norm_num) (by norm_num)]
  norm_num

theorem round32_above_one : round32 (1 + 1 / 2 ^ 25) = 1 := by
  rw [round32_eval (1 + 1 / 2 ^ 25) 0 (by norm_num) (by norm_num [abs_of_pos])
    (by norm_num [abs_of_pos])]
  rw [round_half_even_near _ 8388608 (by norm_num) (by norm_num)]
  norm_num

/-- Every rational between 1 and `1 + 2^-25` rounds to 1 in binary32. -/
theorem round32_near_one (x : ℚ) (h1 : 1 ≤ x) (h2 : x ≤ 1 + 1 / 2 ^ 25) : round32 x = 1 := by
  apply le_antisymm
  · have := round32_mono h2
    rw [round32_above_one] at this
    exact this
  · have := round32_mono h1
    rw [round32_one] at this
    exact this

theorem round64_one : round64 1 = 1 := by
  unfold round64
  have hlog : Int.log 2 |(1 : ℚ)| = 0 := by
    rw [abs_one]; exact Int.log_one_right 2
  rw [hlog]
  have hmax : max (0 : ℤ) (-1022) - 52 = -52 := by norm_num
  rw [hmax]
  have hq : (1 : ℚ) / (2 : ℚ) ^ (-52 : ℤ) = ((2 ^ 52 : ℤ) : ℚ) := by
    rw [zpow_neg, one_div, inv_inv]
    norm_cast
  rw [hq, round_half_even_int, zpow_neg]
  push_cast
  norm_num

/-! ### The embeddings in rounded arithmetic -/

/-- With the identity in the place of the rounding, the rounded embeddings
are the exact ones. -/
theorem rnd_id_exact (expf : F → F) :
    (∀ a : AccMem F, lconnection_accumulate_rnd id a = lconnection_accumulate a) ∧
    (∀ (a : AccMem F) (eta : LuaNum F),
      lconnection_update_rnd id a eta = lconnection_update a eta) ∧
    (∀ a : FeedforwardMem F, lfeedforward_rnd id expf a = lfeedforward expf a) :=
  ⟨fun _ => rfl, fun _ _ => rfl, fun _ => rfl⟩

/-! ### Accumulation in rounded arithmetic -/

theorem lconnection_accumulate_rnd_loop (rnd : F → F) (base delta : List F)
    (h : base.length = delta.length) :
    ∃ r, forLoop (lconnection_accumulate_body_rnd rnd delta) base.length 0 base = .ok r ∧
      r.length = base.length ∧
      ∀ k, k < base.length → r[k]? = some (rnd (base.getD k 0 + delta.getD k 0)) := by
  apply forLoop_pointwise
  intro i cur hi hlen hci
  have hi2 : i < delta.length := by omega
  rw [List.getElem?_eq_getElem hi] at hci
  simp only [lconnection_accumulate_body_rnd, hci, List.getElem?_eq_getElem hi2]
  rw [store_ok _ _ _ (by omega)]
  simp [List.getD_eq_getElem, hi, hi2]

theorem lconnection_accumulate_rnd_ok (rnd : F → F) (a : AccMem F)
    (h : a.base.f.length = a.delta.f.length) :
    ∃ r, lconnection_accumulate_rnd rnd a = .ok { a with base := { a.base with f := r } } ∧
      r.length = a.base.f.length ∧
      ∀ k, k < a.base.f.length →
        r[k]? = some (rnd (a.base.f.getD k 0 + a.delta.f.getD k 0)) := by
  obtain ⟨r, hr, hlen, hval⟩ := lconnection_accumulate_rnd_loop rnd a.base.f a.delta.f h
  refine ⟨r, ?_, hlen, hval⟩
  have hr2 := hr
  rw [h] at hr2
  simp [lconnection_accumulate_rnd, h, hr2, Outcome.map]

/-- The call `accumulate` on two buffers of two floats, for every rounding. -/
theorem lconnection_accumulate_rnd_pair (rnd : F → F) (c1 c2 : connection) (a0 a1 b0 b1 : F) :
    lconnection_accumulate_rnd rnd { base := ⟨c1, [a0, a1]⟩, delta := ⟨c2, [b0, b1]⟩ } =
      .ok { base := ⟨c1, [rnd (a0 + b0), rnd (a1 + b1)]⟩, delta := ⟨c2, [b0, b1]⟩ } := by
  simp [lconnection_accumulate_rnd, lconnection_accumulate_body_rnd, forLoop, store,
    Outcome.map]

/-- C7, amended: in float arithmetic, where `rnd` rounds the result of every
addition, for three connections `A`, `B`, `C` with buffers of one length the
five calls return normally; accumulating `B` into `A` and accumulating `A`
into `B` leave the same buffer, `rnd (A[k] + B[k])` in every slot;
accumulating `B` then `C` into `A` leaves `rnd (rnd (A[k] + B[k]) + C[k])`
and accumulating into `A` the result of accumulating `C` into `B` leaves
`rnd (A[k] + rnd (B[k] + C[k]))`, two buffers of the length of `A`.  They are
the same whenever none of the sums `A[k] + B[k]` and `B[k] + C[k]` is
rounded, and in every slot they differ by at most `u` times the sum of the
absolute values of the four sums formed, whenever `rnd` has relative error
at most `u` at these sums. -/
theorem lconnection_accumulate_comm_assoc_rnd (rnd : F → F) (A B C : ConnectionObj F)
    (hAB : A.f.length = B.f.length) (hBC : B.f.length = C.f.length) :
    ∃ ab ba abc bc a_bc : AccMem F,
      lconnection_accumulate_rnd rnd { base := A, delta := B } = .ok ab ∧
      lconnection_accumulate_rnd rnd { base := B, delta := A } = .ok ba ∧
      ab.base.f = ba.base.f ∧ ab.base.f.length = A.f.length ∧
      (∀ k, k < A.f.length → ab.base.f[k]? = some (rnd (A.f.getD k 0 + B.f.getD k 0))) ∧
      lconnection_accumulate_rnd rnd { base := ab.base, delta := C } = .ok abc ∧
      lconnection_accumulate_rnd rnd { base := B, delta := C } = .ok bc ∧
      lconnection_accumulate_rnd rnd { base := A, delta := bc.base } = .ok a_bc ∧
      abc.base.f.length = A.f.length ∧ a_bc.base.f.length = A.f.length ∧
      (∀ k, k < A.f.length →
        abc.base.f[k]? = some (rnd (rnd (A.f.getD k 0 + B.f.getD k 0) + C.f.getD k 0)) ∧
        a_bc.base.f[k]? = some (rnd (A.f.getD k 0 + rnd (B.f.getD k 0 + C.f.getD k 0)))) ∧
      ((∀ k, k < A.f.length →
          rnd (A.f.getD k 0 + B.f.getD k 0) = A.f.getD k 0 + B.f.getD k 0 ∧
          rnd (B.f.getD k 0 + C.f.getD k 0) = B.f.getD k 0 + C.f.getD k 0) →
        abc.base.f = a_bc.base.f) ∧
      ∀ u : F,
        (∀ k, k < A.f.length →
          rounds_within rnd u (A.f.getD k 0 + B.f.getD k 0) ∧
          rounds_within rnd u (rnd (A.f.getD k 0 + B.f.getD k 0) + C.f.getD k 0) ∧
          rounds_within rnd u (B.f.getD k 0 + C.f.getD k 0) ∧
          rounds_within rnd u (A.f.getD k 0 + rnd (B.f.getD k 0 + C.f.getD k 0))) →
        ∀ k, k < A.f.length →
          ∃ l r, abc.base.f[k]? = some l ∧ a_bc.base.f[k]? = some r ∧
            |l - r| ≤ u * (|A.f.getD k 0 + B.f.getD k 0| +
              |rnd (A.f.getD k 0 + B.f.getD k 0) + C.f.getD k 0| +
              |B.f.getD k 0 + C.f.getD k 0| +
              |A.f.getD k 0 + rnd (B.f.getD k 0 + C.f.getD k 0)|) := by
  obtain ⟨r1, h1, l1, v1⟩ := lconnection_accumulate_rnd_ok rnd { base := A, delta := B } hAB
  obtain ⟨r2, h2, l2, v2⟩ := lconnection_accumulate_rnd_ok rnd { base := B, delta := A } hAB.symm
  obtain ⟨r3, h3, l3, v3⟩ := lconnection_accumulate_rnd_ok rnd
    { base := { A with f := r1 }, delta := C } (by simp only [l1]; omega)
  obtain ⟨r4, h4, l4, v4⟩ := lconnection_accumulate_rnd_ok rnd { base := B, delta := C } hBC
  obtain ⟨r5, h5, l5, v5⟩ := lconnection_accumulate_rnd_ok rnd
    { base := A, delta := { B with f := r4 } } (by simp only [l4]; omega)
  simp only at l1 l2 l3 l4 l5 v1 v2 v3 v4 v5
  have e3 : ∀ k, k < A.f.length →
      r3[k]? = some (rnd (rnd (A.f.getD k 0 + B.f.getD k 0) + C.f.getD k 0)) := by
    intro k hk
    have e1 : r1.getD k 0 = rnd (A.f.getD k 0 + B.f.getD k 0) := by
      simp [List.getD_eq_getElem?_getD, v1 k hk]
    rw [v3 k (by omega), e1]
  have e5 : ∀ k, k < A.f.length →
      r5[k]? = some (rnd (A.f.getD k 0 + rnd (B.f.getD k 0 + C.f.getD k 0))) := by
    intro k hk
    have e1 : r4.getD k 0 = rnd (B.f.getD k 0 + C.f.getD k 0) := by
      simp [List.getD_eq_getElem?_getD, v4 k (by omega)]
    rw [v5 k hk, e1]
  refine ⟨_, _, _, _, _, h1, h2, ?_, l1, v1, h3, h4, h5, by simp only [l3, l1],
    l5, fun k hk => ⟨e3 k hk, e5 k hk⟩, ?_, ?_⟩
  · apply list_eq_of_index r1 r2 (fun k => rnd (A.f.getD k 0 + B.f.getD k 0)) (by omega)
    · intro k hk; exact v1 k (by omega)
    · intro k hk; rw [v2 k (by omega), add_comm]
  · intro hex
    apply list_eq_of_index r3 r5
      (fun k => rnd (A.f.getD k 0 + B.f.getD k 0 + C.f.getD k 0)) (by omega)
    · intro k hk
      have hk1 : k < A.f.length := by omega
      rw [e3 k hk1, (hex k hk1).1]
    · intro k hk
      have hk1 : k < A.f.length := by omega
      rw [e5 k hk1, (hex k hk1).2, add_assoc]
  · intro u hu k hk
    obtain ⟨w1, w2, w3, w4⟩ := hu k hk
    unfold rounds_within at w1 w2 w3 w4
    refine ⟨_, _, e3 k hk, e5 k hk, ?_⟩
    have b1 := abs_le.mp w1
    have b2 := abs_le.mp w2
    have b3 := abs_le.mp w3
    have b4 := abs_le.mp w4
    rw [abs_le]
    constructor <;> linarith [b1.1, b1.2, b2.1, b2.2, b3.1, b3.2, b4.1, b4.2]

/-- Witness for C7, amended, in binary32 arithmetic: on the buffers `[1, 2]`,
`[3, 4]` and `[5, 6]` no sum is rounded and the two groupings leave the same
buffer; on `A = [2^24, 0]`, `B = C = [1, 0]` the relative error of every sum
is at most `2^-24` and the two groupings are within the tolerance. -/
theorem lconnection_accumulate_comm_assoc_rnd_witness :
    (∃ ab ba abc bc a_bc : AccMem ℚ,
      lconnection_accumulate_rnd round32
        { base := ⟨⟨1, 1⟩, [1, 2]⟩, delta := ⟨⟨1, 1⟩, [3, 4]⟩ } = .ok ab ∧
      lconnection_accumulate_rnd round32
        { base := ⟨⟨1, 1⟩, [3, 4]⟩, delta := ⟨⟨1, 1⟩, [1, 2]⟩ } = .ok ba ∧
      ab.base.f = ba.base.f ∧
      lconnection_accumulate_rnd round32 { base := ab.base, delta := ⟨⟨1, 1⟩, [5, 6]⟩ } =
        .ok abc ∧
      lconnection_accumulate_rnd round32
        { base := ⟨⟨1, 1⟩, [3, 4]⟩, delta := ⟨⟨1, 1⟩, [5, 6]⟩ } = .ok bc ∧
      lconnection_accumulate_rnd round32 { base := ⟨⟨1, 1⟩, [1, 2]⟩, delta := bc.base } =
        .ok a_bc ∧
      abc.base.f.length = 2 ∧ abc.base.f = a_bc.base.f) ∧
    (∃ ab abc bc a_bc : AccMem ℚ,
      lconnection_accumulate_rnd round32 { base := exampleBig, delta := exampleUnit } =
        .ok ab ∧
      lconnection_accumulate_rnd round32 { base := ab.base, delta := exampleUnit } = .ok abc ∧
      lconnection_accumulate_rnd round32 { base := exampleUnit, delta := exampleUnit } =
        .ok bc ∧
      lconnection_accumulate_rnd round32 { base := exampleBig, delta := bc.base } = .ok a_bc ∧
      ∀ k, k < 2 →
        ∃ l r, abc.base.f[k]? = some l ∧ a_bc.base.f[k]? = some r ∧
          |l - r| ≤ 1 / 2 ^ 24 * (|exampleBig.f.getD k 0 + exampleUnit.f.getD k 0| +
            |round32 (exampleBig.f.getD k 0 + exampleUnit.f.getD k 0) +
              exampleUnit.f.getD k 0| +
            |exampleUnit.f.getD k 0 + exampleUnit.f.getD k 0| +
            |exampleBig.f.getD k 0 +
              round32 (exampleUnit.f.getD k 0 + exampleUnit.f.getD k 0)|)) := by
  constructor
  · obtain ⟨ab, ba, abc, bc, a_bc, h1, h2, hc, _, _, h3, h4, h5, hl, _, _, heq, _⟩ :=
      lconnection_accumulate_comm_assoc_rnd round32 ⟨⟨1, 1⟩, [1, 2]⟩ ⟨⟨1, 1⟩, [3, 4]⟩
        ⟨⟨1, 1⟩, [5, 6]⟩ rfl rfl
    refine ⟨ab, ba, abc, bc, a_bc, h1, h2, hc, h3, h4, h5, hl, heq ?_⟩
    have h4 := round32_int 4 (by norm_num)
    have h6 := round32_int 6 (by norm_num)
    have h8 := round32_int 8 (by norm_num)
    have h10 := round32_int 10 (by norm_num)
    norm_num at h4 h6 h8 h10
    intro k hk
    have hk2 : k < 2 := hk
    interval_cases k <;> norm_num [h4, h6, h8, h10]
  · obtain ⟨ab, ba, abc, bc, a_bc, h1, _, _, _, _, h3, h4, h5, _, _, _, _, htol⟩ :=
      lconnection_accumulate_comm_assoc_rnd round32 exampleBig exampleUnit exampleUnit rfl rfl
    refine ⟨ab, abc, bc, a_bc, h1, h3, h4, h5, htol (1 / 2 ^ 24) ?_⟩
    intro k hk
    have hk2 : k < 2 := hk
    interval_cases k
    · simp only [exampleBig, exampleUnit, List.getD_cons_zero]
      refine ⟨round32_rounds_within_of_one_le _ ?_, round32_rounds_within_of_one_le _ ?_,
        round32_rounds_within_of_one_le _ ?_, round32_rounds_within_of_one_le _ ?_⟩
      · norm_num
      · norm_num [round32_16777217]
      · norm_num
      · norm_num [round32_two]
    · simp only [exampleBig, exampleUnit, List.getD_cons_succ, List.getD_cons_zero]
      refine ⟨round32_rounds_within _ (Or.inl ?_), round32_rounds_within _ (Or.inl ?_),
        round32_rounds_within _ (Or.inl ?_), round32_rounds_within _ (Or.inl ?_)⟩
      · norm_num
      · norm_num [round32_zero]
      · norm_num
      · norm_num [round32_zero]

/-- Counterexample to C7 as stated, in binary32 arithmetic: with
`A = [2^24, 0]` and `B = C = [1, 0]`, accumulating `B` into `A` leaves
`[2^24, 0]` (the sum `2^24 + 1` is rounded back to `2^24`) and so does
accumulating `C` next, while accumulating `C` into `B` leaves `[2, 0]` and
accumulating that into `A` leaves `[2^24 + 2, 0]`. -/
theorem lconnection_accumulate_not_assoc :
    ∃ ab abc bc a_bc : AccMem ℚ,
      lconnection_accumulate_rnd round32 { base := exampleBig, delta := exampleUnit } =
        .ok ab ∧
      lconnection_accumulate_rnd round32 { base := ab.base, delta := exampleUnit } = .ok abc ∧
      lconnection_accumulate_rnd round32 { base := exampleUnit, delta := exampleUnit } =
        .ok bc ∧
      lconnection_accumulate_rnd round32 { base := exampleBig, delta := bc.base } = .ok a_bc ∧
      abc.base.f = [16777216, 0] ∧ a_bc.base.f = [16777218, 0] ∧
      abc.base.f ≠ a_bc.base.f := by
  have h1 : lconnection_accumulate_rnd round32 { base := exampleBig, delta := exampleUnit } =
      .ok { base := exampleBig, delta := exampleUnit } := by
    simp only [exampleBig, exampleUnit, lconnection_accumulate_rnd_pair]
    norm_num [round32_16777217, round32_zero]
  have h2 : lconnection_accumulate_rnd round32 { base := exampleUnit, delta := exampleUnit } =
      .ok { base := ⟨⟨1, 1⟩, [2, 0]⟩, delta := exampleUnit } := by
    simp only [exampleUnit, lconnection_accumulate_rnd_pair]
    norm_num [round32_two, round32_zero]
  have h3 : lconnection_accumulate_rnd round32
      { base := exampleBig, delta := ⟨⟨1, 1⟩, [2, 0]⟩ } =
      .ok { base := ⟨⟨1, 1⟩, [16777218, 0]⟩, delta := ⟨⟨1, 1⟩, [2, 0]⟩ } := by
    simp only [exampleBig, lconnection_accumulate_rnd_pair]
    norm_num [round32_16777218, round32_zero]
  refine ⟨_, _, _, _, h1, h1, h2, h3, ?_, rfl, ?_⟩
  · simp [exampleBig]
  · simp [exampleBig]

/-! ### Update in rounded arithmetic -/

theorem lconnection_update_rnd_loop (rnd : F → F) (eta : F) (base delta : List F)
    (h : base.length = delta.length) :
    ∃ r, forLoop (lconnection_update_body_rnd rnd eta delta) base.length 0 base = .ok r ∧
      r.length = base.length ∧
      ∀ k, k < base.length →
        r[k]? = some (rnd (base.getD k 0 - rnd (eta * delta.getD k 0))) := by
  apply forLoop_pointwise
  intro i cur hi hlen hci
  have hi2 : i < delta.length := by omega
  rw [List.getElem?_eq_getElem hi] at hci
  simp only [lconnection_update_body_rnd, hci, List.getElem?_eq_getElem hi2]
  rw [store_ok _ _ _ (by omega)]
  simp [List.getD_eq_getElem, hi, hi2]

theorem lconnection_update_rnd_ok (rnd : F → F) (a : AccMem F) (eta : F)
    (h : a.base.f.length = a.delta.f.length) :
    ∃ r, lconnection_update_rnd rnd a (.number eta) =
        .ok { a with base := { a.base with f := r } } ∧
      r.length = a.base.f.length ∧
      ∀ k, k < a.base.f.length →
        r[k]? = some (rnd (a.base.f.getD k 0 - rnd (rnd eta * a.delta.f.getD k 0))) := by
  obtain ⟨r, hr, hlen, hval⟩ := lconnection_update_rnd_loop rnd (rnd eta) a.base.f a.delta.f h
  refine ⟨r, ?_, hlen, hval⟩
  have hr2 := hr
  rw [h] at hr2
  simp [lconnection_update_rnd, h, hr2, Outcome.map]

/-- The call `update` on two buffers of two floats, for every rounding. -/
theorem lconnection_update_rnd_pair (rnd : F → F) (c1 c2 : connection) (a0 a1 b0 b1 eta : F) :
    lconnection_update_rnd rnd { base := ⟨c1, [a0, a1]⟩, delta := ⟨c2, [b0, b1]⟩ }
        (.number eta) =
      .ok { base := ⟨c1, [rnd (a0 - rnd (rnd eta * b0)), rnd (a1 - rnd (rnd eta * b1))]⟩,
            delta := ⟨c2, [b0, b1]⟩ } := by
  simp [lconnection_update_rnd, lconnection_update_body_rnd, forLoop, store, Outcome.map]

/-- C8, amended: in float arithmetic, where `rnd` rounds `eta` and the
result of every multiplication and subtraction, for connections `base` and
`delta` with buffers of one length and every `eta`:
`update(base, delta, 0)` returns with the memory unchanged (the buffer of
`base` holds floats, which rounding leaves as they are);
`update(base, delta, eta)` returns with `base[k] = rnd (base_old[k] - p_k)`
for every `k`, where `p_k = rnd (rnd eta * delta[k])`, shape and length kept
and `delta` unchanged; and, the rounding being symmetric about 0, a
following `update(base, delta, -eta)` returns with the original memory
whenever none of the differences `base_old[k] - p_k` is rounded, and in
general returns with `delta`, shape and length kept and with every
`base[k]` within `u * (|base_old[k] - p_k| + |rnd (base_old[k] - p_k) + p_k|)`
of `base_old[k]`, whenever `rnd` has relative error at most `u` at this
difference and this sum. -/
theorem lconnection_update_rnd_spec (rnd : F → F) (a : AccMem F) (eta : F)
    (h : a.base.f.length = a.delta.f.length) :
    (rnd 0 = 0 →
      (∀ k, k < a.base.f.length → rnd (a.base.f.getD k 0) = a.base.f.getD k 0) →
      lconnection_update_rnd rnd a (.number 0) = .ok a) ∧
    ∃ r, lconnection_update_rnd rnd a (.number eta) = .ok r ∧
      r.delta = a.delta ∧ r.base.c = a.base.c ∧ r.base.f.length = a.base.f.length ∧
      (∀ k, k < a.base.f.length →
        r.base.f[k]? =
          some (rnd (a.base.f.getD k 0 - rnd (rnd eta * a.delta.f.getD k 0)))) ∧
      ((∀ x, rnd (-x) = -rnd x) →
        ((∀ k, k < a.base.f.length →
            rnd (a.base.f.getD k 0) = a.base.f.getD k 0 ∧
            rnd (a.base.f.getD k 0 - rnd (rnd eta * a.delta.f.getD k 0)) =
              a.base.f.getD k 0 - rnd (rnd eta * a.delta.f.getD k 0)) →
          lconnection_update_rnd rnd r (.number (-eta)) = .ok a) ∧
        ∀ u : F,
          (∀ k, k < a.base.f.length →
            rounds_within rnd u (a.base.f.getD k 0 - rnd (rnd eta * a.delta.f.getD k 0)) ∧
            rounds_within rnd u
              (rnd (a.base.f.getD k 0 - rnd (rnd eta * a.delta.f.getD k 0)) +
                rnd (rnd eta * a.delta.f.getD k 0))) →
          ∃ r2, lconnection_update_rnd rnd r (.number (-eta)) = .ok r2 ∧
            r2.delta = a.delta ∧ r2.base.c = a.base.c ∧
            r2.base.f.length = a.base.f.length ∧
            ∀ k, k < a.base.f.length →
              ∃ v, r2.base.f[k]? = some v ∧
                |v - a.base.f.getD k 0| ≤
                  u * (|a.base.f.getD k 0 - rnd (rnd eta * a.delta.f.getD k 0)| +
                    |rnd (a.base.f.getD k 0 - rnd (rnd eta * a.delta.f.getD k 0)) +
                      rnd (rnd eta * a.delta.f.getD k 0)|)) := by
  constructor
  · intro h0 hbase
    obtain ⟨r, hr, hlen, hval⟩ := lconnection_update_rnd_ok rnd a 0 h
    have : r = a.base.f := by
      apply list_eq_of_index r a.base.f (fun k => a.base.f.getD k 0) hlen
      · intro k hk
        rw [hval k (by omega), h0, zero_mul, h0, sub_zero, hbase k (by omega)]
      · intro k hk; simp [List.getD_eq_getElem, hk]
    rw [hr, this]
  · obtain ⟨r, hr, hlen, hval⟩ := lconnection_update_rnd_ok rnd a eta h
    refine ⟨_, hr, rfl, rfl, hlen, hval, ?_⟩
    intro hodd
    obtain ⟨r2, hr2, hlen2, hval2⟩ := lconnection_update_rnd_ok rnd
      { a with base := { a.base with f := r } } (-eta) (by simp only [hlen]; exact h)
    simp only at hlen2 hval2 hr2
    have hval3 : ∀ k, k < a.base.f.length →
        r2[k]? = some (rnd (rnd (a.base.f.getD k 0 - rnd (rnd eta * a.delta.f.getD k 0)) +
          rnd (rnd eta * a.delta.f.getD k 0))) := by
      intro k hk
      have e1 : r.getD k 0 = rnd (a.base.f.getD k 0 - rnd (rnd eta * a.delta.f.getD k 0)) := by
        rw [List.getD_eq_getElem?_getD r, hval k hk, Option.getD_some]
      rw [hval2 k (by omega), e1, hodd eta, neg_mul, hodd, sub_neg_eq_add]
    constructor
    · intro hex
      have : r2 = a.base.f := by
        apply list_eq_of_index r2 a.base.f (fun k => a.base.f.getD k 0) (by omega)
        · intro k hk
          have hk1 : k < a.base.f.length := by omega
          obtain ⟨hb, hd⟩ := hex k hk1
          rw [hval3 k hk1, hd, sub_add_cancel, hb]
        · intro k hk; simp [List.getD_eq_getElem, hk]
      rw [hr2, this]
    · intro u hu
      refine ⟨_, hr2, rfl, rfl, by rw [hlen2, hlen], ?_⟩
      intro k hk
      obtain ⟨w1, w2⟩ := hu k hk
      unfold rounds_within at w1 w2
      refine ⟨_, hval3 k hk, ?_⟩
      have b1 := abs_le.mp w1
      have b2 := abs_le.mp w2
      rw [abs_le]
      constructor <;> linarith [b1.1, b1.2, b2.1, b2.2]

/-- Witness for C8, amended, in binary32 arithmetic: on `exampleAcc` with
`eta = 1/2` the differences -4 and -8 are not rounded and the second update
restores `[1, 2]`; on `exampleHalf` with `eta = 2^25` the relative error is
at most `2^-24` at every difference and sum, and the second update leaves
every slot within the tolerance of the original. -/
theorem lconnection_update_rnd_spec_witness :
    (lconnection_update_rnd round32 exampleAcc (.number 0) = .ok exampleAcc ∧
      ∃ r, lconnection_update_rnd round32 exampleAcc (.number (1 / 2)) = .ok r ∧
        r.delta = exampleAcc.delta ∧ r.base.c = exampleAcc.base.c ∧
        r.base.f.length = exampleAcc.base.f.length ∧
        (∀ k, k < exampleAcc.base.f.length →
          r.base.f[k]? = some (round32 (exampleAcc.base.f.getD k 0 -
            round32 (round32 (1 / 2) * exampleAcc.delta.f.getD k 0)))) ∧
        lconnection_update_rnd round32 r (.number (-(1 / 2))) = .ok exampleAcc) ∧
    (∃ r r2, lconnection_update_rnd round32 exampleHalf (.number 33554432) = .ok r ∧
      lconnection_update_rnd round32 r (.number (-33554432)) = .ok r2 ∧
      r2.delta = exampleHalf.delta ∧ r2.base.c = exampleHalf.base.c ∧
      r2.base.f.length = exampleHalf.base.f.length ∧
      ∀ k, k < exampleHalf.base.f.length →
        ∃ v, r2.base.f[k]? = some v ∧
          |v - exampleHalf.base.f.getD k 0| ≤
            1 / 2 ^ 24 * (|exampleHalf.base.f.getD k 0 -
                round32 (round32 33554432 * exampleHalf.delta.f.getD k 0)| +
              |round32 (exampleHalf.base.f.getD k 0 -
                  round32 (round32 33554432 * exampleHalf.delta.f.getD k 0)) +
                round32 (round32 33554432 * exampleHalf.delta.f.getD k 0)|)) := by
  have h2 := round32_two
  have h5 := round32_int 5 (by norm_num)
  have h10 := round32_int 10 (by norm_num)
  have h4 := round32_int (-4) (by norm_num)
  have h8 := round32_int (-8) (by norm_num)
  norm_num at h5 h10 h4 h8
  constructor
  · obtain ⟨hz, r, hr, hd, hc, hl, hv, hu⟩ :=
      lconnection_update_rnd_spec round32 exampleAcc (1 / 2) rfl
    refine ⟨hz round32_zero ?_, r, hr, hd, hc, hl, hv, (hu round32_neg).1 ?_⟩
    · intro k hk
      have hk2 : k < 2 := hk
      interval_cases k <;> norm_num [exampleAcc, round32_one, h2]
    · intro k hk
      have hk2 : k < 2 := hk
      interval_cases k <;> norm_num [exampleAcc, round32_one, h2, round32_half, h5, h10, h4, h8]
  · obtain ⟨_, r, hr, _, _, _, _, hu⟩ :=
      lconnection_update_rnd_spec round32 exampleHalf 33554432 rfl
    obtain ⟨r2, hr2, hd2, hc2, hl2, hv2⟩ := (hu round32_neg).2 (1 / 2 ^ 24) (by
      have hm1 : (33554432 : ℚ) * 1 = 33554432 := by norm_num
      have hm20 : (33554432 : ℚ) * 20 = 671088640 := by norm_num
      intro k hk
      have hk2 : k < 2 := hk
      interval_cases k
      · simp only [exampleHalf, List.getD_cons_zero]
        rw [round32_33554432, hm1, round32_33554432, round32_half_minus]
        exact ⟨round32_rounds_within_of_one_le _ (by norm_num [abs_of_neg]),
          round32_rounds_within _ (Or.inl (by norm_num))⟩
      · simp only [exampleHalf, List.getD_cons_succ, List.getD_cons_zero]
        rw [round32_33554432, hm20, round32_671088640, round32_two_minus]
        exact ⟨round32_rounds_within_of_one_le _ (by norm_num [abs_of_neg]),
          round32_rounds_within _ (Or.inl (by norm_num))⟩)
    exact ⟨r, r2, hr, hr2, hd2, hc2, hl2, hv2⟩

/-- Counterexample to C8 as stated, in binary32 arithmetic: with
`base = [0.5, 2]`, `delta = [1, 20]` and `eta = 2^25`, the update leaves
`base = [-2^25, -671088640]` (the differences `0.5 - 2^25` and
`2 - 671088640` are rounded), and the update with `-eta` that follows leaves
`[0, 0]`, not `[0.5, 2]`. -/
theorem lconnection_update_not_undone :
    lconnection_update_rnd round32 exampleHalf (.number 33554432) =
      .ok { base := ⟨⟨1, 1⟩, [-33554432, -671088640]⟩, delta := exampleHalf.delta } ∧
    lconnection_update_rnd round32
        { base := ⟨⟨1, 1⟩, [-33554432, -671088640]⟩, delta := exampleHalf.delta }
        (.number (-33554432)) =
      .ok { base := ⟨⟨1, 1⟩, [0, 0]⟩, delta := exampleHalf.delta } ∧
    exampleHalf.base.f ≠ [0, 0] := by
  have hm1 : (33554432 : ℚ) * 1 = 33554432 := by norm_num
  have hm20 : (33554432 : ℚ) * 20 = 671088640 := by norm_num
  refine ⟨?_, ?_, ?_⟩
  · simp only [exampleHalf, lconnection_update_rnd_pair]
    rw [round32_33554432, hm1, hm20, round32_33554432, round32_671088640,
      round32_half_minus, round32_two_minus]
  · simp only [exampleHalf, lconnection_update_rnd_pair]
    rw [round32_neg, round32_33554432, neg_mul, neg_mul, hm1, hm20, round32_neg,
      round32_neg, round32_33554432, round32_671088640, sub_self, sub_self, round32_zero]
  · simp [exampleHalf]

/-! ### The forward pass in rounded arithmetic -/

theorem sigmoid_rnd_closed (rnd expf : F → F) (hmono : Monotone rnd) (h0 : rnd 0 = 0)
    (h1 : rnd 1 = 1) (hexp : ∀ x, 0 ≤ expf x) (z : F) :
    0 ≤ sigmoid_rnd rnd expf z ∧ sigmoid_rnd rnd expf z ≤ 1 := by
  have he := hexp (-z)
  have ht : 1 ≤ rnd (1 + expf (-z)) := by
    have := hmono (show (1 : F) ≤ 1 + expf (-z) by linarith)
    rwa [h1] at this
  have hpos : (0 : F) < rnd (1 + expf (-z)) := by linarith
  have hq0 : (0 : F) ≤ 1 / rnd (1 + expf (-z)) := by positivity
  have hq1 : 1 / rnd (1 + expf (-z)) ≤ 1 := by
    rw [div_le_one hpos]; exact ht
  unfold sigmoid_rnd
  constructor
  · have := hmono hq0
    rwa [h0] at this
  · have := hmono hq1
    rwa [h1] at this

theorem lfeedforward_sum_rnd_loop (rnd : F → F) (input : layer F) (conn : ConnectionObj F)
    (i : Nat) (hin : input.n = conn.c.input_n) (hwf : conn.wf) (hi : i < conn.c.output_n) :
    forLoop (lfeedforward_sum_rnd rnd input conn.f (weight conn.c i)) input.n 0 0 =
      .ok (rounded_dot rnd (fun j => input.data.getD j 0)
        (fun j => conn.f.getD (conn.c.output_n + i * conn.c.input_n + j) 0)
        conn.c.input_n) := by
  obtain ⟨s, hs, hinv⟩ := forLoop_inv
    (lfeedforward_sum_rnd rnd input conn.f (weight conn.c i))
    (fun j s => s = rounded_dot rnd (fun j => input.data.getD j 0)
      (fun j => conn.f.getD (conn.c.output_n + i * conn.c.input_n + j) 0) j)
    input.n 0 0 rfl
    (by
      intro j s _ hj hinv
      have hj0 : j < conn.c.input_n := by omega
      have hj1 : j < input.data.length := by unfold layer.n at hin; omega
      have hj2 : conn.c.output_n + i * conn.c.input_n + j < conn.f.length := by
        rw [hwf]; exact weight_lt _ _ _ hi hj0
      simp only [lfeedforward_sum_rnd, weight_eq, List.getElem?_eq_getElem hj1,
        List.getElem?_eq_getElem hj2]
      refine ⟨_, rfl, ?_⟩
      show _ = rounded_dot rnd _ _ (j + 1)
      rw [rounded_dot, ← hinv, List.getD_eq_getElem _ _ hj1, List.getD_eq_getElem _ _ hj2])
  rw [hs, hinv, Nat.zero_add, hin]

theorem lfeedforward_body_rnd_ok (rnd expf : F → F) (a : FeedforwardMem F)
    (hin : a.input.n = a.conn.c.input_n) (hout : a.output.n = a.conn.c.output_n)
    (hwf : a.conn.wf) (i : Nat) (cur : List F) (hi : i < a.output.data.length)
    (hlen : cur.length = a.output.data.length) :
    lfeedforward_body_rnd rnd expf a.input a.conn i cur =
      .ok (cur.set i (sigmoid_rnd rnd expf
        (rnd (rounded_dot rnd (fun j => a.input.data.getD j 0)
          (fun j => a.conn.f.getD (a.conn.c.output_n + i * a.conn.c.input_n + j) 0)
          a.conn.c.input_n + a.conn.f.getD i 0)))) := by
  have hi1 : i < a.conn.c.output_n := by rw [← hout]; exact hi
  have hi2 : i < a.conn.f.length := by rw [hwf]; omega
  simp only [lfeedforward_body_rnd, lfeedforward_sum_rnd_loop rnd a.input a.conn i hin hwf hi1,
    bias, Nat.zero_add, List.getElem?_eq_getElem hi2, List.getD_eq_getElem _ _ hi2]
  rw [store_ok _ _ _ (by omega)]

/-- C12, amended: in float arithmetic, where `rnd` rounds the result of
every operation (a monotone rounding that leaves 0 and 1 as they are) and
`expf` returns non-negative values, when `input.n = conn.input_n`,
`output.n = conn.output_n` and the connection buffer has the length of its
shape, `feedforward` returns normally, keeps the input, the connection and
the size of the output, and the value it writes into `output[i]`, which is
`rnd (1 / rnd (1 + expf (-z)))` for `z` the rounded sum of the bias `i` and
of the rounded dot product of the input with the weight row `i`, lies in
the closed interval from 0 to 1. -/
theorem lfeedforward_closed_interval (rnd expf : F → F) (hmono : Monotone rnd)
    (h0 : rnd 0 = 0) (h1 : rnd 1 = 1) (hexp : ∀ x, 0 ≤ expf x)
    (a : FeedforwardMem F)
    (hin : a.input.n = a.conn.c.input_n) (hout : a.output.n = a.conn.c.output_n)
    (hwf : a.conn.wf) :
    ∃ r, lfeedforward_rnd rnd expf a = .ok r ∧ r.input = a.input ∧ r.conn = a.conn ∧
      r.output.n = a.output.n ∧
      ∀ i, i < a.output.n →
        ∃ v, r.output.data[i]? = some v ∧
          v = rnd (1 / rnd (1 + expf (-rnd (rounded_dot rnd (fun j => a.input.data.getD j 0)
            (fun j => a.conn.f.getD (a.conn.c.output_n + i * a.conn.c.input_n + j) 0)
            a.conn.c.input_n + a.conn.f.getD i 0)))) ∧
          0 ≤ v ∧ v ≤ 1 := by
  obtain ⟨r, hr, hlen, hval⟩ := forLoop_pointwise (lfeedforward_body_rnd rnd expf a.input a.conn)
    (fun i => sigmoid_rnd rnd expf
      (rnd (rounded_dot rnd (fun j => a.input.data.getD j 0)
        (fun j => a.conn.f.getD (a.conn.c.output_n + i * a.conn.c.input_n + j) 0)
        a.conn.c.input_n + a.conn.f.getD i 0)))
    a.output.data
    (fun i cur hi hlen _ => lfeedforward_body_rnd_ok rnd expf a hin hout hwf i cur hi hlen)
  refine ⟨{ a with output := layer.mk r }, ?_, rfl, rfl, hlen, ?_⟩
  · unfold lfeedforward_rnd
    unfold layer.n
    rw [hr]; rfl
  · intro i hi
    exact ⟨_, hval i hi, rfl, (sigmoid_rnd_closed rnd expf hmono h0 h1 hexp _).1,
      (sigmoid_rnd_closed rnd expf hmono h0 h1 hexp _).2⟩

/-- The call `feedforward` on a connection of shape `(1, 1)`, for every
rounding. -/
theorem lfeedforward_rnd_single (rnd expf : F → F) (x o b w : F) :
    lfeedforward_rnd rnd expf { input := ⟨[x]⟩, output := ⟨[o]⟩, conn := ⟨⟨1, 1⟩, [b, w]⟩ } =
      .ok { input := ⟨[x]⟩,
            output := ⟨[rnd (1 / rnd (1 + expf (-rnd (rnd (0 + rnd (x * w)) + b))))]⟩,
            conn := ⟨⟨1, 1⟩, [b, w]⟩ } := by
  simp [lfeedforward_rnd, lfeedforward_body_rnd, lfeedforward_sum_rnd, sigmoid_rnd, layer.n,
    forLoop, store, Outcome.map, weight, bias]

theorem exampleExpf_nonneg (x : ℚ) : 0 ≤ exampleExpf x := by
  unfold exampleExpf
  nlinarith [sq_nonneg (x + 1)]

theorem exampleExpf32_nonneg (x : ℚ) : 0 ≤ exampleExpf32 x :=
  round32_nonneg _ (exampleExpf_nonneg x)

/-- Witness for C12, amended, in binary32 arithmetic on `exampleForward32`,
with the non-negative binary32-valued function `exampleExpf32` in the place
of `expf`. -/
theorem lfeedforward_closed_interval_witness :
    Monotone round32 ∧ round32 0 = 0 ∧ round32 1 = 1 ∧ (∀ x, 0 ≤ exampleExpf32 x) ∧
    ∃ r, lfeedforward_rnd round32 exampleExpf32 exampleForward32 = .ok r ∧
      r.input = exampleForward32.input ∧ r.conn = exampleForward32.conn ∧
      r.output.n = exampleForward32.output.n ∧
      ∀ i, i < exampleForward32.output.n →
        ∃ v, r.output.data[i]? = some v ∧
          v = round32 (1 / round32 (1 + exampleExpf32
            (-round32 (rounded_dot round32 (fun j => exampleForward32.input.data.getD j 0)
              (fun j => exampleForward32.conn.f.getD
                (exampleForward32.conn.c.output_n +
                  i * exampleForward32.conn.c.input_n + j) 0)
              exampleForward32.conn.c.input_n + exampleForward32.conn.f.getD i 0)))) ∧
          0 ≤ v ∧ v ≤ 1 :=
  ⟨round32_mono, round32_zero, round32_one, exampleExpf32_nonneg,
    lfeedforward_closed_interval round32 exampleExpf32 round32_mono round32_zero round32_one
      exampleExpf32_nonneg exampleForward32 rfl rfl rfl⟩

/-- Counterexample to C12 as stated, in binary32 arithmetic: on a connection
of valid shape `(1, 1)` with bias 100 and weight 0 and the input `[1.0]`,
for every `expf` whose value at -100 lies between 0 and `2^-25` (the
exponential of -100 is below `2^-100`), the sum `1 + expf (-100)` is rounded
to 1 and `feedforward` writes exactly 1 into `output`, which is not strictly
below 1. -/
theorem lfeedforward_saturates :
    exampleSaturated.input.n = exampleSaturated.conn.c.input_n ∧
    exampleSaturated.output.n = exampleSaturated.conn.c.output_n ∧
    exampleSaturated.conn.wf ∧
    (∀ expf : ℚ → ℚ, 0 ≤ expf (-100) → expf (-100) ≤ 1 / 2 ^ 25 →
      lfeedforward_rnd round32 expf exampleSaturated =
        .ok { exampleSaturated with output := ⟨[1]⟩ } ∧
      ¬ ∀ r, lfeedforward_rnd round32 expf exampleSaturated = .ok r →
        ∀ v ∈ r.output.data, 0 < v ∧ v < 1) ∧
    Real.exp (-100) ≤ 1 / 2 ^ 100 := by
  refine ⟨rfl, rfl, rfl, ?_, ?_⟩
  · intro expf hlo hhi
    have h100 : round32 100 = 100 := by
      have h := round32_int 100 (by norm_num)
      norm_num at h
      exact h
    have hcall : lfeedforward_rnd round32 expf exampleSaturated =
        .ok { exampleSaturated with output := ⟨[1]⟩ } := by
      simp only [exampleSaturated, lfeedforward_rnd_single]
      rw [mul_zero, round32_zero, add_zero, round32_zero, zero_add, h100,
        round32_near_one (1 + expf (-100)) (by linarith) (by linarith), div_one, round32_one]
    refine ⟨hcall, ?_⟩
    intro hall
    have := (hall _ hcall 1 (by simp)).2
    exact lt_irrefl _ this
  · have h1 : (2 : ℝ) ≤ Real.exp 1 := by
      have := Real.add_one_le_exp (1 : ℝ)
      linarith
    have h2 : Real.exp 100 = Real.exp 1 ^ 100 := by
      rw [← Real.exp_nat_mul]; norm_num
    have h3 : (2 : ℝ) ^ 100 ≤ Real.exp 100 := by
      rw [h2]
      exact pow_le_pow_left₀ (by norm_num) h1 100
    rw [Real.exp_neg, one_div]
    exact inv_anti₀ (by positivity) h3

/-! ### The batch step in rounded arithmetic -/

theorem accumulate_all_ok (rnd : F → F) (ds : List (ConnectionObj F)) :
    ∀ (acc : ConnectionObj F), (∀ d ∈ ds, d.f.length = acc.f.length) →
      ∃ g, accumulate_all rnd acc ds = .ok { acc with f := g } ∧ g.length = acc.f.length ∧
        ∀ k, k < acc.f.length →
          g[k]? = some (rounded_sum rnd (acc.f.getD k 0) (ds.map (fun d => d.f.getD k 0))) := by
  induction ds with
  | nil =>
    intro acc _
    refine ⟨acc.f, rfl, rfl, ?_⟩
    intro k hk
    simp [rounded_sum, List.getD_eq_getElem, hk]
  | cons d ds ih =>
    intro acc hlen
    have hd : acc.f.length = d.f.length := (hlen d (List.mem_cons_self _ _)).symm
    obtain ⟨r, hr, hrlen, hrval⟩ := lconnection_accumulate_rnd_ok rnd
      { base := acc, delta := d } hd
    simp only at hr hrlen hrval
    obtain ⟨g, hg, hglen, hgval⟩ := ih { acc with f := r } (by
      intro d2 hd2
      simp only [hrlen]
      exact hlen d2 (List.mem_cons_of_mem _ hd2))
    simp only at hg hglen hgval
    refine ⟨g, ?_, by rw [hglen, hrlen], ?_⟩
    · simp only [accumulate_all, hr]
      exact hg
    · intro k hk
      have e1 : r.getD k 0 = rnd (acc.f.getD k 0 + d.f.getD k 0) := by
        rw [List.getD_eq_getElem?_getD r, hrval k hk, Option.getD_some]
      rw [hgval k (by omega), e1]
      rfl

theorem batch_step_ok (rnd rnd64 : F → F) (W acc : ConnectionObj F)
    (ds : List (ConnectionObj F)) (eta : F)
    (hacc : acc.f = List.replicate W.f.length 0)
    (hds : ∀ d ∈ ds, d.f.length = W.f.length) :
    ∃ r, batch_step rnd rnd64 W acc ds eta = .ok { W with f := r } ∧ r.length = W.f.length ∧
      ∀ k, k < W.f.length →
        r[k]? = some (rnd (W.f.getD k 0 -
          rnd (rnd (rnd64 (eta / (ds.length : F))) *
            rounded_sum rnd 0 (ds.map (fun d => d.f.getD k 0))))) := by
  have hal : acc.f.length = W.f.length := by rw [hacc, List.length_replicate]
  obtain ⟨g, hg, hglen, hgval⟩ := accumulate_all_ok rnd ds acc (by
    intro d hd; rw [hal]; exact hds d hd)
  obtain ⟨r, hr, hrlen, hrval⟩ := lconnection_update_rnd_ok rnd
    { base := W, delta := { acc with f := g } } (rnd64 (eta / (ds.length : F)))
    (by simp only [hglen, hal])
  simp only at hr hrlen hrval
  refine ⟨r, ?_, hrlen, ?_⟩
  · simp only [batch_step, hg, hr, Outcome.map]
  · intro k hk
    have e1 : g.getD k 0 = rounded_sum rnd 0 (ds.map (fun d => d.f.getD k 0)) := by
      have := hgval k (by omega)
      have hz : acc.f.getD k 0 = 0 := by
        rw [hacc]; simp [List.getD_eq_getElem?_getD, List.getElem?_replicate, hk]
      rw [hz] at this
      rw [List.getD_eq_getElem?_getD g, this, Option.getD_some]
    rw [hrval k hk, e1]

/-- A rounded sum none of whose partial sums is rounded is the exact sum. -/
theorem rounded_sum_exact (rnd : F → F) (xs : List F) :
    ∀ s : F, (∀ i, i < xs.length → rnd (s + (xs.take (i + 1)).sum) = s + (xs.take (i + 1)).sum) →
      rounded_sum rnd s xs = s + xs.sum := by
  induction xs with
  | nil => intro s _; simp [rounded_sum]
  | cons x t ih =>
    intro s h
    have h0 := h 0 (by simp)
    simp only [List.take_succ_cons, List.take_zero, List.sum_cons, List.sum_nil,
      add_zero] at h0
    have ht := ih (s + x) (by
      intro i hi
      have := h (i + 1) (by simp only [List.length_cons]; omega)
      simp only [List.take_succ_cons, List.sum_cons] at this
      rw [add_assoc, this])
    show rounded_sum rnd (rnd (s + x)) t = _
    rw [h0, ht, List.sum_cons, add_assoc]

/-- C18, amended: in float arithmetic, where `rnd` rounds the result of
every float operation and `rnd64` the host's division, for a live-weight
connection `W`, a zero accumulator of `W`'s buffer length, every `eta` and
every non-empty list of `m` deltas of that buffer length, accumulating the
deltas in order and then calling `update(W, accumulator, eta / m)` returns
normally with shape and length kept and, for every `k`,
`W[k] = rnd (W_old[k] - rnd (q * S_k))`, where `q = rnd (rnd64 (eta / m))` and
`S_k` is the sum of `D_1[k], ..., D_m[k]` accumulated in this order from 0,
each addition rounded.  Whenever none of the partial sums
`D_1[k] + ... + D_i[k]` is rounded, `S_k` is the exact sum
`D_1[k] + ... + D_m[k]`, and every reordering of the deltas none of whose
partial sums is rounded gives the same result. -/
theorem batch_training_contract_rnd (rnd rnd64 : F → F) (W acc : ConnectionObj F)
    (ds : List (ConnectionObj F)) (eta : F) (_hne : ds ≠ [])
    (hacc : acc.f = List.replicate W.f.length 0)
    (hds : ∀ d ∈ ds, d.f.length = W.f.length) :
    ∃ r, batch_step rnd rnd64 W acc ds eta = .ok r ∧ r.c = W.c ∧ r.f.length = W.f.length ∧
      (∀ k, k < W.f.length →
        r.f[k]? = some (rnd (W.f.getD k 0 -
          rnd (rnd (rnd64 (eta / (ds.length : F))) *
            rounded_sum rnd 0 (ds.map (fun d => d.f.getD k 0)))))) ∧
      ((∀ k, k < W.f.length → ∀ i, i < ds.length →
          rnd (((ds.map (fun d => d.f.getD k 0)).take (i + 1)).sum) =
            ((ds.map (fun d => d.f.getD k 0)).take (i + 1)).sum) →
        (∀ k, k < W.f.length →
          r.f[k]? = some (rnd (W.f.getD k 0 -
            rnd (rnd (rnd64 (eta / (ds.length : F))) *
              (ds.map (fun d => d.f.getD k 0)).sum)))) ∧
        ∀ ds2, ds.Perm ds2 →
          (∀ k, k < W.f.length → ∀ i, i < ds2.length →
            rnd (((ds2.map (fun d => d.f.getD k 0)).take (i + 1)).sum) =
              ((ds2.map (fun d => d.f.getD k 0)).take (i + 1)).sum) →
          batch_step rnd rnd64 W acc ds2 eta = .ok r) := by
  have hsum : ∀ (l : List (ConnectionObj F)) (k : Nat),
      (∀ i, i < l.length →
        rnd (((l.map (fun d => d.f.getD k 0)).take (i + 1)).sum) =
          ((l.map (fun d => d.f.getD k 0)).take (i + 1)).sum) →
      rounded_sum rnd 0 (l.map (fun d => d.f.getD k 0)) =
        (l.map (fun d => d.f.getD k 0)).sum := by
    intro l k hl
    have := rounded_sum_exact rnd (l.map (fun d => d.f.getD k 0)) 0 (by
      intro i hi
      rw [zero_add]
      exact hl i (by simpa using hi))
    rw [zero_add] at this
    exact this
  obtain ⟨r, hr, hrlen, hrval⟩ := batch_step_ok rnd rnd64 W acc ds eta hacc hds
  refine ⟨{ W with f := r }, hr, rfl, hrlen, hrval, ?_⟩
  intro hex
  have hexact : ∀ k, k < W.f.length →
      r[k]? = some (rnd (W.f.getD k 0 -
        rnd (rnd (rnd64 (eta / (ds.length : F))) *
          (ds.map (fun d => d.f.getD k 0)).sum))) := by
    intro k hk
    rw [hrval k hk, hsum ds k (hex k hk)]
  refine ⟨hexact, ?_⟩
  intro ds2 hperm hex2
  obtain ⟨r2, hr2, hrlen2, hrval2⟩ := batch_step_ok rnd rnd64 W acc ds2 eta hacc (by
    intro d hd; exact hds d (hperm.mem_iff.mpr hd))
  have : r2 = r := by
    apply list_eq_of_index r2 r
      (fun k => rnd (W.f.getD k 0 -
        rnd (rnd (rnd64 (eta / (ds.length : F))) *
          (ds.map (fun d => d.f.getD k 0)).sum)))
      (by omega)
    · intro k hk
      have hk1 : k < W.f.length := by omega
      rw [hrval2 k hk1, hsum ds2 k (hex2 k hk1), hperm.length_eq,
        (hperm.map (fun d => d.f.getD k 0)).sum_eq]
    · intro k hk
      exact hexact k (by omega)
  rw [hr2, this]

/-- The batch step on three deltas of two floats, for every rounding. -/
theorem batch_step_three (rnd rnd64 : F → F) (cw ca c1 c2 c3 : connection)
    (w0 w1 a0 a1 b0 b1 d0 d1 eta : F) :
    batch_step rnd rnd64 ⟨cw, [w0, w1]⟩ ⟨ca, [0, 0]⟩
        [⟨c1, [a0, a1]⟩, ⟨c2, [b0, b1]⟩, ⟨c3, [d0, d1]⟩] eta =
      .ok ⟨cw, [rnd (w0 - rnd (rnd (rnd64 (eta / 3)) * rnd (rnd (rnd (0 + a0) + b0) + d0))),
        rnd (w1 - rnd (rnd (rnd64 (eta / 3)) * rnd (rnd (rnd (0 + a1) + b1) + d1)))]⟩ := by
  simp only [batch_step, accumulate_all, lconnection_accumulate_rnd_pair,
    lconnection_update_rnd_pair, Outcome.map, List.length_cons, List.length_nil]
  norm_num

/-- Witness for C18, amended, in binary32 arithmetic with the division in
binary64: with `W = [1, 2]`, the deltas `[1, 2]` and `[3, 4]` and `eta = 2`
no operation is rounded, and the deltas in the other order give the same
result. -/
theorem batch_training_contract_rnd_witness :
    ∃ r, batch_step round32 round64 exampleAcc.base exampleConn exampleDeltas 2 = .ok r ∧
      r.c = exampleAcc.base.c ∧ r.f.length = exampleAcc.base.f.length ∧
      (∀ k, k < exampleAcc.base.f.length →
        r.f[k]? = some (round32 (exampleAcc.base.f.getD k 0 -
          round32 (round32 (round64 (2 / (exampleDeltas.length : ℚ))) *
            rounded_sum round32 0 (exampleDeltas.map (fun d => d.f.getD k 0)))))) ∧
      (∀ k, k < exampleAcc.base.f.length →
        r.f[k]? = some (round32 (exampleAcc.base.f.getD k 0 -
          round32 (round32 (round64 (2 / (exampleDeltas.length : ℚ))) *
            (exampleDeltas.map (fun d => d.f.getD k 0)).sum)))) ∧
      batch_step round32 round64 exampleAcc.base exampleConn exampleDeltas.reverse 2 =
        .ok r := by
  have h1 := round32_one
  have h2 := round32_two
  have h3 := round32_int 3 (by norm_num)
  have h4 := round32_int 4 (by norm_num)
  have h6 := round32_int 6 (by norm_num)
  norm_num at h3 h4 h6
  obtain ⟨r, hr, hc, hl, hv, hx⟩ := batch_training_contract_rnd round32 round64
    exampleAcc.base exampleConn exampleDeltas 2 (by simp [exampleDeltas]) rfl (by
      intro d hd
      simp only [exampleDeltas, List.mem_cons, List.mem_singleton, List.not_mem_nil,
        or_false] at hd
      rcases hd with rfl | rfl <;> rfl)
  obtain ⟨he, hp⟩ := hx (by
    intro k hk i hi
    have hk2 : k < 2 := hk
    have hi2 : i < 2 := hi
    interval_cases k <;> interval_cases i <;> norm_num [exampleDeltas, h1, h2, h3, h4, h6])
  refine ⟨r, hr, hc, hl, hv, he, hp _ (List.reverse_perm _).symm ?_⟩
  intro k hk i hi
  have hk2 : k < 2 := hk
  have hi2 : i < 2 := by simpa [exampleDeltas] using hi
  interval_cases k <;> interval_cases i <;> norm_num [exampleDeltas, h1, h2, h3, h4, h6]

/-- Counterexample to C18 as stated, in binary32 arithmetic with the
division in binary64: with `W = [0, 1]`, a zero accumulator, `eta = 3` and
the three deltas `[2^24, 0]`, `[1, 0]`, `[1, 0]`, accumulating in this order
leaves the accumulator `[2^24, 0]` (each `2^24 + 1` is rounded back to
`2^24`) and the update leaves `W = [-2^24, 1]`; accumulating the same deltas
in the order `[1, 0]`, `[1, 0]`, `[2^24, 0]` leaves `[2^24 + 2, 0]` and the
update leaves `W = [-(2^24 + 2), 1]`. -/
theorem batch_step_depends_on_order :
    exampleBatch.Perm exampleBatchReordered ∧
    batch_step round32 round64 exampleWeights exampleConn exampleBatch 3 =
      .ok ⟨⟨1, 1⟩, [-16777216, 1]⟩ ∧
    batch_step round32 round64 exampleWeights exampleConn exampleBatchReordered 3 =
      .ok ⟨⟨1, 1⟩, [-16777218, 1]⟩ ∧
    (⟨⟨1, 1⟩, [-16777216, 1]⟩ : ConnectionObj ℚ) ≠ ⟨⟨1, 1⟩, [-16777218, 1]⟩ := by
  have hq : round32 (round64 1) = 1 := by
    rw [round64_one, round32_one]
  have h16 : round32 16777216 = 16777216 := by
    have h := round32_repr 1 24 (by norm_num) (by norm_num)
    norm_num at h
    exact h
  refine ⟨?_, ?_, ?_, ?_⟩
  · show ([exampleBig] ++ [exampleUnit, exampleUnit]).Perm
      ([exampleUnit, exampleUnit] ++ [exampleBig])
    exact List.perm_append_comm
  · simp only [exampleBatch, exampleWeights, exampleConn, exampleBig, exampleUnit,
      batch_step_three]
    norm_num [hq, h16, round32_zero, round32_one, round32_16777217, round32_neg]
  · simp only [exampleBatchReordered, exampleWeights, exampleConn, exampleBig, exampleUnit,
      batch_step_three]
    norm_num [hq, round32_zero, round32_one, round32_two, round32_16777218, round32_neg]
  · intro h
    injection h with _ h2
    injection h2 with h3 _
    norm_num at h3

/-! ### The delta buffer after a backward pass -/

/-- Whatever the delta buffer held before, `backprop_last` leaves one and the
same buffer, every slot of which it has written, when `expect` is long
enough. -/
theorem lbackprop_last_overwrites (a : BackpropLastMem F)
    (h1 : a.delta.c.input_n = a.input.n) (h2 : a.delta.c.output_n = a.result.n)
    (hwf : a.delta.wf) (hexp : a.result.n ≤ a.expect.n) :
    ∃ g : List F, g.length = a.delta.c.input_n * a.delta.c.output_n + a.delta.c.output_n ∧
      (∀ i, i < a.delta.c.output_n →
        g[i]? = some ((a.result.data.getD i 0 - a.expect.data.getD i 0) *
          a.result.data.getD i 0 * (1 - a.result.data.getD i 0)) ∧
        ∀ j, j < a.delta.c.input_n →
          g[a.delta.c.output_n + i * a.delta.c.input_n + j]? =
            some ((a.result.data.getD i 0 - a.expect.data.getD i 0) *
              a.result.data.getD i 0 * (1 - a.result.data.getD i 0) *
              a.input.data.getD j 0)) ∧
      ∀ f1 : List F, f1.length = a.delta.f.length →
        lbackprop_last { a with delta := { a.delta with f := f1 } } =
          .ok { a with delta := { a.delta with f := g } } := by
  have key : ∀ f1 : List F, f1.length = a.delta.f.length →
      ∃ r, forLoop (lbackprop_last_body { a with delta := { a.delta with f := f1 } })
          a.delta.c.output_n 0 f1 = .ok r ∧ r.length = f1.length ∧
        ∀ i, i < a.delta.c.output_n →
          r[i]? = some ((a.result.data.getD i 0 - a.expect.data.getD i 0) *
            a.result.data.getD i 0 * (1 - a.result.data.getD i 0)) ∧
          ∀ j, j < a.delta.c.input_n →
            r[a.delta.c.output_n + i * a.delta.c.input_n + j]? =
              some ((a.result.data.getD i 0 - a.expect.data.getD i 0) *
                a.result.data.getD i 0 * (1 - a.result.data.getD i 0) *
                a.input.data.getD j 0) := by
    intro f1 hf1
    apply nabla_rows_loop (lbackprop_last_body { a with delta := { a.delta with f := f1 } })
      a.input a.delta.c
      (fun i => (a.result.data.getD i 0 - a.expect.data.getD i 0) *
        a.result.data.getD i 0 * (1 - a.result.data.getD i 0))
      f1 (by rw [hf1]; exact hwf) h1.symm
    intro i cur hi _
    have hi1 : i < a.result.data.length := by unfold layer.n at h2; omega
    have hi2 : i < a.expect.data.length := by unfold layer.n at hexp h2; omega
    simp only [lbackprop_last_body, List.getElem?_eq_getElem hi1,
      List.getElem?_eq_getElem hi2, List.getD_eq_getElem _ _ hi1,
      List.getD_eq_getElem _ _ hi2, sigmoid_prime, mul_assoc]
  obtain ⟨g, _, hglen, hgval⟩ := key a.delta.f rfl
  refine ⟨g, by rw [hglen]; exact hwf, hgval, ?_⟩
  intro f1 hf1
  obtain ⟨r, hr, hrlen, hrval⟩ := key f1 hf1
  have hrg : r = g := by
    apply buffers_eq_of_slots a.delta.c r g (by rw [hrlen, hf1]; exact hwf)
      (by rw [hglen]; exact hwf)
    · intro t ht
      rw [(hrval t ht).1, (hgval t ht).1]
    · intro t j ht hj
      rw [(hrval t ht).2 j hj, (hgval t ht).2 j hj]
  have hc : ¬ (a.delta.c.input_n ≠ a.input.n ∨ a.delta.c.output_n ≠ a.result.n) := by
    rw [not_or]; exact ⟨not_not.mpr h1, not_not.mpr h2⟩
  simp only [lbackprop_last, hc, if_false, hr, Outcome.map, hrg]

/-- Whatever the delta buffer held before, `backprop` leaves one and the same
buffer, every slot of which it has written, when `conn_output` has the shape
of `delta_last`. -/
theorem lbackprop_overwrites (a : BackpropMem F)
    (h1 : a.delta.c.output_n = a.delta_last.c.input_n)
    (h2 : a.delta.c.output_n = a.z.n)
    (h3 : a.delta.c.input_n = a.input.n)
    (h4 : a.conn_output.c = a.delta_last.c)
    (hwd : a.delta.wf) (hwl : a.delta_last.wf) (hwc : a.conn_output.wf) :
    ∃ g : List F, g.length = a.delta.c.input_n * a.delta.c.output_n + a.delta.c.output_n ∧
      (∀ i, i < a.delta.c.output_n →
        g[i]? = some ((∑ k in Finset.range a.delta_last.c.output_n,
            a.delta_last.f.getD k 0 *
              a.conn_output.f.getD
                (a.conn_output.c.output_n + k * a.conn_output.c.input_n + i) 0) *
          a.z.data.getD i 0 * (1 - a.z.data.getD i 0)) ∧
        ∀ j, j < a.delta.c.input_n →
          g[a.delta.c.output_n + i * a.delta.c.input_n + j]? =
            some ((∑ k in Finset.range a.delta_last.c.output_n,
                a.delta_last.f.getD k 0 *
                  a.conn_output.f.getD
                    (a.conn_output.c.output_n + k * a.conn_output.c.input_n + i) 0) *
              a.z.data.getD i 0 * (1 - a.z.data.getD i 0) * a.input.data.getD j 0)) ∧
      ∀ f1 : List F, f1.length = a.delta.f.length →
        lbackprop { a with delta := { a.delta with f := f1 } } =
          .ok { a with delta := { a.delta with f := g } } := by
  have key : ∀ f1 : List F, f1.length = a.delta.f.length →
      ∃ r, forLoop (lbackprop_body { a with delta := { a.delta with f := f1 } })
          a.delta.c.output_n 0 f1 = .ok r ∧ r.length = f1.length ∧
        ∀ i, i < a.delta.c.output_n →
          r[i]? = some ((∑ k in Finset.range a.delta_last.c.output_n,
              a.delta_last.f.getD k 0 *
                a.conn_output.f.getD
                  (a.conn_output.c.output_n + k * a.conn_output.c.input_n + i) 0) *
            a.z.data.getD i 0 * (1 - a.z.data.getD i 0)) ∧
          ∀ j, j < a.delta.c.input_n →
            r[a.delta.c.output_n + i * a.delta.c.input_n + j]? =
              some ((∑ k in Finset.range a.delta_last.c.output_n,
                  a.delta_last.f.getD k 0 *
                    a.conn_output.f.getD
                      (a.conn_output.c.output_n + k * a.conn_output.c.input_n + i) 0) *
                a.z.data.getD i 0 * (1 - a.z.data.getD i 0) * a.input.data.getD j 0) := by
    intro f1 hf1
    apply nabla_rows_loop (lbackprop_body { a with delta := { a.delta with f := f1 } })
      a.input a.delta.c
      (fun i => (∑ k in Finset.range a.delta_last.c.output_n,
            a.delta_last.f.getD k 0 *
              a.conn_output.f.getD
                (a.conn_output.c.output_n + k * a.conn_output.c.input_n + i) 0) *
          a.z.data.getD i 0 * (1 - a.z.data.getD i 0))
      f1 (by rw [hf1]; exact hwd) h3.symm
    intro i cur hi _
    have hi1 : i < a.z.data.length := by unfold layer.n at h2; omega
    have hs := lbackprop_sum_loop { a with delta := { a.delta with f := f1 } } i h1 h4 hwl hwc hi
    simp only at hs
    simp only [lbackprop_body, hs, List.getElem?_eq_getElem hi1,
      List.getD_eq_getElem _ _ hi1, sigmoid_prime, mul_assoc]
  obtain ⟨g, _, hglen, hgval⟩ := key a.delta.f rfl
  refine ⟨g, by rw [hglen]; exact hwd, hgval, ?_⟩
  intro f1 hf1
  obtain ⟨r, hr, hrlen, hrval⟩ := key f1 hf1
  have hrg : r = g := by
    apply buffers_eq_of_slots a.delta.c r g (by rw [hrlen, hf1]; exact hwd)
      (by rw [hglen]; exact hwd)
    · intro t ht
      rw [(hrval t ht).1, (hgval t ht).1]
    · intro t j ht hj
      rw [(hrval t ht).2 j hj, (hgval t ht).2 j hj]
  have hcall : lbackprop { a with delta := { a.delta with f := f1 } } = Outcome.map
      (fun d => { a with delta := { a.delta with f := d } })
      (forLoop (lbackprop_body { a with delta := { a.delta with f := f1 } })
        a.delta.c.output_n 0 f1) := by
    simp only [lbackprop, h1, ← h2, h3, ne_eq, not_true_eq_false, or_self, if_false]
  rw [hcall, hr, hrg]
  rfl

/-- C20: on every call of `backprop_last` whose shape test passes and whose
`expect` has at least `result.n` entries, and on every call of `backprop`
whose shape test passes and whose `conn_output` has the shape of
`delta_last` (connection buffers having the length of their shape), there is
one buffer `g` of `input_n * output_n + output_n` floats, with
`g.bias[i] = d_i` and `g.weight(i, j) = d_i * input[j]` in every slot, that
the call leaves in `delta` whatever `delta` held before: the call returns,
every slot is written and nothing of the prior contents remains.  The shape
test alone does not give this: on `exampleLastShort` (empty `expect`) and on
`exampleHiddenShort` (`conn_output` smaller than `delta_last`) the shape
test passes and, whatever `delta` holds, the call reads outside a buffer and
leaves no defined result. -/
theorem backprop_overwrites_delta_or_faults :
    (exampleLastShort.delta.c.input_n = exampleLastShort.input.n ∧
      exampleLastShort.delta.c.output_n = exampleLastShort.result.n ∧
      exampleLastShort.delta.wf ∧
      ∀ f1 : List ℚ, f1.length = exampleLastShort.delta.f.length →
        lbackprop_last { exampleLastShort with delta := ⟨⟨1, 1⟩, f1⟩ } = .fault) ∧
    (exampleHiddenShort.delta.c.output_n = exampleHiddenShort.delta_last.c.input_n ∧
      exampleHiddenShort.delta.c.output_n = exampleHiddenShort.z.n ∧
      exampleHiddenShort.delta.c.input_n = exampleHiddenShort.input.n ∧
      exampleHiddenShort.delta.wf ∧ exampleHiddenShort.delta_last.wf ∧
      exampleHiddenShort.conn_output.wf ∧
      ∀ f1 : List ℚ, f1.length = exampleHiddenShort.delta.f.length →
        lbackprop { exampleHiddenShort with delta := ⟨⟨1, 2⟩, f1⟩ } = .fault) ∧
    (∀ a : BackpropLastMem F,
      a.delta.c.input_n = a.input.n → a.delta.c.output_n = a.result.n → a.delta.wf →
      a.result.n ≤ a.expect.n →
      ∃ g : List F,
        g.length = a.delta.c.input_n * a.delta.c.output_n + a.delta.c.output_n ∧
        (∀ i, i < a.delta.c.output_n →
          g[i]? = some ((a.result.data.getD i 0 - a.expect.data.getD i 0) *
            a.result.data.getD i 0 * (1 - a.result.data.getD i 0)) ∧
          ∀ j, j < a.delta.c.input_n →
            g[a.delta.c.output_n + i * a.delta.c.input_n + j]? =
              some ((a.result.data.getD i 0 - a.expect.data.getD i 0) *
                a.result.data.getD i 0 * (1 - a.result.data.getD i 0) *
                a.input.data.getD j 0)) ∧
        ∀ f1 : List F, f1.length = a.delta.f.length →
          lbackprop_last { a with delta := { a.delta with f := f1 } } =
            .ok { a with delta := { a.delta with f := g } }) ∧
    (∀ a : BackpropMem F,
      a.delta.c.output_n = a.delta_last.c.input_n → a.delta.c.output_n = a.z.n →
      a.delta.c.input_n = a.input.n → a.conn_output.c = a.delta_last.c →
      a.delta.wf → a.delta_last.wf → a.conn_output.wf →
      ∃ g : List F,
        g.length = a.delta.c.input_n * a.delta.c.output_n + a.delta.c.output_n ∧
        (∀ i, i < a.delta.c.output_n →
          g[i]? = some ((∑ k in Finset.range a.delta_last.c.output_n,
              a.delta_last.f.getD k 0 *
                a.conn_output.f.getD
                  (a.conn_output.c.output_n + k * a.conn_output.c.input_n + i) 0) *
            a.z.data.getD i 0 * (1 - a.z.data.getD i 0)) ∧
          ∀ j, j < a.delta.c.input_n →
            g[a.delta.c.output_n + i * a.delta.c.input_n + j]? =
              some ((∑ k in Finset.range a.delta_last.c.output_n,
                  a.delta_last.f.getD k 0 *
                    a.conn_output.f.getD
                      (a.conn_output.c.output_n + k * a.conn_output.c.input_n + i) 0) *
                a.z.data.getD i 0 * (1 - a.z.data.getD i 0) * a.input.data.getD j 0)) ∧
        ∀ f1 : List F, f1.length = a.delta.f.length →
          lbackprop { a with delta := { a.delta with f := f1 } } =
            .ok { a with delta := { a.delta with f := g } }) := by
  refine ⟨⟨rfl, rfl, rfl, ?_⟩, ⟨rfl, rfl, rfl, rfl, rfl, rfl, ?_⟩,
    lbackprop_last_overwrites, lbackprop_overwrites⟩
  · intro f1 _
    simp [lbackprop_last, exampleLastShort, layer.n, forLoop, Outcome.map,
      lbackprop_last_body]
  · intro f1 _
    simp [lbackprop, exampleHiddenShort, layer.n, forLoop, Outcome.map, lbackprop_body,
      lbackprop_sum, weight, bias]

/-- Witness for C20: on `exampleLast` the prior contents `[7, 7]` and
`[0, 0]` of `delta` both end as `[-0.032, -0.032]`, and on `exampleHidden`
the prior contents `[0, 0, 0, 0]` and `[1, 2, 3, 4]` both end as
`[43/2, 59/2, 43/2, 59/2]`. -/
theorem backprop_overwrites_delta_or_faults_witness :
    (∃ g : List ℚ, g.length = 2 ∧
      lbackprop_last { exampleLast with delta := ⟨⟨1, 1⟩, [7, 7]⟩ } =
        .ok { exampleLast with delta := ⟨⟨1, 1⟩, g⟩ } ∧
      lbackprop_last { exampleLast with delta := ⟨⟨1, 1⟩, [0, 0]⟩ } =
        .ok { exampleLast with delta := ⟨⟨1, 1⟩, g⟩ }) ∧
    lbackprop_last { exampleLast with delta := ⟨⟨1, 1⟩, [0, 0]⟩ } =
      .ok { exampleLast with delta := ⟨⟨1, 1⟩, [-32 / 1000, -32 / 1000]⟩ } ∧
    (∃ g : List ℚ, g.length = 4 ∧
      lbackprop { exampleHidden with delta := ⟨⟨1, 2⟩, [0, 0, 0, 0]⟩ } =
        .ok { exampleHidden with delta := ⟨⟨1, 2⟩, g⟩ } ∧
      lbackprop { exampleHidden with delta := ⟨⟨1, 2⟩, [1, 2, 3, 4]⟩ } =
        .ok { exampleHidden with delta := ⟨⟨1, 2⟩, g⟩ }) ∧
    lbackprop { exampleHidden with delta := ⟨⟨1, 2⟩, [1, 2, 3, 4]⟩ } =
      .ok { exampleHidden with delta := ⟨⟨1, 2⟩, [43 / 2, 59 / 2, 43 / 2, 59 / 2]⟩ } := by
  obtain ⟨g1, hl1, _, hall1⟩ := (backprop_overwrites_delta_or_faults (F := ℚ)).2.2.1
    exampleLast rfl rfl rfl (Nat.le_refl _)
  obtain ⟨g2, hl2, _, hall2⟩ := (backprop_overwrites_delta_or_faults (F := ℚ)).2.2.2
    exampleHidden rfl rfl rfl rfl rfl rfl rfl
  refine ⟨⟨g1, hl1, hall1 [7, 7] rfl, hall1 [0, 0] rfl⟩, ?_,
    ⟨g2, hl2, hall2 [0, 0, 0, 0] rfl, hall2 [1, 2, 3, 4] rfl⟩, ?_⟩
  · simp [lbackprop_last, exampleLast, layer.n, forLoop, store, Outcome.map,
      lbackprop_last_body, nabla_store, nabla_w_body, weight, bias, sigmoid_prime]
    norm_num
  · simp [lbackprop, exampleHidden, layer.n, forLoop, store, Outcome.map,
      lbackprop_body, lbackprop_sum, nabla_store, nabla_w_body, weight, bias, sigmoid_prime]
    norm_num

end Proofs

end Ann
